import Mathlib

/-!
Verification development for the schema-consolidation engine of the
repository (scripts/smart_consolidate.py).

The Python module operates on JSON documents (OpenAPI specifications).  We
model JSON values as the inductive type `JSON` below; Python `dict`s become
association lists with (by the dict invariant) pairwise-distinct keys, and
Python's insertion order is the list order.  All definitions in the section
SOURCE EMBEDDING are direct translations of the Python source; definitions
in the section SPEC-SIDE DEFINITIONS formalise wording of the natural
language specification for comparison against the code.

Modelling conventions:
* JSON numbers are modelled as integers (the documents manipulated by the
  tool contain integral numbers; no claim depends on float formatting).
* Python `sorted` on strings compares by Unicode code point; we implement
  the same order on `List Char` (`charListLe`) and sort with the stable
  `List.insertionSort`, which agrees with Python's stable sort.
* Fractions (Jaccard similarity, pattern scores) are modelled in `ℚ`.
  The Python floats involved are quotients of small integers; division is
  monotone in rounded IEEE arithmetic and the comparisons performed by the
  code (`max`, `≥ 0.5`) are decided identically in `ℚ`.
* Python behaviour that raises an exception (e.g. `sorted` on a
  heterogeneous list) is outside every claim; on such inputs our total
  functions return a harmless default, and every theorem restricts to
  well-formed documents where the Python code does not raise.
-/

/-- JSON values.  Objects are insertion-ordered association lists, exactly
like Python dictionaries; well-formed objects have pairwise distinct keys. -/
inductive JSON where
  | null
  | bool (b : Bool)
  | num (n : Int)
  | str (s : String)
  | arr (elems : List JSON)
  | obj (fields : List (String × JSON))

namespace JSON

mutual

def beq : JSON → JSON → Bool
  | .null, .null => true
  | .bool a, .bool b => a == b
  | .num a, .num b => a == b
  | .str a, .str b => a == b
  | .arr xs, .arr ys => beqList xs ys
  | .obj xs, .obj ys => beqFields xs ys
  | _, _ => false

def beqList : List JSON → List JSON → Bool
  | [], [] => true
  | x :: xs, y :: ys => beq x y && beqList xs ys
  | _, _ => false

def beqFields : List (String × JSON) → List (String × JSON) → Bool
  | [], [] => true
  | (k, v) :: xs, (k', v') :: ys => k == k' && beq v v' && beqFields xs ys
  | _, _ => false

end

mutual

theorem beq_iff : ∀ a b, beq a b = true ↔ a = b
  | .null, .null => by simp [beq]
  | .bool _, .bool _ => by simp [beq]
  | .num _, .num _ => by simp [beq]
  | .str _, .str _ => by simp [beq]
  | .arr xs, .arr ys => by simp [beq, beqList_iff xs ys]
  | .obj xs, .obj ys => by simp [beq, beqFields_iff xs ys]
  | .null, .bool _ => by simp [beq]
  | .null, .num _ => by simp [beq]
  | .null, .str _ => by simp [beq]
  | .null, .arr _ => by simp [beq]
  | .null, .obj _ => by simp [beq]
  | .bool _, .null => by simp [beq]
  | .bool _, .num _ => by simp [beq]
  | .bool _, .str _ => by simp [beq]
  | .bool _, .arr _ => by simp [beq]
  | .bool _, .obj _ => by simp [beq]
  | .num _, .null => by simp [beq]
  | .num _, .bool _ => by simp [beq]
  | .num _, .str _ => by simp [beq]
  | .num _, .arr _ => by simp [beq]
  | .num _, .obj _ => by simp [beq]
  | .str _, .null => by simp [beq]
  | .str _, .bool _ => by simp [beq]
  | .str _, .num _ => by simp [beq]
  | .str _, .arr _ => by simp [beq]
  | .str _, .obj _ => by simp [beq]
  | .arr _, .null => by simp [beq]
  | .arr _, .bool _ => by simp [beq]
  | .arr _, .num _ => by simp [beq]
  | .arr _, .str _ => by simp [beq]
  | .arr _, .obj _ => by simp [beq]
  | .obj _, .null => by simp [beq]
  | .obj _, .bool _ => by simp [beq]
  | .obj _, .num _ => by simp [beq]
  | .obj _, .str _ => by simp [beq]
  | .obj _, .arr _ => by simp [beq]

theorem beqList_iff : ∀ xs ys, beqList xs ys = true ↔ xs = ys
  | [], [] => by simp [beqList]
  | x :: xs, y :: ys => by simp [beqList, beq_iff x y, beqList_iff xs ys]
  | [], _ :: _ => by simp [beqList]
  | _ :: _, [] => by simp [beqList]

theorem beqFields_iff : ∀ xs ys, beqFields xs ys = true ↔ xs = ys
  | [], [] => by simp [beqFields]
  | (k, v) :: xs, (k', v') :: ys => by
      simp [beqFields, beq_iff v v', beqFields_iff xs ys, Prod.ext_iff, and_assoc]
  | [], _ :: _ => by simp [beqFields]
  | _ :: _, [] => by simp [beqFields]

end

instance : DecidableEq JSON := fun a b => decidable_of_iff _ (beq_iff a b)

/-- Python dictionary lookup on an association list (first matching key;
well-formed objects have distinct keys, so at most one key matches). -/
def getKey (fields : List (String × JSON)) (k : String) : Option JSON :=
  match fields with
  | [] => none
  | (k', v) :: rest => if k' = k then some v else getKey rest k

/-- Membership test for a key, mirroring Python's `k in dict`. -/
def hasKey (fields : List (String × JSON)) (k : String) : Bool :=
  (getKey fields k).isSome

end JSON

/-! ### String order (Python's code-point lexicographic comparison) -/

/-- Lexicographic comparison of character lists by Unicode code point;
this is exactly the order Python uses to compare strings. -/
def charListLe : List Char → List Char → Bool
  | [], _ => true
  | _ :: _, [] => false
  | a :: as, b :: bs => if a = b then charListLe as bs else decide (a < b)

/-- Python's `s1 <= s2` on strings. -/
def strLe (a b : String) : Bool := charListLe a.data b.data

/-- The comparison `strLe` as a binary relation, for use with
`List.insertionSort`. -/
def strLeR (a b : String) : Prop := strLe a b = true

instance : DecidableRel strLeR := fun a b => by unfold strLeR; infer_instance

theorem charListLe_total : ∀ as bs, charListLe as bs = true ∨ charListLe bs as = true := by
  intro as
  induction as with
  | nil => intro bs; left; rfl
  | cons a as ih =>
    intro bs
    cases bs with
    | nil => right; rfl
    | cons b bs =>
      by_cases hab : a = b
      · subst hab
        rcases ih bs with h | h
        · left; simpa [charListLe]
        · right; simpa [charListLe]
      · rcases lt_or_gt_of_ne hab with h | h
        · left; simp [charListLe, hab, h]
        · right; simp [charListLe, Ne.symm hab, h, not_lt.mpr (le_of_lt h)]

theorem charListLe_antisymm :
    ∀ as bs, charListLe as bs = true → charListLe bs as = true → as = bs := by
  intro as
  induction as with
  | nil => intro bs h1 h2; cases bs with
    | nil => rfl
    | cons b bs => simp [charListLe] at h2
  | cons a as ih =>
    intro bs h1 h2
    cases bs with
    | nil => simp [charListLe] at h1
    | cons b bs =>
      by_cases hab : a = b
      · subst hab
        simp only [charListLe, if_pos rfl] at h1 h2
        rw [ih bs h1 h2]
      · simp only [charListLe, if_neg hab, decide_eq_true_eq] at h1
        simp only [charListLe, if_neg (Ne.symm hab), decide_eq_true_eq] at h2
        exact absurd h2 (not_lt.mpr (le_of_lt h1))

theorem charListLe_trans : ∀ as bs cs, charListLe as bs = true → charListLe bs cs = true →
    charListLe as cs = true := by
  intro as
  induction as with
  | nil => intros; rfl
  | cons a as ih =>
    intro bs cs h1 h2
    cases bs with
    | nil => simp [charListLe] at h1
    | cons b bs =>
      cases cs with
      | nil => simp [charListLe] at h2
      | cons c cs =>
        by_cases hab : a = b <;> by_cases hbc : b = c
        · subst hab; subst hbc
          simp only [charListLe, if_pos rfl] at h1 h2 ⊢
          exact ih bs cs h1 h2
        · subst hab
          simpa [charListLe, hbc] using h2
        · subst hbc
          simpa [charListLe, hab] using h1
        · simp only [charListLe, if_neg hab, decide_eq_true_eq] at h1
          simp only [charListLe, if_neg hbc, decide_eq_true_eq] at h2
          have hac : a < c := lt_trans h1 h2
          simp [charListLe, ne_of_lt hac, hac]

instance : IsTotal String strLeR := ⟨fun a b => charListLe_total a.data b.data⟩
instance : IsTrans String strLeR := ⟨fun a b c => charListLe_trans a.data b.data c.data⟩
instance : IsAntisymm String strLeR :=
  ⟨fun a b h1 h2 => String.ext (charListLe_antisymm a.data b.data h1 h2)⟩

/-- Python's `sorted` on a list of strings (stable; code-point order). -/
def sortStrings (l : List String) : List String := List.insertionSort strLeR l

/-- Sorting a list of strings is canonical: permuted inputs sort equal. -/
theorem sortStrings_perm_invariant {l₁ l₂ : List String} (h : l₁.Perm l₂) :
    sortStrings l₁ = sortStrings l₂ :=
  @List.eq_of_perm_of_sorted String strLeR _ _ _
    (((List.perm_insertionSort strLeR l₁).trans h).trans
      (List.perm_insertionSort strLeR l₂).symm)
    (List.sorted_insertionSort strLeR l₁)
    (List.sorted_insertionSort strLeR l₂)

theorem sortStrings_perm (l : List String) : (sortStrings l).Perm l :=
  List.perm_insertionSort strLeR l

/-- Comparison of key/value pairs by key, as Python's `sorted(dict.items())`
behaves when all keys are distinct (tuple comparison never reaches the
second component). -/
def pairLeR (p q : String × JSON) : Prop := strLe p.1 q.1 = true

instance : DecidableRel pairLeR := fun p q => by unfold pairLeR; infer_instance
instance : IsTotal (String × JSON) pairLeR := ⟨fun p q => charListLe_total p.1.data q.1.data⟩
instance : IsTrans (String × JSON) pairLeR :=
  ⟨fun p q r => charListLe_trans p.1.data q.1.data r.1.data⟩

/-- Python's `sorted(d.items())` for a dict `d` (keys distinct). -/
def sortPairs (l : List (String × JSON)) : List (String × JSON) :=
  List.insertionSort pairLeR l

theorem sortPairs_perm (l : List (String × JSON)) : (sortPairs l).Perm l :=
  List.perm_insertionSort pairLeR l

/-- On pair lists with pairwise-distinct keys, sorting by key is canonical:
permuted inputs sort equal. -/
theorem sortPairs_perm_invariant {l₁ l₂ : List (String × JSON)} (h : l₁.Perm l₂)
    (hnd : (l₁.map Prod.fst).Nodup) : sortPairs l₁ = sortPairs l₂ := by
  have hnd₂ : (l₂.map Prod.fst).Nodup := ((h.map Prod.fst).nodup_iff).mp hnd
  have hperm : (sortPairs l₁).Perm (sortPairs l₂) :=
    ((sortPairs_perm l₁).trans h).trans (sortPairs_perm l₂).symm
  have hs₁ := List.sorted_insertionSort pairLeR l₁
  have hs₂ := List.sorted_insertionSort pairLeR l₂
  have hnds₁ : ((sortPairs l₁).map Prod.fst).Nodup :=
    (((sortPairs_perm l₁).map Prod.fst).nodup_iff).mpr hnd
  have hnds₂ : ((sortPairs l₂).map Prod.fst).Nodup :=
    (((sortPairs_perm l₂).map Prod.fst).nodup_iff).mpr hnd₂
  -- strengthen sortedness to the strict (hence vacuously antisymmetric) order
  have strict : ∀ (l : List (String × JSON)), List.Sorted pairLeR l →
      ((l.map Prod.fst).Nodup) →
      List.Sorted (fun p q : String × JSON => pairLeR p q ∧ p.1 ≠ q.1) l := by
    intro l
    induction l with
    | nil => intro _ _; exact List.sorted_nil
    | cons x xs ih =>
      intro hs hnd
      rw [List.sorted_cons] at hs
      rw [List.map_cons, List.nodup_cons] at hnd
      refine List.sorted_cons.mpr ⟨?_, ih hs.2 hnd.2⟩
      intro b hb
      refine ⟨hs.1 b hb, ?_⟩
      intro hfst
      exact hnd.1 (hfst ▸ List.mem_map_of_mem Prod.fst hb)
  have : IsAntisymm (String × JSON) (fun p q : String × JSON => pairLeR p q ∧ p.1 ≠ q.1) := by
    constructor
    intro p q h1 h2
    exact absurd (String.ext (charListLe_antisymm _ _ h1.1 h2.1)) h1.2
  exact List.eq_of_perm_of_sorted hperm
    (strict _ hs₁ hnds₁) (strict _ hs₂ hnds₂)

/-! ### Substring utilities (Python `in`, `startswith`, `replace`) -/

/-- Does the first list occur as a leading segment of the second? -/
def leadsList : List Char → List Char → Bool
  | [], _ => true
  | _ :: _, [] => false
  | a :: as, b :: bs => a = b && leadsList as bs

/-- Python's `needle in hay` substring test. -/
def containsList (needle : List Char) : List Char → Bool
  | [] => leadsList needle []
  | c :: rest => leadsList needle (c :: rest) || containsList needle rest

/-- Python's `sub in s` on strings. -/
def containsSub (s sub : String) : Bool := containsList sub.data s.data

/-- Python's `s.startswith(pre)`. -/
def strStarts (s pre : String) : Bool := leadsList pre.data s.data

/-- Python's `s.endswith(suf)`. -/
def strEnds (s suf : String) : Bool := leadsList suf.data.reverse s.data.reverse

/-- Fueled core of Python's `s.replace(pat, "")` (delete every
non-overlapping occurrence, scanning left to right).  The fuel is the
length of the scanned list, which always suffices for nonempty patterns. -/
def removeAllF (pat : List Char) : Nat → List Char → List Char
  | 0, _ => []
  | _ + 1, [] => []
  | fuel + 1, c :: rest =>
    if leadsList pat (c :: rest) then
      removeAllF pat fuel (List.drop (pat.length - 1) rest)
    else
      c :: removeAllF pat fuel rest

/-- Python's `s.replace(pat, "")` for a nonempty pattern. -/
def removeAll (s pat : String) : String :=
  String.mk (removeAllF pat.data s.data.length s.data)

/-! ### Decimal rendering of numbers (Python `str`) -/

/-- The character of a decimal digit. -/
def digitChar (n : Nat) : Char := Char.ofNat (48 + n)

/-- Fueled little-endian digit expansion; fuel `n` suffices. -/
def natDecRev : Nat → Nat → List Char
  | 0, n => [digitChar (n % 10)]
  | fuel + 1, n => if n < 10 then [digitChar n] else digitChar (n % 10) :: natDecRev fuel (n / 10)

/-- Python's `str(n)` for a natural number. -/
def natDecimal (n : Nat) : String := String.mk (natDecRev n n).reverse

/-- Python's `str(n)` for an integer. -/
def intDecimal : Int → String
  | .ofNat m => natDecimal m
  | .negSucc m => "-" ++ natDecimal (m + 1)

/-- Numeric value of a big-endian digit string (left inverse used to prove
`natDecimal` injective). -/
def decValue (l : List Char) : Nat := l.foldl (fun a c => 10 * a + (c.toNat - 48)) 0

theorem digitChar_toNat {k : Nat} (h : k < 10) : (digitChar k).toNat = 48 + k := by
  interval_cases k <;> decide

theorem decValue_append_digit (xs : List Char) (c : Char) :
    decValue (xs ++ [c]) = 10 * decValue xs + (c.toNat - 48) := by
  simp [decValue, List.foldl_append]

theorem natDecRev_val : ∀ fuel n, n ≤ fuel → decValue (natDecRev fuel n).reverse = n := by
  intro fuel
  induction fuel with
  | zero =>
    intro n hn
    interval_cases n
    simp [natDecRev, decValue, digitChar_toNat]
  | succ fuel ih =>
    intro n hn
    by_cases h : n < 10
    · simp [natDecRev, h, decValue, digitChar_toNat h]
    · have hdiv : n / 10 ≤ fuel := by
        have h1 : n / 10 < n := Nat.div_lt_self (by omega) (by omega)
        omega
      have hmod : n % 10 < 10 := Nat.mod_lt _ (by omega)
      simp only [natDecRev, if_neg h, List.reverse_cons]
      rw [decValue_append_digit, ih _ hdiv, digitChar_toNat hmod]
      omega

theorem natDecimal_injective : Function.Injective natDecimal := by
  intro m n h
  have hm := natDecRev_val m m le_rfl
  have hn := natDecRev_val n n le_rfl
  have : (natDecRev m m).reverse = (natDecRev n n).reverse := by
    have := congrArg String.data h
    simpa [natDecimal] using this
  rw [this, hn] at hm
  exact hm.symm

/-! ### Python `str`/`repr` rendering of JSON values -/

/-- Python's `sep.join(parts)`. -/
def joinWith (sep : String) : List String → String
  | [] => ""
  | [x] => x
  | x :: y :: rest => x ++ sep ++ joinWith sep (y :: rest)

mutual

/-- Python's `repr` of a JSON value (as used inside f-strings for
containers).  String quoting assumes the strings contain no quote,
backslash or control characters, which holds for every schema document
the tool processes. -/
def pyRepr : JSON → String
  | .null => "None"
  | .bool true => "True"
  | .bool false => "False"
  | .num n => intDecimal n
  | .str s => "\x27" ++ s ++ "\x27"
  | .arr xs => "[" ++ pyReprList xs ++ "]"
  | .obj fs => "\x7b" ++ pyReprFields fs ++ "\x7d"

def pyReprList : List JSON → String
  | [] => ""
  | [x] => pyRepr x
  | x :: y :: rest => pyRepr x ++ ", " ++ pyReprList (y :: rest)

def pyReprFields : List (String × JSON) → String
  | [] => ""
  | [(k, v)] => "\x27" ++ k ++ "\x27: " ++ pyRepr v
  | (k, v) :: p :: rest => "\x27" ++ k ++ "\x27: " ++ pyRepr v ++ ", " ++ pyReprFields (p :: rest)

end

/-- Python's `str` of a JSON value: like `repr` except that strings render
without quotes (f-string interpolation). -/
def pyStr : JSON → String
  | .str s => s
  | v => pyRepr v

/-- Python's `repr` of a list of Python strings (rendering of
`f"{sorted_list}"`). -/
def pyReprStrList (l : List String) : String :=
  "[" ++ joinWith ", " (l.map (fun s => "\x27" ++ s ++ "\x27")) ++ "]"

/-! ### Canonical form (equality of `json.dumps(·, sort_keys=True)`) -/

mutual

/-- Recursively sort every object's fields by key.  Two JSON values have
equal `json.dumps(·, sort_keys=True)` serialisations exactly when their
canonical forms are equal (the serialisation is injective on values). -/
def canon : JSON → JSON
  | .arr xs => .arr (canonList xs)
  | .obj fs => .obj (sortPairs (canonFields fs))
  | v => v

def canonList : List JSON → List JSON
  | [] => []
  | x :: xs => canon x :: canonList xs

def canonFields : List (String × JSON) → List (String × JSON)
  | [] => []
  | (k, v) :: fs => (k, canon v) :: canonFields fs

end

/-! ### Nesting depth (recursion fuel for the signature function) -/

mutual

def jdepth : JSON → Nat
  | .arr xs => 1 + jdepthList xs
  | .obj fs => 1 + jdepthFields fs
  | .null => 0
  | .bool _ => 0
  | .num _ => 0
  | .str _ => 0

def jdepthList : List JSON → Nat
  | [] => 0
  | x :: xs => max (jdepth x) (jdepthList xs)

def jdepthFields : List (String × JSON) → Nat
  | [] => 0
  | (_, v) :: fs => max (jdepth v) (jdepthFields fs)

end

theorem jdepth_mem_list {x : JSON} {xs : List JSON} (h : x ∈ xs) :
    jdepth x ≤ jdepthList xs := by
  induction xs with
  | nil => cases h
  | cons y ys ih =>
    rcases List.mem_cons.mp h with rfl | h'
    · simp [jdepthList]
    · simp [jdepthList]
      exact Or.inr (ih h')

theorem jdepth_mem_fields {p : String × JSON} {fs : List (String × JSON)} (h : p ∈ fs) :
    jdepth p.2 ≤ jdepthFields fs := by
  induction fs with
  | nil => cases h
  | cons q qs ih =>
    obtain ⟨k, v⟩ := q
    rcases List.mem_cons.mp h with rfl | h'
    · simp [jdepthFields]
    · simp [jdepthFields]
      exact Or.inr (ih h')

theorem jdepth_getKey {fs : List (String × JSON)} {k : String} {v : JSON}
    (h : JSON.getKey fs k = some v) : jdepth v ≤ jdepthFields fs := by
  induction fs with
  | nil => simp [JSON.getKey] at h
  | cons q qs ih =>
    cases q with | mk k' v' =>
      by_cases hk : k' = k
      · simp [JSON.getKey, hk] at h
        subst h
        simp [jdepthFields]
      · simp [JSON.getKey, hk] at h
        simp [jdepthFields]
        exact Or.inr (ih h)

/-! ### SOURCE EMBEDDING: SchemaStructureAnalyzer -/

/-- The validation constraints included in the signature when
`include_constraints` is true (smart_consolidate.py lines 56-57). -/
def constraintKeys : List String :=
  ["minLength", "maxLength", "minimum", "maximum", "pattern", "minItems", "maxItems", "uniqueItems"]

/-- The `nullable` flag read for each property:
`prop_def.get('nullable', False)` (line 66).  Python raises on a non-dict
property definition; outside the claims we default to `False`. -/
def nullableOf : JSON → JSON
  | .obj f => (JSON.getKey f "nullable").getD (.bool false)
  | _ => .bool false

/-- Rendering of one `required` entry.  In every schema document `required`
is a list of property-name strings; Python's `sorted` raises on
heterogeneous lists, which is outside the claims. -/
def pyReqElem : JSON → String
  | .str s => s
  | v => pyStr v


/-- One `allOf`/`oneOf`/`anyOf` signature part (lines 82-86): member
signatures are sorted before joining.  A non-list value makes Python
iterate something else entirely (outside the claims); we contribute
nothing in that case. -/
def sigCombinator (rec : JSON → String) (fields : List (String × JSON)) (key : String) :
    List String :=
  match JSON.getKey fields key with
  | some (.arr xs) => [key ++ "=[" ++ joinWith ";" (sortStrings (xs.map rec)) ++ "]"]
  | some _ => []
  | none => []

/-- The `props=` signature part (lines 61-68): properties sorted by name,
each contributing `name:childSignature:n=nullable`.  A non-dict
`properties` value makes Python raise (outside the claims). -/
def sigProps (rec : JSON → String) (fields : List (String × JSON)) : List String :=
  match JSON.getKey fields "properties" with
  | some (.obj props) =>
      ["props=[" ++ joinWith ";" ((sortPairs props).map
        (fun p => p.1 ++ ":" ++ rec p.2 ++ ":n=" ++ pyStr (nullableOf p.2))) ++ "]"]
  | some _ => []
  | none => []

/-- The `items=` signature part (lines 79-80). -/
def sigItems (rec : JSON → String) (fields : List (String × JSON)) : List String :=
  match JSON.getKey fields "items" with
  | some v => ["items=" ++ rec v]
  | none => []

/-- The `addProps=` signature part (lines 88-94): recurse on a dict value,
render the raw value otherwise. -/
def sigAddProps (rec : JSON → String) (fields : List (String × JSON)) : List String :=
  match JSON.getKey fields "additionalProperties" with
  | some (.obj f) => ["addProps=" ++ rec (.obj f)]
  | some v => ["addProps=" ++ pyStr v]
  | none => []

/-- Body of `get_structural_signature` for a dict node (lines 40-96),
parameterised by the recursive call `rec`. -/
def sigObjBody (c : Bool) (rec : JSON → String) (fields : List (String × JSON)) : String :=
  joinWith "|"
    ((match JSON.getKey fields "type" with
      | some v => ["type=" ++ pyStr v]
      | none => []) ++
     (match JSON.getKey fields "format" with
      | some v => ["format=" ++ pyStr v]
      | none => []) ++
     (match JSON.getKey fields "$ref" with
      | some v => ["ref=" ++ pyStr v]
      | none => []) ++
     (if c then
        constraintKeys.filterMap
          (fun ck => (JSON.getKey fields ck).map (fun v => ck ++ "=" ++ pyStr v))
      else []) ++
     sigProps rec fields ++
     (match JSON.getKey fields "required" with
      | some (.arr xs) => ["req=" ++ pyReprStrList (sortStrings (xs.map pyReqElem))]
      | some _ => []
      | none => []) ++
     (match JSON.getKey fields "enum" with
      | some (.arr xs) => ["enum=" ++ pyReprStrList (sortStrings (xs.map pyStr))]
      | some _ => []
      | none => []) ++
     sigItems rec fields ++
     sigCombinator rec fields "allOf" ++
     sigCombinator rec fields "oneOf" ++
     sigCombinator rec fields "anyOf" ++
     sigAddProps rec fields)

/-- Fueled recursion for `get_structural_signature`; the nesting depth of
the node is always a sufficient fuel, and the fueled function is
fuel-independent above that bound (`sigGo_eq`). -/
def sigGo (c : Bool) : Nat → JSON → String
  | _, .null => pyStr .null
  | _, .bool b => pyStr (.bool b)
  | _, .num n => pyStr (.num n)
  | _, .str s => pyStr (.str s)
  | _, .arr xs => pyStr (.arr xs)
  | 0, .obj _ => ""
  | fuel + 1, .obj fields => sigObjBody c (sigGo c fuel) fields

/-- `SchemaStructureAnalyzer.get_structural_signature(schema,
include_constraints=c)` (lines 26-96).  The Python `depth` argument is
never read and is dropped. -/
def getStructuralSignature (c : Bool) (j : JSON) : String := sigGo c (jdepth j) j

theorem sigCombinator_congr {rec1 rec2 : JSON → String} {fields : List (String × JSON)}
    (key : String) (H : ∀ v, jdepth v ≤ jdepthFields fields → rec1 v = rec2 v) :
    sigCombinator rec1 fields key = sigCombinator rec2 fields key := by
  unfold sigCombinator
  cases hk : JSON.getKey fields key with
  | none => rfl
  | some v =>
    cases v with
    | arr xs =>
      have hxs : ∀ x ∈ xs, rec1 x = rec2 x := by
        intro x hx
        apply H
        calc jdepth x ≤ jdepthList xs := jdepth_mem_list hx
          _ ≤ jdepth (.arr xs) := by simp [jdepth]
          _ ≤ jdepthFields fields := jdepth_getKey hk
      simp only [List.map_congr_left hxs]
    | null => rfl
    | bool b => rfl
    | num n => rfl
    | str s => rfl
    | obj f => rfl

theorem sigProps_congr {rec1 rec2 : JSON → String} {fields : List (String × JSON)}
    (H : ∀ v, jdepth v ≤ jdepthFields fields → rec1 v = rec2 v) :
    sigProps rec1 fields = sigProps rec2 fields := by
  unfold sigProps
  cases hk : JSON.getKey fields "properties" with
  | none => rfl
  | some v =>
    cases v with
    | obj props =>
      have hxs : ∀ p ∈ sortPairs props,
          (p.1 ++ ":" ++ rec1 p.2 ++ ":n=" ++ pyStr (nullableOf p.2)) =
          (p.1 ++ ":" ++ rec2 p.2 ++ ":n=" ++ pyStr (nullableOf p.2)) := by
        intro p hp
        have hp' : p ∈ props := (sortPairs_perm props).mem_iff.mp hp
        have : rec1 p.2 = rec2 p.2 := by
          apply H
          calc jdepth p.2 ≤ jdepthFields props := jdepth_mem_fields hp'
            _ ≤ jdepth (.obj props) := by simp [jdepth]
            _ ≤ jdepthFields fields := jdepth_getKey hk
        rw [this]
      simp only [List.map_congr_left hxs]
    | null => rfl
    | bool b => rfl
    | num n => rfl
    | str s => rfl
    | arr xs => rfl

theorem sigItems_congr {rec1 rec2 : JSON → String} {fields : List (String × JSON)}
    (H : ∀ v, jdepth v ≤ jdepthFields fields → rec1 v = rec2 v) :
    sigItems rec1 fields = sigItems rec2 fields := by
  unfold sigItems
  cases hk : JSON.getKey fields "items" with
  | none => rfl
  | some v => simp only [H v (jdepth_getKey hk)]

theorem sigAddProps_congr {rec1 rec2 : JSON → String} {fields : List (String × JSON)}
    (H : ∀ v, jdepth v ≤ jdepthFields fields → rec1 v = rec2 v) :
    sigAddProps rec1 fields = sigAddProps rec2 fields := by
  unfold sigAddProps
  cases hk : JSON.getKey fields "additionalProperties" with
  | none => rfl
  | some v =>
    cases v with
    | obj f => simp only [H (.obj f) (jdepth_getKey hk)]
    | null => rfl
    | bool b => rfl
    | num n => rfl
    | str s => rfl
    | arr xs => rfl

theorem sigObjBody_congr {c : Bool} {rec1 rec2 : JSON → String} {fields : List (String × JSON)}
    (H : ∀ v, jdepth v ≤ jdepthFields fields → rec1 v = rec2 v) :
    sigObjBody c rec1 fields = sigObjBody c rec2 fields := by
  unfold sigObjBody
  rw [sigProps_congr H, sigItems_congr H, sigAddProps_congr H,
    sigCombinator_congr "allOf" H, sigCombinator_congr "oneOf" H,
    sigCombinator_congr "anyOf" H]

/-- On non-dict nodes the fueled signature ignores its fuel. -/
theorem sigGo_fuel_free (c : Bool) (j : JSON) (h : ∀ fs, j ≠ JSON.obj fs) :
    ∀ fuel, sigGo c fuel j = pyStr j := by
  intro fuel
  cases j with
  | null => cases fuel <;> rfl
  | bool b => cases fuel <;> rfl
  | num n => cases fuel <;> rfl
  | str s => cases fuel <;> rfl
  | arr xs => cases fuel <;> rfl
  | obj fs => exact absurd rfl (h fs)

/-- The fueled signature equals `getStructuralSignature` for every
sufficient fuel. -/
theorem sigGo_eq (c : Bool) : ∀ fuel (j : JSON), jdepth j ≤ fuel →
    sigGo c fuel j = getStructuralSignature c j := by
  intro fuel
  induction fuel using Nat.strong_induction_on with
  | _ fuel ih =>
    intro j hj
    cases j with
    | null =>
        unfold getStructuralSignature
        rw [sigGo_fuel_free c _ (by intro fs h; cases h) fuel,
          sigGo_fuel_free c _ (by intro fs h; cases h)]
    | bool b =>
        unfold getStructuralSignature
        rw [sigGo_fuel_free c _ (by intro fs h; cases h) fuel,
          sigGo_fuel_free c _ (by intro fs h; cases h)]
    | num n =>
        unfold getStructuralSignature
        rw [sigGo_fuel_free c _ (by intro fs h; cases h) fuel,
          sigGo_fuel_free c _ (by intro fs h; cases h)]
    | str s =>
        unfold getStructuralSignature
        rw [sigGo_fuel_free c _ (by intro fs h; cases h) fuel,
          sigGo_fuel_free c _ (by intro fs h; cases h)]
    | arr xs =>
        unfold getStructuralSignature
        rw [sigGo_fuel_free c _ (by intro fs h; cases h) fuel,
          sigGo_fuel_free c _ (by intro fs h; cases h)]
    | obj fields =>
      have hd : jdepth (JSON.obj fields) = jdepthFields fields + 1 := by
        simp [jdepth]; omega
      cases fuel with
      | zero => rw [hd] at hj; omega
      | succ f =>
        have hf : jdepthFields fields ≤ f := by rw [hd] at hj; omega
        have step : ∀ g, jdepthFields fields ≤ g →
            sigGo c (g + 1) (JSON.obj fields) = sigObjBody c (sigGo c g) fields := by
          intro g _; rfl
        rw [step f hf]
        unfold getStructuralSignature
        rw [hd, step (jdepthFields fields) le_rfl]
        apply sigObjBody_congr
        intro v hv
        have h1 : sigGo c f v = getStructuralSignature c v :=
          ih f (Nat.lt_succ_self f) v (le_trans hv hf)
        have h2 : sigGo c (jdepthFields fields) v = getStructuralSignature c v :=
          ih (jdepthFields fields) (by omega) v hv
        rw [h1, h2]

/-- Coarse type of one property:
`prop_def.get('type', 'ref' if '$ref' in prop_def else 'unknown')`
(line 109).  Python raises on a non-dict property definition (outside the
claims). -/
def attrTypeOf : JSON → JSON
  | .obj f =>
    (match JSON.getKey f "type" with
     | some v => v
     | none => if JSON.hasKey f "$ref" then .str "ref" else .str "unknown")
  | _ => .str "unknown"

/-- `SchemaStructureAnalyzer.get_attribute_set` (lines 98-112): the set of
`(property name, coarse type)` pairs, empty for non-dicts and for schemas
without `properties`.  Python builds a `frozenset`; we build a `Finset`.
A non-dict `properties` value makes Python raise (outside the claims). -/
def getAttributeSet : JSON → Finset (String × JSON)
  | .obj fields =>
    (match JSON.getKey fields "properties" with
     | some (.obj props) => (props.map (fun p => (p.1, attrTypeOf p.2))).toFinset
     | some _ => ∅
     | none => ∅)
  | _ => ∅

/-- Result record of `compare_schemas` (lines 114-146). -/
structure CompareResult where
  exact_match : Bool
  structural_match : Bool
  attribute_match : ℚ
  missing_in_1 : Finset (String × JSON)
  missing_in_2 : Finset (String × JSON)

/-- `SchemaStructureAnalyzer.compare_schemas` (lines 114-146).
`exact` is equality of `json.dumps(·, sort_keys=True)`, i.e. equality of
canonical forms; the Jaccard ratio is computed in `ℚ`. -/
def compareSchemas (schema1 schema2 : JSON) : CompareResult :=
  let exact : Bool := decide (canon schema1 = canon schema2)
  let structural : Bool :=
    decide (getStructuralSignature true schema1 = getStructuralSignature true schema2)
  let attrs1 := getAttributeSet schema1
  let attrs2 := getAttributeSet schema2
  let jaccard : ℚ :=
    if attrs1 ≠ ∅ ∨ attrs2 ≠ ∅ then
      (if attrs1 ∪ attrs2 ≠ ∅ then
        ((attrs1 ∩ attrs2).card : ℚ) / ((attrs1 ∪ attrs2).card : ℚ)
      else 1)
    else if exact then 1 else 0
  { exact_match := exact
    structural_match := structural
    attribute_match := jaccard
    missing_in_1 := attrs2 \ attrs1
    missing_in_2 := attrs1 \ attrs2 }

/-! ### SOURCE EMBEDDING: duplicate grouping -/

/-- Append a name to the group of its key, creating the group at the end
on first occurrence — exactly the effect of
`defaultdict(list); d[key].append(name)` on an insertion-ordered dict. -/
def addToGroup {κ : Type} [DecidableEq κ] (acc : List (κ × List String)) (k : κ) (n : String) :
    List (κ × List String) :=
  match acc with
  | [] => [(k, [n])]
  | (k', ns) :: rest =>
    if k' = k then (k', ns ++ [n]) :: rest else (k', ns) :: addToGroup rest k n

/-- Group the named schemas by a key function: the common shape of
`_find_exact_duplicates`, `_find_structural_duplicates` and
`_find_attribute_duplicates` (lines 474-504), which differ only in the
key. -/
def groupByKey {κ : Type} [DecidableEq κ] (key : JSON → κ)
    (schemas : List (String × JSON)) : List (κ × List String) :=
  schemas.foldl (fun acc p => addToGroup acc (key p.2) p.1) []

/-- `SmartConsolidator._find_exact_duplicates` (lines 474-482): group by
`json.dumps(schema, sort_keys=True)` — i.e. by canonical form — and keep
groups of two or more names. -/
def findExactDuplicateGroups (schemas : List (String × JSON)) : List (JSON × List String) :=
  (groupByKey canon schemas).filter (fun g => 1 < g.2.length)

/-- `SmartConsolidator._find_structural_duplicates` (lines 484-494). -/
def findStructuralDuplicateGroups (includeConstraints : Bool)
    (schemas : List (String × JSON)) : List (String × List String) :=
  (groupByKey (getStructuralSignature includeConstraints) schemas).filter
    (fun g => 1 < g.2.length)

/-- `SmartConsolidator._find_attribute_duplicates` (lines 496-504). -/
def findAttributeDuplicateGroups (schemas : List (String × JSON)) :
    List (Finset (String × JSON) × List String) :=
  (groupByKey getAttributeSet schemas).filter (fun g => 1 < g.2.length)

/-! ### A small backtracking regular-expression engine

The canonical-name heuristics of the Python module use `re.match` with a
fixed set of patterns built from literals, `\w`, alternation, option,
greedy and lazy repetition, capture groups and `$`.  The engine below
implements exactly Python's backtracking semantics for that fragment
(leftmost alternative first, greedy prefers longer, lazy prefers shorter,
match anchored at the start only).  It is fueled for structural
termination; `reMatch` supplies fuel that is ample for every pattern of
the tables below. -/

inductive RE where
  | eps
  | lit (c : Char)
  | wchar
  | seq (r1 r2 : RE)
  | alt (r1 r2 : RE)
  | starG (r : RE)
  | starL (r : RE)
  | grp (i : Nat) (r : RE)
  | eos

/-- Python's `\w` on the ASCII identifiers handled by the tool. -/
def isWordChar (c : Char) : Bool :=
  (97 ≤ c.toNat && c.toNat ≤ 122) || (65 ≤ c.toNat && c.toNat ≤ 90) ||
  (48 ≤ c.toNat && c.toNat ≤ 57) || c.toNat == 95

/-- Recorded capture groups (group index, captured text). -/
abbrev Caps := List (Nat × String)

def reM : Nat → RE → List Char → Caps → (List Char → Caps → Option Caps) → Option Caps
  | 0, _, _, _, _ => none
  | _ + 1, .eps, s, caps, k => k s caps
  | _ + 1, .lit c, s, caps, k =>
    (match s with
     | [] => none
     | c' :: rest => if c' = c then k rest caps else none)
  | _ + 1, .wchar, s, caps, k =>
    (match s with
     | [] => none
     | c' :: rest => if isWordChar c' then k rest caps else none)
  | _ + 1, .eos, s, caps, k => if s.isEmpty then k s caps else none
  | fuel + 1, .seq r1 r2, s, caps, k =>
    reM fuel r1 s caps (fun s' caps' => reM fuel r2 s' caps' k)
  | fuel + 1, .alt r1 r2, s, caps, k =>
    (match reM fuel r1 s caps k with
     | some res => some res
     | none => reM fuel r2 s caps k)
  | fuel + 1, .starG r, s, caps, k =>
    (match reM fuel r s caps (fun s' caps' =>
        if s'.length < s.length then reM fuel (.starG r) s' caps' k else none) with
     | some res => some res
     | none => k s caps)
  | fuel + 1, .starL r, s, caps, k =>
    (match k s caps with
     | some res => some res
     | none =>
       reM fuel r s caps (fun s' caps' =>
         if s'.length < s.length then reM fuel (.starL r) s' caps' k else none))
  | fuel + 1, .grp i r, s, caps, k =>
    reM fuel r s caps (fun s' caps' =>
      k s' ((i, String.mk (s.take (s.length - s'.length))) :: caps'))

def reSize : RE → Nat
  | .eps => 1
  | .lit _ => 1
  | .wchar => 1
  | .seq r1 r2 => 1 + reSize r1 + reSize r2
  | .alt r1 r2 => 1 + reSize r1 + reSize r2
  | .starG r => 1 + reSize r
  | .starL r => 1 + reSize r
  | .grp _ r => 1 + reSize r
  | .eos => 1

/-- Python's `re.match(pattern, s)`: anchored at the start, the rest of
the string may remain. -/
def reMatch (r : RE) (s : String) : Option Caps :=
  reM ((reSize r + 2) * (s.data.length + 2)) r s.data [] (fun _ caps => some caps)

/-- Python's `match.group(i)` (each group of the patterns below is bound
at most once per match). -/
def capsGroup (caps : Caps) (i : Nat) : Option String :=
  (caps.find? (fun p => p.1 == i)).map (fun p => p.2)

/-! Pattern construction helpers. -/

def reSeqN (l : List RE) : RE := l.foldr .seq .eps

def reStr (s : String) : RE := reSeqN (s.data.map .lit)

def reAltN : List RE → RE
  | [] => .eps
  | [r] => r
  | r :: rest => .alt r (reAltN rest)

/-- Alternation of string literals, `(a|b|...)` / `(?:a|b|...)`
(capturing and non-capturing groups match identically; the pattern-table
scores never read captures). -/
def reAltS (l : List String) : RE := reAltN (l.map reStr)

def reOpt (r : RE) : RE := .alt r .eps

/-- Greedy `\w+`. -/
def wplus : RE := .seq .wchar (.starG .wchar)

/-- Lazy `\w+?`. -/
def wplusL : RE := .seq .wchar (.starL .wchar)

/-- Greedy `\w*`. -/
def wstar : RE := .starG .wchar

/-! ### SOURCE EMBEDDING: SchemaNameAnalyzer -/

/-- String-slicing helpers used by the name analyzer. -/
def strDropEnd (s : String) (n : Nat) : String := String.mk (s.data.take (s.data.length - n))

def strDropStart (s : String) (n : Nat) : String := String.mk (s.data.drop n)

/-- `SchemaNameAnalyzer.remove_dto_suffix` (lines 155-158):
`re.sub(r'Dto$', '', name)` strips one trailing `Dto`. -/
def removeDtoSuffix (name : String) : String :=
  if strEnds name "Dto" then strDropEnd name 3 else name

/-- `SchemaNameAnalyzer.extract_type_suffix` (lines 160-169). -/
def extractTypeSuffix (name : String) : String :=
  if containsSub name "Response" then "Response"
  else if containsSub name "Request" then "Request"
  else if containsSub name "Body" then "Request"
  else ""

/-- Operations that return lists (line 153). -/
def listIndicators : List String := ["GetAll", "FindAll", "List", "Bulk"]

/-- The ordered entity-extraction patterns of `extract_entity`
(lines 184-223), each paired with the capture-group index used on a match
(`0` marks the literal auth-name alternatives mapped to `Token`). -/
def entityPatterns : List (RE × Nat) := [
  -- r'^Get(\w+?)By\w+$'
  (reSeqN [reStr "Get", .grp 1 wplusL, reStr "By", wplus, .eos], 1),
  -- r'^GetOne(\w+)$'
  (reSeqN [reStr "GetOne", .grp 1 wplus, .eos], 1),
  -- r'^GetAll(\w+?)s?$'
  (reSeqN [reStr "GetAll", .grp 1 wplusL, reOpt (.lit 's'), .eos], 1),
  -- r'^Create(\w+)$'
  (reSeqN [reStr "Create", .grp 1 wplus, .eos], 1),
  -- r'^Update(\w+)$'
  (reSeqN [reStr "Update", .grp 1 wplus, .eos], 1),
  -- r'^Delete(\w+)$'
  (reSeqN [reStr "Delete", .grp 1 wplus, .eos], 1),
  -- r'^Disable(\w+)$'
  (reSeqN [reStr "Disable", .grp 1 wplus, .eos], 1),
  -- r'^Enable(\w+)$'
  (reSeqN [reStr "Enable", .grp 1 wplus, .eos], 1),
  -- r'^Reset(\w+?)(?:Traffic|Data|State)$'
  (reSeqN [reStr "Reset", .grp 1 wplusL, reAltS ["Traffic", "Data", "State"], .eos], 1),
  -- r'^Revoke(\w+?)Subscription$'
  (reSeqN [reStr "Revoke", .grp 1 wplusL, reStr "Subscription", .eos], 1),
  -- r'^Restart(\w+)$'
  (reSeqN [reStr "Restart", .grp 1 wplus, .eos], 1),
  -- r'^Bulk(?:All)?(?:Delete|Update|Reset|Revoke|Enable|Disable)(\w+?)s?$'
  (reSeqN [reStr "Bulk", reOpt (reStr "All"),
    reAltS ["Delete", "Update", "Reset", "Revoke", "Enable", "Disable"],
    .grp 1 wplusL, reOpt (.lit 's'), .eos], 1),
  -- r'^(?:Add|Remove)\w+To(\w+)$'
  (reSeqN [reAltS ["Add", "Remove"], wplus, reStr "To", .grp 1 wplus, .eos], 1),
  -- r'^(?:Add|Remove)\w+From(\w+)$'
  (reSeqN [reAltS ["Add", "Remove"], wplus, reStr "From", .grp 1 wplus, .eos], 1),
  -- r'^Reorder(\w+?)s?$'
  (reSeqN [reStr "Reorder", .grp 1 wplusL, reOpt (.lit 's'), .eos], 1),
  -- r'^Set\w+ToMany(\w+?)s?$'
  (reSeqN [reStr "Set", wplus, reStr "ToMany", .grp 1 wplusL, reOpt (.lit 's'), .eos], 1),
  -- r'^Verify(\w+?)(?:Authentication|Registration)$'
  (reSeqN [reStr "Verify", .grp 1 wplusL, reAltS ["Authentication", "Registration"], .eos], 1),
  -- r'^Get(\w+?)(?:Authentication|Registration)Options$'
  (reSeqN [reStr "Get", .grp 1 wplusL, reAltS ["Authentication", "Registration"],
    reStr "Options", .eos], 1),
  -- r'^(Login|Register|OAuth2Callback|TelegramCallback)$'
  (reSeqN [.grp 1 (reAltS ["Login", "Register", "OAuth2Callback", "TelegramCallback"]), .eos], 0)]

/-- First pattern of an ordered list that matches, with its group index. -/
def findPatternMatch : List (RE × Nat) → String → Option (Caps × Nat)
  | [], _ => none
  | (r, g) :: rest, s =>
    (match reMatch r s with
     | some caps => some (caps, g)
     | none => findPatternMatch rest s)

/-- The prefix-stripping fallback of `extract_entity` (lines 237-242):
strip the first matching leading verb and stop. -/
def stripFirstVerb : String → List String → String
  | s, [] => s
  | s, p :: rest => if strStarts s p then strDropStart s p.data.length else stripFirstVerb s rest

/-- `SchemaNameAnalyzer.extract_entity` (lines 171-244).
Returns `(entity, action type, is list operation)`. -/
def extractEntity (name : String) : String × String × Bool :=
  let clean := removeDtoSuffix name
  let isList := listIndicators.any (fun i => containsSub clean i)
  match findPatternMatch entityPatterns clean with
  | some (_, 0) => ("Token", "auth", isList)
  | some (caps, g) =>
    let entity := (capsGroup caps g).getD ""
    let entity :=
      if strEnds entity "s" && 3 < entity.data.length then strDropEnd entity 1 else entity
    (entity, "crud", isList)
  | none => (stripFirstVerb clean ["Get", "Create", "Update", "Delete", "Find", "Fetch"],
      "unknown", isList)

/-- Insertion-ordered occurrence counts (the `defaultdict(int)` loop of
`analyze_group`, lines 262-264). -/
def bumpCount : List (String × Nat) → String → List (String × Nat)
  | [], e => [(e, 1)]
  | (k, c) :: rest, e => if k = e then (k, c + 1) :: rest else (k, c) :: bumpCount rest e

def countOccurrences (l : List String) : List (String × Nat) := l.foldl bumpCount []

/-- `max(entity_counts.keys(), key=lambda x: (entity_counts[x], -len(x)))`
(line 266): Python's `max` keeps the first maximum in iteration order, so
a later key replaces the current best only when strictly greater in the
lexicographic `(count, -length)` order. -/
def maxEntity : List (String × Nat) → String
  | [] => ""
  | p0 :: rest =>
    (rest.foldl (fun best p =>
      if best.2 < p.2 ∨ (p.2 = best.2 ∧ p.1.data.length < best.1.data.length) then p else best)
      p0).1

/-- First-occurrence deduplication; stands in for Python's `set` whose
iteration order is unspecified (`actions` and `all_entities` are never
consumed downstream). -/
def dedupFirst (l : List String) : List String :=
  l.foldl (fun acc e => if acc.contains e then acc else acc ++ [e]) []

/-- Result of `SchemaNameAnalyzer.analyze_group` (lines 246-280). -/
structure GroupAnalysis where
  entity : String
  is_response : Bool
  is_request : Bool
  is_mixed : Bool
  is_list : Bool
  actions : List String
  all_entities : List String

/-- `SchemaNameAnalyzer.analyze_group` (lines 246-280). -/
def analyzeGroup (names : List String) : GroupAnalysis :=
  let triples := names.map extractEntity
  let entities := triples.map (fun t => t.1)
  let types := names.map extractTypeSuffix
  let isListGroup := triples.any (fun t => t.2.2)
  let primary := maxEntity (countOccurrences entities)
  let hasResponse := types.contains "Response"
  let hasRequest := types.contains "Request"
  { entity := primary
    is_response := hasResponse && !hasRequest
    is_request := hasRequest && !hasResponse
    is_mixed := hasResponse && hasRequest
    is_list := isListGroup
    actions := dedupFirst (triples.map (fun t => t.2.1))
    all_entities := dedupFirst entities }

/-! ### SOURCE EMBEDDING: SmartConsolidator -/

/-- `SmartConsolidator.DO_NOT_MERGE` (lines 288-290): sets of schema names
that must never be consolidated together. -/
def doNotMerge : List (List String) :=
  [["CreateExternalSquadRequestDto", "CreateSubscriptionPageConfigRequestDto"]]

/-- `SmartConsolidator.SPECIAL_PATTERNS` (lines 300-448): the ordered
registry of canonical names with their pattern lists.  (Python stores it
in a dict, whose iteration order is the literal insertion order shown
here.)  Capture groups are transcribed as plain alternations because the
scoring only tests whether `re.match` succeeds. -/
def specialPatterns : List (String × List RE) := [
  ("EventResponse", [
    reSeqN [reStr "BulkAll", wplus, reStr "Response"],
    reSeqN [reAltS ["Add", "Remove"], reStr "UsersTo", wplus, reStr "Response"],
    reSeqN [reAltS ["Add", "Remove"], reStr "UsersFrom", wplus, reStr "Response"],
    reSeqN [reStr "Restart", reOpt (reStr "All"), reStr "Node", wstar, reStr "Response"],
    reStr "ResetNodeTrafficResponse"]),
  ("DeleteResponse", [
    reSeqN [reStr "Delete", wplus, reStr "Response"]]),
  ("BulkActionResponse", [
    reSeqN [reStr "Bulk", reAltS ["Delete", "Reset", "Revoke", "Update"], reStr "Users",
      wstar, reStr "Response"]]),
  ("BulkUuidsRequest", [
    reSeqN [reStr "Bulk", reAltS ["Delete", "Disable", "Enable", "Reset", "Revoke"], wplus,
      reStr "Request"]]),
  ("ReorderRequest", [
    reSeqN [reStr "Reorder", wplus, reStr "Request"]]),
  ("TokenResponse", [
    reSeqN [reAltS ["Login", "Register", "OAuth2Callback", "TelegramCallback",
      "VerifyPasskeyAuthentication"], reStr "Response"]]),
  ("PasskeyOptions", [
    reSeqN [reAltS ["Get", "Verify"], reStr "Passkey",
      reAltS ["Authentication", "Registration"], reOpt (reStr "Options"),
      reOpt (reStr "Response"), .eos],
    reSeqN [reStr "VerifyPasskey", reAltS ["Authentication", "Registration"],
      reStr "Request"]]),
  ("TagsResponse", [
    reSeqN [reStr "GetAll", wstar, reStr "Tags", wstar, reStr "Response"]]),
  ("InboundsResponse", [
    reSeqN [.alt (reStr "GetAllInbounds") (reSeqN [reStr "GetInboundsBy", wplus]),
      reStr "Response"]]),
  ("SubscriptionResponse", [
    reSeqN [reStr "GetSubscription", .alt (reSeqN [reStr "By", wplus]) (reStr "Info"),
      wstar, reStr "Response"]]),
  ("SettingsResponse", [
    reSeqN [reAltS ["Get", "Update"], reStr "RemnawaveSettings", wstar, reStr "Response"]]),
  ("SubscriptionSettingsResponse", [
    reSeqN [reAltS ["Get", "Update"], reStr "SubscriptionSettings", wstar, reStr "Response"]]),
  ("PasskeysResponse", [
    reSeqN [reAltS ["GetAllPasskeys", "DeletePasskey", "UpdatePasskey"], wstar,
      reStr "Response"]]),
  ("SnippetRequest", [
    reSeqN [reAltS ["Create", "Update"], reStr "Snippet", wstar, reStr "Request"]]),
  ("SnippetsResponse", [
    reSeqN [reAltS ["Create", "Update", "Delete", "Get"], reStr "Snippet", reOpt (.lit 's'),
      wstar, reStr "Response"]]),
  ("UsersResponse", [
    reSeqN [reStr "GetUserBy", reAltS ["Email", "Tag", "TelegramId"], wstar,
      reStr "Response"]]),
  ("UserResponse", [
    reSeqN [reAltS ["Create", "Update", "Disable", "Enable"], reStr "UserResponse"],
    reSeqN [reStr "GetUserBy", reAltS ["Uuid", "Username", "ShortUuid"], wstar,
      reStr "Response"],
    reSeqN [reAltS ["Reset", "Revoke"], reStr "User", wplus, reStr "Response"]]),
  ("HostListResponse", [
    reStr "GetAllHostsResponse",
    reSeqN [reStr "Bulk", reAltS ["Delete", "Disable", "Enable"], reStr "HostsResponse"],
    reSeqN [reStr "Set", wplus, reStr "ToManyHostsResponse"]]),
  ("HostResponse", [
    reSeqN [reAltS ["Create", "Update", "GetOne"], reStr "HostResponse"]]),
  ("NodeResponse", [
    reSeqN [reAltS ["Create", "Update", "GetOne", "Disable", "Enable"], reStr "NodeResponse"]]),
  ("NodesResponse", [
    reSeqN [reAltS ["GetAllNodes", "ReorderNode"], reStr "Response"]]),
  ("TemplateResponse", [
    reSeqN [reAltS ["Create", "Update", "Get"], reOpt (reStr "Subscription"),
      reStr "TemplateResponse"]]),
  ("TemplatesResponse", [
    reSeqN [.alt (reStr "GetTemplates") (reSeqN [reStr "Reorder", wplus, reStr "Templates"]),
      reStr "Response"]]),
  ("ConfigProfileResponse", [
    reSeqN [reAltN [reStr "Create", reStr "Update",
      reSeqN [reStr "Get", reOpt (reStr "Computed"), reStr "ConfigProfileBy", wplus]],
      reStr "Response"]]),
  ("ConfigProfilesResponse", [
    reSeqN [reAltS ["GetConfigProfiles", "ReorderConfigProfiles"], reStr "Response"]]),
  ("InternalSquadResponse", [
    reSeqN [reAltN [reStr "Create", reStr "Update",
      reSeqN [reStr "GetInternalSquadBy", wplus]], reStr "Response"]]),
  ("InternalSquadsResponse", [
    reSeqN [reAltS ["GetInternalSquads", "ReorderInternalSquads"], reStr "Response"]]),
  ("ExternalSquadResponse", [
    reSeqN [reAltN [reStr "Create", reStr "Update",
      reSeqN [reStr "GetExternalSquadBy", wplus]], reStr "Response"]]),
  ("ExternalSquadsResponse", [
    reSeqN [reAltS ["GetExternalSquads", "ReorderExternalSquads"], reStr "Response"]]),
  ("InfraProviderResponse", [
    reSeqN [reAltN [reStr "Create", reStr "Update",
      reSeqN [reStr "GetInfraProviderBy", wplus]], reStr "Response"]]),
  ("BillingNodesResponse", [
    reSeqN [reAltS ["Create", "Update", "Delete", "Get"], reStr "InfraBillingNode", wstar,
      reStr "Response"]]),
  ("BillingHistoryResponse", [
    reSeqN [reAltS ["Create", "Delete", "Get"], reStr "InfraBillingHistoryRecord", wstar,
      reStr "Response"]]),
  ("HwidDevicesResponse", [
    reSeqN [reAltN [reStr "Create", reSeqN [reStr "Delete", reOpt (reStr "All")],
      reStr "Get"], reStr "UserHwidDevice", wstar, reStr "Response"]])]

/-- Number of `(pattern, clean name)` pairs of one registry entry that
match (lines 580-585): a name may match several patterns of the same
group and every match counts. -/
def patternGroupMatches (patterns : List RE) (cleanNames : List String) : Nat :=
  (patterns.map (fun r => (cleanNames.filter (fun n => (reMatch r n).isSome)).length)).sum

/-- First maximal entry of the score list (Python `max` over dict keys in
insertion order keeps the first maximum; scores are compared as match
counts, see `generateCanonicalName`). -/
def maxScore : List (String × Nat) → (String × Nat)
  | [] => ("", 0)
  | p0 :: rest => rest.foldl (fun best p => if best.2 < p.2 then p else best) p0

/-- `SmartConsolidator.generate_canonical_name` (lines 572-610).

The Python code scores each registry entry as the float
`matches / len(names)`, picks the maximum score and compares it with
`0.5`.  Every score in one call has the same positive denominator
`len(names)`, so comparing scores is comparing match counts and
`score >= 0.5` is `2 * matches >= len(names)`; we use the integer
comparisons directly (IEEE division by a common positive denominator
preserves strict order, so the float comparisons decide identically).
`'Bulk' in str(names)` is a substring test on the Python list repr; as
`Bulk` contains no quote or comma it holds exactly when some name
contains `Bulk`. -/
def generateCanonicalName (names : List String) : String :=
  let cleanNames := names.map removeDtoSuffix
  let patternScores : List (String × Nat) :=
    specialPatterns.filterMap (fun pg =>
      let mcount := patternGroupMatches pg.2 cleanNames
      if 0 < mcount then some (pg.1, mcount) else none)
  let best := maxScore patternScores
  if patternScores ≠ [] ∧ names.length ≤ 2 * best.2 then best.1
  else
    let analysis := analyzeGroup names
    let entity := analysis.entity
    if analysis.is_request then
      (if analysis.is_list || names.any (fun n => containsSub n "Bulk") then
        entity ++ "BulkRequest"
      else entity ++ "Request")
    else if analysis.is_response then
      (if analysis.is_list then entity ++ "ListResponse" else entity ++ "Response")
    else entity

/-- Well-formedness of a JSON value: every object has pairwise-distinct
keys (the invariant of Python dictionaries). -/
def nodupStr : List String → Bool
  | [] => true
  | x :: xs => !(xs.contains x) && nodupStr xs

theorem nodupStr_iff : ∀ l : List String, nodupStr l = true ↔ l.Nodup := by
  intro l
  induction l with
  | nil => simp [nodupStr]
  | cons x xs ih => simp [nodupStr, ih, List.nodup_cons]

mutual

def wfb : JSON → Bool
  | .obj fields => nodupStr (fields.map Prod.fst) && wfbFields fields
  | .arr xs => wfbList xs
  | .null => true
  | .bool _ => true
  | .num _ => true
  | .str _ => true

def wfbList : List JSON → Bool
  | [] => true
  | x :: xs => wfb x && wfbList xs

def wfbFields : List (String × JSON) → Bool
  | [] => true
  | (_, v) :: rest => wfb v && wfbFields rest

end

/-- The schemas mapping of a document:
`spec.get('components', {}).get('schemas', {})` (line 452).  A non-dict
value at either level makes Python raise later (outside the claims). -/
def getSchemas (spec : JSON) : List (String × JSON) :=
  match spec with
  | .obj fields =>
    (match JSON.getKey fields "components" with
     | some (.obj comps) =>
       (match JSON.getKey comps "schemas" with
        | some (.obj schemas) => schemas
        | _ => [])
     | _ => [])
  | _ => []

/-- The `while canonical in used` suffixing loop of `consolidate`
(lines 650-655): append `2`, `3`, … until the name is unused.  Fuel
`used.length + 1` always suffices because the candidates are pairwise
distinct (`freshName_not_mem`). -/
def freshNameAux (base : String) (used : List String) : Nat → Nat → String
  | _, 0 => base
  | counter, fuel + 1 =>
    let c := base ++ natDecimal counter
    if used.contains c then freshNameAux base used (counter + 1) fuel else c

def freshName (base : String) (used : List String) : String :=
  if used.contains base then freshNameAux base used 2 (used.length + 1) else base

/-- The union of the DO_NOT_MERGE exclusion sets that are subsets of the
group (`excluded` of lines 638-641). -/
def excludedUnion (names : List String) : List String :=
  doNotMerge.foldl (fun acc e =>
    if e.all (fun x => names.contains x) then acc ++ e else acc) []

/-- The DO_NOT_MERGE handling of one duplicate group (lines 628-646):
`none` when the group is skipped, otherwise the (possibly reduced) list of
names to merge. -/
def groupSurvivors (names : List String) : Option (List String) :=
  if doNotMerge.any (fun e => e.all (fun x => names.contains x)) then
    let remaining := names.filter (fun n => !(excludedUnion names).contains n)
    if remaining.length < 2 then none else some remaining
  else some names

/-- The main loop of `consolidate` (lines 627-661), threading the rename
map, the used canonical names, and `stats['consolidated_names']`. -/
def consolidateGo : List (JSON × List String) → List (String × String) → List String →
    List (String × List String) →
    List (String × String) × List String × List (String × List String)
  | [], m, used, recd => (m, used, recd)
  | (_, names) :: rest, m, used, recd =>
    (match groupSurvivors names with
     | none => consolidateGo rest m used recd
     | some ns =>
       let canonical := freshName (generateCanonicalName ns) used
       consolidateGo rest (m ++ ns.map (fun n => (n, canonical)))
         (used ++ [canonical]) (recd ++ [(canonical, ns)]))

/-- Statistics of `consolidate` (lines 621-667). -/
structure ConsolidateStats where
  original_count : Nat
  duplicate_groups : Nat
  consolidated_names : List (String × List String)
  final_count : Int
  reduction : Int

structure ConsolidateResult where
  rename_map : List (String × String)
  stats : ConsolidateStats

/-- `SmartConsolidator.consolidate` (lines 612-669).  The rename map is an
association list; its keys are pairwise distinct for well-formed
documents because every schema name lies in exactly one duplicate
group. -/
def consolidate (spec : JSON) : ConsolidateResult :=
  let schemas := getSchemas spec
  let duplicates := findExactDuplicateGroups schemas
  let r := consolidateGo duplicates [] [] []
  let m := r.1
  let renamedCount := m.length
  let canonicalCount := (dedupFirst (m.map (fun p => p.2))).length
  { rename_map := m
    stats := {
      original_count := schemas.length
      duplicate_groups := duplicates.length
      consolidated_names := r.2.2
      final_count := (schemas.length : Int) - renamedCount + canonicalCount
      reduction := (schemas.length : Int) -
        ((schemas.length : Int) - renamedCount + canonicalCount) } }

/-! ### SOURCE EMBEDDING: apply_consolidation -/

/-- `rename_map.get(name, name)`. -/
def renameGetD (m : List (String × String)) (n : String) : String :=
  match m with
  | [] => n
  | (k, v) :: rest => if k = n then v else renameGetD rest n

/-- The schema-rebuilding loop of `apply_consolidation` (lines 676-680):
visit names in order, write each schema under its canonical name unless
that slot is already taken (first writer wins). -/
def newSchemasGo (m : List (String × String)) :
    List (String × JSON) → List (String × JSON) → List (String × JSON)
  | [], acc => acc
  | (name, body) :: rest, acc =>
    let canonical := renameGetD m name
    if acc.any (fun p => p.1 = canonical) then newSchemasGo m rest acc
    else newSchemasGo m rest (acc ++ [(canonical, body)])

def buildNewSchemas (m : List (String × String)) (schemas : List (String × JSON)) :
    List (String × JSON) :=
  newSchemasGo m schemas []

/-- The reference marker `#/components/schemas/` (line 689). -/
def refMark : String := "#/components/schemas/"

mutual

/-- The `update_refs` walk of `apply_consolidation` (lines 685-697): every
`$ref` entry holding a string that starts with the marker is rewritten to
point at the renamed target, where the old name is extracted by
`value.replace('#/components/schemas/', '')`; every other entry is walked
recursively. -/
def updateRefs (m : List (String × String)) : JSON → JSON
  | .obj fields => .obj (updateRefsFields m fields)
  | .arr xs => .arr (updateRefsList m xs)
  | .null => .null
  | .bool b => .bool b
  | .num n => .num n
  | .str s => .str s

def updateRefsList (m : List (String × String)) : List JSON → List JSON
  | [] => []
  | x :: xs => updateRefs m x :: updateRefsList m xs

def updateRefsFields (m : List (String × String)) :
    List (String × JSON) → List (String × JSON)
  | [] => []
  | (k, v) :: rest =>
    (if k = "$ref" then
      (match v with
       | .str s =>
         (k, .str (if strStarts s refMark then
            refMark ++ renameGetD m (removeAll s refMark) else s))
       | other => (k, updateRefs m other))
    else (k, updateRefs m v)) :: updateRefsFields m rest

end

/-- Replace the value of an existing key, keeping its position — the
effect of `d[k] = v` on a Python dict that already holds `k`. -/
def setKeyF (fields : List (String × JSON)) (k : String) (v : JSON) : List (String × JSON) :=
  match fields with
  | [] => []
  | (k', v') :: rest => if k' = k then (k', v) :: rest else (k', v') :: setKeyF rest k v

/-- `SmartConsolidator.apply_consolidation` (lines 671-701): rebuild the
schema mapping under canonical names, then rewrite every reference in the
whole document.  `none` models the `KeyError`/`TypeError` Python raises
when `components`/`schemas` is missing or not a dict. -/
def applyConsolidation (spec : JSON) (m : List (String × String)) : Option JSON :=
  match spec with
  | .obj fields =>
    (match JSON.getKey fields "components" with
     | some (.obj comps) =>
       (match JSON.getKey comps "schemas" with
        | some (.obj schemas) =>
          let spec1 := JSON.obj (setKeyF fields "components"
            (.obj (setKeyF comps "schemas" (.obj (buildNewSchemas m schemas)))))
          some (updateRefs m spec1)
        | _ => none)
     | _ => none)
  | _ => none

mutual

/-- All reference strings of the document: the string values held under a
`$ref` key anywhere in the tree, in traversal order (the same entries the
`update_refs` walk inspects). -/
def refStringsIn : JSON → List String
  | .obj fields => refStringsInFields fields
  | .arr xs => refStringsInList xs
  | .null => []
  | .bool _ => []
  | .num _ => []
  | .str _ => []

def refStringsInList : List JSON → List String
  | [] => []
  | x :: xs => refStringsIn x ++ refStringsInList xs

def refStringsInFields : List (String × JSON) → List String
  | [] => []
  | (k, v) :: rest =>
    (if k = "$ref" then
      (match v with
       | .str s => [s]
       | other => refStringsIn other)
    else refStringsIn v) ++ refStringsInFields rest

end

/-- The schema name a reference string of the form
`#/components/schemas/X` names: the part after the marker. -/
def refSuffix (s : String) : String := strDropStart s refMark.data.length

/-- Reference integrity of a document with respect to a list of schema
names: every reference string of the marker form names a schema of the
list (spec §8: "for all references in the output document, the target
name exists in the output schema mapping"). -/
def RefIntegrity (j : JSON) (names : List String) : Prop :=
  ∀ s ∈ refStringsIn j, strStarts s refMark = true → refSuffix s ∈ names

/-! ### SOURCE EMBEDDING: InlineSchemaExtractor conflict resolution -/

/-- An inline-schema occurrence `(parent_schema, property_path, node)`
(line 733). -/
abbrev InlineLoc := String × String × JSON

/-- `InlineSchemaExtractor._resolve_conflict_suffix` (lines 854-915).

The local helper `has_pattern(pattern, in_paths=True, in_parents=False)`
returns the path test whenever `in_paths` is true — and every call leaves
`in_paths` at its default `True`, so the `in_parents=True` arguments are
dead and all `has_pattern` rules test the occurrence paths.  Only the
first two rules and the `.user` rule, written as direct `any(...)`
lambdas over `parents`/`paths`, test what their comments say.  The
conditions are total, so the `try/except` wrapper never fires. -/
def resolveConflictSuffix (baseName : String) (locations : List InlineLoc) : String :=
  let paths := locations.map (fun l => l.2.1)
  let parents := locations.map (fun l => l.1)
  if parents.any (fun p => containsSub p "Request") &&
      !(parents.any (fun p => containsSub p "Response")) then "Ref"
  else if parents.any (fun p => containsSub p "Delete") && baseName = "User" then "Deleted"
  else if paths.any (fun p => containsSub p ".user") then "Info"
  else if baseName = "SubscriptionSettings" && paths.any (fun p => containsSub p "Squad") then
    "Squad"
  else if baseName = "Template" && paths.any (fun p => containsSub p "Squad") then "Ref"
  else if baseName = "Record" && paths.any (fun p => containsSub p "Billing") then "Billing"
  else if baseName = "Snippet" && paths.any (fun p => containsSub p "snippets[]") then "Item"
  else if baseName = "Inbound" && paths.any (fun p => containsSub p "GetAllInbounds") then "Full"
  else if baseName = "Inbound" && paths.any (fun p => containsSub p ".inbound") &&
      !(paths.any (fun p => containsSub p "inbounds[]")) then "Embed"
  else if baseName = "Node" && paths.any (fun p => containsSub p "Reorder") then "Order"
  else if baseName = "BillingNode" && paths.any (fun p => containsSub p "Provider") then "Ref"
  else if baseName = "ProviderItem" && paths.any (fun p => containsSub p "BillingHistory") then
    "HistoryRef"
  else if baseName = "ProviderItem" && paths.any (fun p => containsSub p "BillingNode") then
    "BillingRef"
  else ""

/-- The collision-resolution loop of `extract_inline_schemas`
(lines 953-964) for one collision group: each member gets the contextual
suffix unless it is empty or already used, in which case the numeric
index `i+1` is used (empty for the first member); the final name is
`base ++ suffix`. -/
def resolveNameConflictsGo (baseName : String) :
    List (String × List InlineLoc) → Nat → List String →
    List ((String × List InlineLoc) × String)
  | [], _, _ => []
  | (sig, locs) :: rest, i, used =>
    let s0 := resolveConflictSuffix baseName locs
    let suffix := if s0 = "" || used.contains s0 then
        (if 0 < i then natDecimal (i + 1) else "") else s0
    let finalName := if suffix = "" then baseName else baseName ++ suffix
    ((sig, locs), finalName) :: resolveNameConflictsGo baseName rest (i + 1) (used ++ [suffix])

def resolveNameConflicts (baseName : String) (groups : List (String × List InlineLoc)) :
    List ((String × List InlineLoc) × String) :=
  resolveNameConflictsGo baseName groups 0 []

/-- Rule table of `_resolve_conflict_suffix` (lines 871-906): one
`(condition, suffix)` pair per rule, in source order.  Every
`has_pattern` rule tests the paths (the `in_parents=True` arguments are
dead, see `resolveConflictSuffix`). -/
def suffixRules (baseName : String) (paths parents : List String) : List (Bool × String) :=
  [(parents.any (fun p => containsSub p "Request") &&
      !(parents.any (fun p => containsSub p "Response")), "Ref"),
   (parents.any (fun p => containsSub p "Delete") && baseName = "User", "Deleted"),
   (paths.any (fun p => containsSub p ".user"), "Info"),
   (baseName = "SubscriptionSettings" && paths.any (fun p => containsSub p "Squad"), "Squad"),
   (baseName = "Template" && paths.any (fun p => containsSub p "Squad"), "Ref"),
   (baseName = "Record" && paths.any (fun p => containsSub p "Billing"), "Billing"),
   (baseName = "Snippet" && paths.any (fun p => containsSub p "snippets[]"), "Item"),
   (baseName = "Inbound" && paths.any (fun p => containsSub p "GetAllInbounds"), "Full"),
   (baseName = "Inbound" && paths.any (fun p => containsSub p ".inbound") &&
      !(paths.any (fun p => containsSub p "inbounds[]")), "Embed"),
   (baseName = "Node" && paths.any (fun p => containsSub p "Reorder"), "Order"),
   (baseName = "BillingNode" && paths.any (fun p => containsSub p "Provider"), "Ref"),
   (baseName = "ProviderItem" && paths.any (fun p => containsSub p "BillingHistory"),
     "HistoryRef"),
   (baseName = "ProviderItem" && paths.any (fun p => containsSub p "BillingNode"),
     "BillingRef")]

/-- The rule loop of `_resolve_conflict_suffix` (lines 908-915): the
first rule whose condition holds yields its suffix; no match yields
the empty string. -/
def firstRuleMatch : List (Bool × String) → String
  | [] => ""
  | (c, s) :: rest => if c then s else firstRuleMatch rest

/-- The suffix one collision-group member receives at loop index `i`
with already-used suffixes `used` (lines 954-960): the contextual
suffix, unless it is empty or already used, in which case the numeric
index (empty at index 0). -/
def chooseSuffix (baseName : String) (locs : List InlineLoc) (i : Nat)
    (used : List String) : String :=
  let s0 := resolveConflictSuffix baseName locs
  if s0 = "" || used.contains s0 then (if 0 < i then natDecimal (i + 1) else "") else s0

/-- The suffixes the loop of lines 953-961 chooses for the successive
members of one collision group. -/
def conflictSuffixesGo (baseName : String) :
    List (String × List InlineLoc) → Nat → List String → List String
  | [], _, _ => []
  | (_, locs) :: rest, i, used =>
    chooseSuffix baseName locs i used ::
      conflictSuffixesGo baseName rest (i + 1) (used ++ [chooseSuffix baseName locs i used])

def conflictSuffixes (baseName : String) (groups : List (String × List InlineLoc)) :
    List String :=
  conflictSuffixesGo baseName groups 0 []

/-! ### Lemmas: association-list lookups -/

/-- Association lookup in the rename map (`name in rename_map`). -/
def mapLookup (m : List (String × String)) (n : String) : Option String :=
  match m with
  | [] => none
  | (k, v) :: rest => if k = n then some v else mapLookup rest n

theorem renameGetD_eq (m : List (String × String)) (n : String) :
    renameGetD m n = (mapLookup m n).getD n := by
  induction m with
  | nil => rfl
  | cons p rest ih =>
    obtain ⟨k, v⟩ := p
    by_cases h : k = n <;> simp [renameGetD, mapLookup, h, ih]

theorem mapLookup_append (a b : List (String × String)) (n : String) :
    mapLookup (a ++ b) n = match mapLookup a n with
      | some c => some c
      | none => mapLookup b n := by
  induction a with
  | nil => simp [mapLookup]
  | cons p rest ih =>
    obtain ⟨k, v⟩ := p
    by_cases h : k = n <;> simp [mapLookup, h, ih]

theorem mapLookup_const (ns : List String) (c : String) (n : String) :
    mapLookup (ns.map (fun x => (x, c))) n = if n ∈ ns then some c else none := by
  induction ns with
  | nil => simp [mapLookup]
  | cons x rest ih =>
    by_cases h : x = n
    · subst h; simp [mapLookup, ih]
    · simp [mapLookup, h, ih, Ne.symm h]

/-! ### Lemmas: fresh canonical names (pigeonhole for the suffix loop) -/

theorem natDecimal_ne (a b : Nat) (h : a ≠ b) : natDecimal a ≠ natDecimal b :=
  fun he => h (natDecimal_injective he)

theorem append_natDecimal_inj (base : String) {a b : Nat} (h : a ≠ b) :
    base ++ natDecimal a ≠ base ++ natDecimal b := by
  intro he
  apply natDecimal_ne a b h
  apply String.ext
  have := congrArg String.data he
  rw [String.data_append, String.data_append] at this
  exact List.append_cancel_left this

/-- The suffix loop always returns a candidate `base ++ natDecimal k` with
`counter ≤ k`, or exhausts its fuel and returns `base`. -/
theorem freshNameAux_shape (base : String) (used : List String) :
    ∀ fuel counter, freshNameAux base used counter fuel = base ∨
      ∃ k, counter ≤ k ∧ freshNameAux base used counter fuel = base ++ natDecimal k := by
  intro fuel
  induction fuel with
  | zero => intro counter; left; rfl
  | succ fuel ih =>
    intro counter
    by_cases h : (base ++ natDecimal counter) ∈ used
    · rcases ih (counter + 1) with h' | ⟨k, hk, h'⟩
      · left; simpa [freshNameAux, h] using h'
      · right
        refine ⟨k, by omega, ?_⟩
        simpa [freshNameAux, h] using h'
    · right
      exact ⟨counter, le_rfl, by simp [freshNameAux, h]⟩

section CandidatePigeonhole

open scoped Classical in
/-- The candidate set still to be tried, as a classical finite set. -/
noncomputable def candSet (base : String) (used : List String) (counter : Nat) :
    Finset String :=
  used.toFinset.filter (fun u => ∃ k, counter ≤ k ∧ u = base ++ natDecimal k)

open scoped Classical in
theorem candSet_mem {base : String} {used : List String} {counter : Nat} {u : String} :
    u ∈ candSet base used counter ↔
      u ∈ used ∧ ∃ k, counter ≤ k ∧ u = base ++ natDecimal k := by
  unfold candSet
  rw [Finset.mem_filter, List.mem_toFinset]

/-- With fuel exceeding the number of used candidates, the suffix loop
returns an unused candidate (pigeonhole over the pairwise-distinct
candidate names). -/
theorem freshNameAux_not_mem (base : String) (used : List String) :
    ∀ fuel counter, (candSet base used counter).card < fuel →
      freshNameAux base used counter fuel ∉ used := by
  intro fuel
  induction fuel with
  | zero => intro counter h; omega
  | succ fuel ih =>
    intro counter h
    by_cases hc : (base ++ natDecimal counter) ∈ used
    · simp only [freshNameAux]
      rw [if_pos (by simpa using hc)]
      apply ih (counter + 1)
      have hsub : candSet base used (counter + 1) ⊆ candSet base used counter := by
        intro u hu
        rw [candSet_mem] at hu ⊢
        obtain ⟨h1, k, hk, rfl⟩ := hu
        exact ⟨h1, k, by omega, rfl⟩
      have hss : candSet base used (counter + 1) ⊂ candSet base used counter := by
        rw [Finset.ssubset_iff_of_subset hsub]
        refine ⟨base ++ natDecimal counter, ?_, ?_⟩
        · rw [candSet_mem]; exact ⟨hc, counter, le_rfl, rfl⟩
        · rw [candSet_mem]
          rintro ⟨-, k, hk, he⟩
          exact append_natDecimal_inj base (by omega : counter ≠ k) he
      have := Finset.card_lt_card hss
      omega
    · simp only [freshNameAux]
      rw [if_neg (by simpa using hc)]
      exact hc

/-- The canonical name chosen by the `while` loop is never one of the
already-used names. -/
theorem freshName_not_mem (base : String) (used : List String) :
    freshName base used ∉ used := by
  classical
  unfold freshName
  by_cases hb : base ∈ used
  · rw [if_pos (by simpa using hb)]
    apply freshNameAux_not_mem
    calc (candSet base used 2).card
        ≤ used.toFinset.card := Finset.card_le_card (Finset.filter_subset _ _)
      _ ≤ used.length := used.toFinset_card_le
      _ < used.length + 1 := by omega
  · rw [if_neg (by simpa using hb)]
    exact hb

/-- Shape of the chosen canonical name: the generated base, or the base
with a numeric suffix `k ≥ 2` appended. -/
theorem freshName_shape (base : String) (used : List String) :
    freshName base used = base ∨
      ∃ k, 2 ≤ k ∧ freshName base used = base ++ natDecimal k := by
  unfold freshName
  by_cases hb : base ∈ used
  · rw [if_pos (by simpa using hb)]
    exact freshNameAux_shape base used (used.length + 1) 2
  · rw [if_neg (by simpa using hb)]
    left; rfl

end CandidatePigeonhole

/-! ### Lemmas: grouping -/

/-- Lookup of a group by key. -/
def groupOf {κ : Type} [DecidableEq κ] (gs : List (κ × List String)) (k : κ) :
    Option (List String) :=
  match gs with
  | [] => none
  | (k', ns) :: rest => if k' = k then some ns else groupOf rest k

theorem groupOf_addToGroup_self {κ : Type} [DecidableEq κ] (acc : List (κ × List String))
    (k : κ) (n : String) :
    groupOf (addToGroup acc k n) k = some ((groupOf acc k).getD [] ++ [n]) := by
  induction acc with
  | nil => simp [addToGroup, groupOf]
  | cons p rest ih =>
    obtain ⟨k', ns⟩ := p
    by_cases h : k' = k
    · subst h; simp [addToGroup, groupOf]
    · simp [addToGroup, groupOf, h, ih]

theorem groupOf_addToGroup_ne {κ : Type} [DecidableEq κ] (acc : List (κ × List String))
    (k k' : κ) (n : String) (h : k' ≠ k) :
    groupOf (addToGroup acc k n) k' = groupOf acc k' := by
  induction acc with
  | nil => simp [addToGroup, groupOf, Ne.symm h]
  | cons p rest ih =>
    obtain ⟨k'', ns⟩ := p
    by_cases h2 : k'' = k
    · subst h2
      simp only [addToGroup, if_pos rfl, groupOf]
      rw [if_neg (fun he => h he.symm), if_neg (fun he => h he.symm)]
    · simp only [addToGroup, if_neg h2, groupOf]
      by_cases h3 : k'' = k' <;> simp [h3, ih]

theorem groupOf_none_iff {κ : Type} [DecidableEq κ] (gs : List (κ × List String)) (k : κ) :
    groupOf gs k = none ↔ k ∉ gs.map Prod.fst := by
  induction gs with
  | nil => simp [groupOf]
  | cons p rest ih =>
    obtain ⟨k', ns⟩ := p
    by_cases h : k' = k
    · subst h; simp [groupOf]
    · rw [List.map_cons]
      simp only [groupOf, if_neg h, ih]
      constructor
      · intro hni
        rw [List.mem_cons]
        push_neg
        exact ⟨fun he => h he.symm, hni⟩
      · intro hn hm
        exact hn (by rw [List.mem_cons]; exact Or.inr hm)

theorem mem_of_groupOf {κ : Type} [DecidableEq κ] {gs : List (κ × List String)} {k : κ}
    {ns : List String} (h : groupOf gs k = some ns) : (k, ns) ∈ gs := by
  induction gs with
  | nil => simp [groupOf] at h
  | cons p rest ih =>
    obtain ⟨k', ns'⟩ := p
    by_cases h2 : k' = k
    · subst h2
      simp [groupOf] at h
      simp [h]
    · simp [groupOf, h2] at h
      exact List.mem_cons_of_mem _ (ih h)

theorem groupOf_of_mem_nodup {κ : Type} [DecidableEq κ] {gs : List (κ × List String)}
    {k : κ} {ns : List String} (hnd : (gs.map Prod.fst).Nodup) (h : (k, ns) ∈ gs) :
    groupOf gs k = some ns := by
  induction gs with
  | nil => cases h
  | cons p rest ih =>
    obtain ⟨k', ns'⟩ := p
    rw [List.map_cons, List.nodup_cons] at hnd
    rcases List.mem_cons.mp h with he | hm
    · have h1 : k = k' := congrArg Prod.fst he
      have h2 : ns = ns' := congrArg Prod.snd he
      subst h1; subst h2
      simp [groupOf]
    · have hk : k' ≠ k := by
        intro he'
        apply hnd.1
        rw [he']
        simpa using List.mem_map_of_mem Prod.fst hm
      simp only [groupOf, if_neg hk]
      exact ih hnd.2 hm

theorem addToGroup_keys {κ : Type} [DecidableEq κ] (rest : List (κ × List String))
    (k : κ) (n : String) :
    (addToGroup rest k n).map Prod.fst =
      if groupOf rest k = none then rest.map Prod.fst ++ [k] else rest.map Prod.fst := by
  induction rest with
  | nil => simp [addToGroup, groupOf]
  | cons q qs ihq =>
    obtain ⟨k'', ns'⟩ := q
    by_cases h2 : k'' = k
    · subst h2; simp [addToGroup, groupOf]
    · simp only [addToGroup, if_neg h2, groupOf, List.map_cons, ihq]
      by_cases h3 : groupOf qs k = none <;> simp [h3]

theorem addToGroup_keys_nodup {κ : Type} [DecidableEq κ] {acc : List (κ × List String)}
    (k : κ) (n : String) (hnd : (acc.map Prod.fst).Nodup) :
    ((addToGroup acc k n).map Prod.fst).Nodup := by
  rw [addToGroup_keys]
  by_cases h3 : groupOf acc k = none
  · rw [if_pos h3]
    rw [groupOf_none_iff] at h3
    simp [List.nodup_append, hnd, h3]
  · rw [if_neg h3]
    exact hnd

theorem groupFold_keys_nodup {κ : Type} [DecidableEq κ] (key : JSON → κ) :
    ∀ (l : List (String × JSON)) (acc : List (κ × List String)),
      (acc.map Prod.fst).Nodup →
      (((l.foldl (fun a p => addToGroup a (key p.2) p.1) acc)).map Prod.fst).Nodup := by
  intro l
  induction l with
  | nil => intro acc h; exact h
  | cons p rest ih =>
    intro acc h
    exact ih _ (addToGroup_keys_nodup _ _ h)

theorem groupFold_names {κ : Type} [DecidableEq κ] (key : JSON → κ) :
    ∀ (l : List (String × JSON)) (acc : List (κ × List String)) (k : κ),
      (groupOf (l.foldl (fun a p => addToGroup a (key p.2) p.1) acc) k).getD [] =
        (groupOf acc k).getD [] ++ (l.filter (fun p => key p.2 = k)).map Prod.fst := by
  intro l
  induction l with
  | nil => intro acc k; simp
  | cons p rest ih =>
    intro acc k
    obtain ⟨n, v⟩ := p
    by_cases h : key v = k
    · subst h
      rw [List.foldl_cons, ih (addToGroup acc (key v) n) (key v)]
      rw [groupOf_addToGroup_self]
      simp
    · rw [List.foldl_cons, ih (addToGroup acc (key v) n) k]
      rw [groupOf_addToGroup_ne _ _ _ _ (Ne.symm h)]
      simp [List.filter_cons, h]

theorem groupFold_isSome {κ : Type} [DecidableEq κ] (key : JSON → κ) :
    ∀ (l : List (String × JSON)) (acc : List (κ × List String)) (k : κ),
      (groupOf (l.foldl (fun a p => addToGroup a (key p.2) p.1) acc) k).isSome =
        ((groupOf acc k).isSome || l.any (fun p => key p.2 = k)) := by
  intro l
  induction l with
  | nil => intro acc k; simp
  | cons p rest ih =>
    intro acc k
    obtain ⟨n, v⟩ := p
    by_cases h : key v = k
    · subst h
      rw [List.foldl_cons, ih]
      rw [groupOf_addToGroup_self]
      simp
    · rw [List.foldl_cons, ih]
      rw [groupOf_addToGroup_ne _ _ _ _ (Ne.symm h)]
      simp [h]

theorem one_lt_length_of_two_mem {α : Type} {a b : α} {l : List α}
    (ha : a ∈ l) (hb : b ∈ l) (hne : a ≠ b) : 1 < l.length := by
  cases l with
  | nil => cases ha
  | cons x xs =>
    cases xs with
    | nil =>
      rw [List.mem_singleton] at ha hb
      exact absurd (ha.trans hb.symm) hne
    | cons y ys => simp

/-! ### Claim C10 -/

/-- C10: every schema node that is not a mapping, or has no `properties`
key, has the empty attribute shape; consequently any two or more such
schemas of a document land in one attribute-fidelity duplicate group
(keyed by the empty shape), which collects every empty-shape schema
name. -/
theorem C10_empty_shape_single_group :
    (∀ j : JSON, ((∀ fs, j ≠ JSON.obj fs) ∨
        (∃ fs, j = JSON.obj fs ∧ JSON.getKey fs "properties" = none)) →
      getAttributeSet j = ∅) ∧
    (∀ (schemas : List (String × JSON)) (n₁ n₂ : String) (v₁ v₂ : JSON),
      (n₁, v₁) ∈ schemas → (n₂, v₂) ∈ schemas → n₁ ≠ n₂ →
      getAttributeSet v₁ = ∅ → getAttributeSet v₂ = ∅ →
      ∃ g ∈ findAttributeDuplicateGroups schemas, g.1 = ∅ ∧
        ∀ n v, (n, v) ∈ schemas → getAttributeSet v = ∅ → n ∈ g.2) := by
  constructor
  · intro j h
    rcases h with h | ⟨fs, rfl, hnone⟩
    · cases j with
      | obj fs => exact absurd rfl (h fs)
      | null => rfl
      | bool b => rfl
      | num n => rfl
      | str s => rfl
      | arr xs => rfl
    · simp [getAttributeSet, hnone]
  · intro schemas n₁ n₂ v₁ v₂ h₁ h₂ hne hv₁ hv₂
    have hfold := groupFold_names getAttributeSet schemas [] ∅
    have hsome := groupFold_isSome getAttributeSet schemas [] ∅
    simp only [groupOf, Option.getD_none, Option.isSome_none, Bool.false_or,
      List.nil_append] at hfold hsome
    set gs := schemas.foldl (fun a p => addToGroup a (getAttributeSet p.2) p.1) [] with hgs
    have hany : schemas.any (fun p => decide (getAttributeSet p.2 = ∅)) = true := by
      rw [List.any_eq_true]
      exact ⟨(n₁, v₁), h₁, by simpa using hv₁⟩
    rw [hany] at hsome
    obtain ⟨ns, hns⟩ := Option.isSome_iff_exists.mp hsome
    have hnsval : ns = (schemas.filter (fun p => decide (getAttributeSet p.2 = ∅))).map
        Prod.fst := by
      rw [hns] at hfold
      simpa using hfold
    have hmemname : ∀ n v, (n, v) ∈ schemas → getAttributeSet v = ∅ → n ∈ ns := by
      intro n v hm hv
      rw [hnsval]
      exact List.mem_map_of_mem Prod.fst (List.mem_filter.mpr ⟨hm, by simpa using hv⟩)
    refine ⟨(∅, ns), ?_, rfl, hmemname⟩
    unfold findAttributeDuplicateGroups groupByKey
    rw [List.mem_filter]
    constructor
    · exact mem_of_groupOf hns
    · have h1 : n₁ ∈ ns := hmemname n₁ v₁ h₁ hv₁
      have h2 : n₂ ∈ ns := hmemname n₂ v₂ h₂ hv₂
      simpa using one_lt_length_of_two_mem h1 h2 hne

/-- C10 witness: a document with a string schema and a `$ref` schema (both
empty attribute shape, despite different structural content) grouped
together by attribute-fidelity duplicate detection. -/
theorem C10_empty_shape_single_group_witness :
    ∃ g ∈ findAttributeDuplicateGroups
      [("Sa", JSON.obj [("type", JSON.str "string")]),
       ("Rb", JSON.obj [("$ref", JSON.str "#/components/schemas/Sa")]),
       ("Oc", JSON.obj [("type", JSON.str "object"),
          ("properties", JSON.obj [("x", JSON.obj [("type", JSON.str "number")])])])],
      g.1 = ∅ ∧
      ∀ n v, (n, v) ∈
        [("Sa", JSON.obj [("type", JSON.str "string")]),
         ("Rb", JSON.obj [("$ref", JSON.str "#/components/schemas/Sa")]),
         ("Oc", JSON.obj [("type", JSON.str "object"),
            ("properties", JSON.obj [("x", JSON.obj [("type", JSON.str "number")])])])] →
        getAttributeSet v = ∅ → n ∈ g.2 :=
  C10_empty_shape_single_group.2 _ "Sa" "Rb"
    (JSON.obj [("type", JSON.str "string")])
    (JSON.obj [("$ref", JSON.str "#/components/schemas/Sa")])
    (by decide) (by decide) (by decide) (by decide) (by decide)

/-! ### Claim C7 -/

/-- C7 counterexample: two schemas with empty attribute shapes that are
not exactly equal get `attribute_match = 0`, not the `1.0` the claim
asserts for every pair of empty shapes. -/
theorem C7_counterexample_empty_shapes_zero :
    getAttributeSet (JSON.obj [("type", JSON.str "string")]) = ∅ ∧
    getAttributeSet (JSON.obj [("type", JSON.str "number")]) = ∅ ∧
    (compareSchemas (JSON.obj [("type", JSON.str "string")])
      (JSON.obj [("type", JSON.str "number")])).attribute_match = 0 ∧
    (0 : ℚ) ≠ 1 := by
  refine ⟨by decide, by decide, by decide, by norm_num⟩

/-- C7 (amended): `attribute_match` is the Jaccard ratio
`|intersection| / |union|` of the attribute shapes whenever at least one
shape is nonempty; when both shapes are empty it is `1` exactly when the
two schemas are equal as JSON (order-independent comparison) and `0`
otherwise. -/
theorem C7_attribute_match_formula (a b : JSON) :
    (compareSchemas a b).attribute_match =
      if getAttributeSet a = ∅ ∧ getAttributeSet b = ∅ then
        (if canon a = canon b then (1 : ℚ) else 0)
      else ((getAttributeSet a ∩ getAttributeSet b).card : ℚ) /
        ((getAttributeSet a ∪ getAttributeSet b).card : ℚ) := by
  unfold compareSchemas
  dsimp only
  by_cases h : getAttributeSet a = ∅ ∧ getAttributeSet b = ∅
  · rw [if_pos h]
    have hne : ¬(getAttributeSet a ≠ ∅ ∨ getAttributeSet b ≠ ∅) := by
      push_neg
      exact h
    rw [if_neg hne]
    by_cases hc : canon a = canon b <;> simp [hc]
  · have hor : getAttributeSet a ≠ ∅ ∨ getAttributeSet b ≠ ∅ := by
      by_contra hno
      push_neg at hno
      exact h hno
    rw [if_neg h]
    simp only [hor, if_pos]
    have hu : getAttributeSet a ∪ getAttributeSet b ≠ ∅ := by
      intro he
      rcases hor with h1 | h1
      · exact h1 (Finset.subset_empty.mp (he ▸ Finset.subset_union_left))
      · exact h1 (Finset.subset_empty.mp (he ▸ Finset.subset_union_right))
    simp [hu]

/-! ### Claim C8 -/

theorem natDecRev_ne_nil : ∀ fuel n, natDecRev fuel n ≠ [] := by
  intro fuel n
  cases fuel with
  | zero => simp [natDecRev]
  | succ f =>
    by_cases h : n < 10 <;> simp [natDecRev, h]

theorem natDecimal_ne_empty (n : Nat) : natDecimal n ≠ "" := by
  intro h
  have := congrArg String.data h
  simp only [natDecimal] at this
  rw [List.reverse_eq_nil_iff] at this
  exact natDecRev_ne_nil n n this

theorem conflictSuffixesGo_cons (baseName sig : String) (locs : List InlineLoc)
    (rest : List (String × List InlineLoc)) (i : Nat) (used : List String) :
    conflictSuffixesGo baseName ((sig, locs) :: rest) i used =
      chooseSuffix baseName locs i used ::
        conflictSuffixesGo baseName rest (i + 1) (used ++ [chooseSuffix baseName locs i used]) :=
  rfl

theorem resolveNameConflictsGo_cons (baseName sig : String) (locs : List InlineLoc)
    (rest : List (String × List InlineLoc)) (i : Nat) (used : List String) :
    resolveNameConflictsGo baseName ((sig, locs) :: rest) i used =
      ((sig, locs),
        if chooseSuffix baseName locs i used = "" then baseName
        else baseName ++ chooseSuffix baseName locs i used) ::
      resolveNameConflictsGo baseName rest (i + 1)
        (used ++ [chooseSuffix baseName locs i used]) :=
  rfl

/-- Full positional characterisation of the collision loop: member `j`
is kept with final name `base` or `base ++ s` where `s` is the `j`-th
chosen suffix, and `s` is the contextual suffix unless that is empty or
occurs among the suffixes taken before it, in which case it is the
numeric index (empty when the overall position is the first). -/
theorem resolveNameConflictsGo_characterisation (baseName : String) :
    ∀ (gs : List (String × List InlineLoc)) (i0 : Nat) (used : List String) (j : Nat)
      (g : String × List InlineLoc),
      gs[j]? = some g →
      ∃ s, (conflictSuffixesGo baseName gs i0 used)[j]? = some s ∧
        (resolveNameConflictsGo baseName gs i0 used)[j]? =
          some (g, if s = "" then baseName else baseName ++ s) ∧
        s = (if resolveConflictSuffix baseName g.2 = "" ∨
              (used ++ (conflictSuffixesGo baseName gs i0 used).take j).contains
                (resolveConflictSuffix baseName g.2) = true
            then (if 0 < i0 + j then natDecimal (i0 + j + 1) else "")
            else resolveConflictSuffix baseName g.2) := by
  intro gs
  induction gs with
  | nil => intro i0 used j g hg; simp at hg
  | cons p rest ih =>
    intro i0 used j g hg
    obtain ⟨sig, locs⟩ := p
    cases j with
    | zero =>
      simp only [List.getElem?_cons_zero, Option.some.injEq] at hg
      subst hg
      refine ⟨chooseSuffix baseName locs i0 used, ?_, ?_, ?_⟩
      · rw [conflictSuffixesGo_cons, List.getElem?_cons_zero]
      · rw [resolveNameConflictsGo_cons, List.getElem?_cons_zero]
      · simp only [List.take_zero, List.append_nil, Nat.add_zero]
        by_cases h1 : resolveConflictSuffix baseName locs = ""
        · simp [chooseSuffix, h1]
        · by_cases h2 : used.contains (resolveConflictSuffix baseName locs) = true
          · simp [chooseSuffix, h1, h2]
          · simp [chooseSuffix, h1, h2]
    | succ j' =>
      simp only [List.getElem?_cons_succ] at hg
      obtain ⟨s, h1, h2, h3⟩ :=
        ih (i0 + 1) (used ++ [chooseSuffix baseName locs i0 used]) j' g hg
      refine ⟨s, ?_, ?_, ?_⟩
      · rw [conflictSuffixesGo_cons, List.getElem?_cons_succ]
        exact h1
      · rw [resolveNameConflictsGo_cons, List.getElem?_cons_succ]
        exact h2
      · rw [h3]
        have harr : i0 + (j' + 1) = i0 + 1 + j' := by omega
        rw [conflictSuffixesGo_cons, List.take_succ_cons, harr]
        simp [List.append_assoc]

/-- C8 counterexample: a collision member whose only path contains the
nested `subscriptionSettings` marker gets no contextual suffix (the
numeric fallback applies), while a `.user` path is what actually yields
`Info` — refuting the claim's description of the second rule. -/
theorem C8_counterexample_subscriptionSettings :
    containsSub "a.subscriptionSettings.b" "subscriptionSettings" = true ∧
    resolveConflictSuffix "Xy" [("Foo", "a.subscriptionSettings.b", JSON.null)] = "" ∧
    ("" : String) ≠ "Info" ∧
    resolveConflictSuffix "Xy" [("Foo", "a.user", JSON.null)] = "Info" := by
  refine ⟨by decide, by decide, by decide, by decide⟩

/-- C8 (amended): the contextual suffix is chosen by the fixed rule
table in source order — `resolveConflictSuffix` equals first-match
evaluation of `suffixRules` (rule 1 yields `Ref` on a `Request` owner
with no `Response` owner; rule 2 yields `Deleted` on a `Delete` owner
with base `User`; rule 3 yields `Info` when a path contains `.user`; the
remaining rules all test the paths; no match yields the empty suffix) —
and collision-group member `j` receives `base ++ s` (bare `base` when
`s` is empty) where `s` is the contextual suffix unless that is empty or
was already chosen for an earlier member of the same group, in which
case `s` is the numeric index `j + 1` (empty for the first member). -/
theorem C8_conflict_suffix_rules :
    (∀ (baseName : String) (locations : List InlineLoc),
      resolveConflictSuffix baseName locations =
        firstRuleMatch (suffixRules baseName (locations.map (fun l => l.2.1))
          (locations.map (fun l => l.1)))) ∧
    (∀ (baseName : String) (groups : List (String × List InlineLoc)) (j : Nat)
      (g : String × List InlineLoc),
      groups[j]? = some g →
      ∃ s, (conflictSuffixes baseName groups)[j]? = some s ∧
        (resolveNameConflicts baseName groups)[j]? =
          some (g, if s = "" then baseName else baseName ++ s) ∧
        s = (if resolveConflictSuffix baseName g.2 = "" ∨
              ((conflictSuffixes baseName groups).take j).contains
                (resolveConflictSuffix baseName g.2) = true
            then (if 0 < j then natDecimal (j + 1) else "")
            else resolveConflictSuffix baseName g.2)) := by
  constructor
  · intro baseName locations
    rfl
  · intro baseName groups j g hg
    obtain ⟨s, h1, h2, h3⟩ :=
      resolveNameConflictsGo_characterisation baseName groups 0 [] j g hg
    refine ⟨s, h1, h2, ?_⟩
    rw [h3]
    simp only [conflictSuffixes, List.nil_append, Nat.zero_add]

/-- Collision groups for the C8 witness: three members sharing base
`Zed`. -/
def gsC8W : List (String × List InlineLoc) :=
  [("s1", [("CreateZedRequestDto", "p1", JSON.null)]),
   ("s2", [("UpdateZedRequestDto", "p2", JSON.null)]),
   ("s3", [("Foo", "p3", JSON.null)])]

/-- C8 witness: in a three-member collision for base `Zed`, the second
member's contextual suffix `Ref` was already taken by the first member,
so the theorem assigns it the numeric index `2`; the resulting names are
`ZedRef`, `Zed2`, `Zed3` (the third member matches no rule). -/
theorem C8_conflict_suffix_rules_witness :
    (∃ s, (conflictSuffixes "Zed" gsC8W)[1]? = some s ∧
      (resolveNameConflicts "Zed" gsC8W)[1]? =
        some (("s2", [("UpdateZedRequestDto", "p2", JSON.null)]),
          if s = "" then "Zed" else "Zed" ++ s) ∧
      s = (if resolveConflictSuffix "Zed" [("UpdateZedRequestDto", "p2", JSON.null)] = "" ∨
            ((conflictSuffixes "Zed" gsC8W).take 1).contains
              (resolveConflictSuffix "Zed" [("UpdateZedRequestDto", "p2", JSON.null)]) = true
          then (if 0 < 1 then natDecimal (1 + 1) else "")
          else resolveConflictSuffix "Zed" [("UpdateZedRequestDto", "p2", JSON.null)])) ∧
    (resolveNameConflicts "Zed" gsC8W).map (fun e => e.2) = ["ZedRef", "Zed2", "Zed3"] := by
  constructor
  · exact C8_conflict_suffix_rules.2 "Zed" gsC8W 1
      ("s2", [("UpdateZedRequestDto", "p2", JSON.null)]) (by decide)
  · decide

/-! ### Lemmas: the consolidate loop -/

theorem cg_m_mono : ∀ (gs : List (JSON × List String)) (m : List (String × String))
    (used : List String) (recd : List (String × List String)) (n c : String),
    mapLookup m n = some c → mapLookup (consolidateGo gs m used recd).1 n = some c := by
  intro gs
  induction gs with
  | nil => intro m used recd n c h; exact h
  | cons g rest ih =>
    intro m used recd n c h
    obtain ⟨gk, names⟩ := g
    cases hs : groupSurvivors names with
    | none =>
      simp only [consolidateGo, hs]
      exact ih _ _ _ _ _ h
    | some ns =>
      simp only [consolidateGo, hs]
      apply ih
      rw [mapLookup_append, h]

theorem cg_rec_mono : ∀ (gs : List (JSON × List String)) (m : List (String × String))
    (used : List String) (recd : List (String × List String)) (p : String × List String),
    p ∈ recd → p ∈ (consolidateGo gs m used recd).2.2 := by
  intro gs
  induction gs with
  | nil => intro m used recd p h; exact h
  | cons g rest ih =>
    intro m used recd p h
    obtain ⟨gk, names⟩ := g
    cases hs : groupSurvivors names with
    | none =>
      simp only [consolidateGo, hs]
      exact ih _ _ _ _ h
    | some ns =>
      simp only [consolidateGo, hs]
      exact ih _ _ _ _ (List.mem_append_left _ h)

theorem cg_rec_origin : ∀ (gs : List (JSON × List String)) (m : List (String × String))
    (used : List String) (recd : List (String × List String)) (p : String × List String),
    p ∈ (consolidateGo gs m used recd).2.2 →
    p ∈ recd ∨ ∃ g ∈ gs, groupSurvivors g.2 = some p.2 := by
  intro gs
  induction gs with
  | nil => intro m used recd p h; exact Or.inl h
  | cons g rest ih =>
    intro m used recd p h
    obtain ⟨gk, names⟩ := g
    cases hs : groupSurvivors names with
    | none =>
      simp only [consolidateGo, hs] at h
      rcases ih _ _ _ _ h with h' | ⟨g', hg', hsg'⟩
      · exact Or.inl h'
      · exact Or.inr ⟨g', List.mem_cons_of_mem _ hg', hsg'⟩
    | some ns =>
      simp only [consolidateGo, hs] at h
      rcases ih _ _ _ _ h with h' | ⟨g', hg', hsg'⟩
      · rcases List.mem_append.mp h' with h'' | h''
        · exact Or.inl h''
        · rw [List.mem_singleton] at h''
          subst h''
          exact Or.inr ⟨(gk, names), List.mem_cons_self .., hs⟩
      · exact Or.inr ⟨g', List.mem_cons_of_mem _ hg', hsg'⟩

theorem cg_lookup_none : ∀ (gs : List (JSON × List String)) (m : List (String × String))
    (used : List String) (recd : List (String × List String)) (n : String),
    mapLookup m n = none →
    (∀ g ∈ gs, ∀ ns, groupSurvivors g.2 = some ns → n ∉ ns) →
    mapLookup (consolidateGo gs m used recd).1 n = none := by
  intro gs
  induction gs with
  | nil => intro m used recd n h _; exact h
  | cons g rest ih =>
    intro m used recd n h hno
    obtain ⟨gk, names⟩ := g
    cases hs : groupSurvivors names with
    | none =>
      simp only [consolidateGo, hs]
      exact ih _ _ _ _ h (fun g' hg' => hno g' (List.mem_cons_of_mem _ hg'))
    | some ns =>
      simp only [consolidateGo, hs]
      apply ih _ _ _ _ _ (fun g' hg' => hno g' (List.mem_cons_of_mem _ hg'))
      rw [mapLookup_append, h]
      rw [mapLookup_const]
      have : n ∉ ns := hno (gk, names) (List.mem_cons_self ..) ns hs
      simp [this]

theorem cg_lookup_inv : ∀ (gs : List (JSON × List String)) (m : List (String × String))
    (used : List String) (recd : List (String × List String)) (n c : String),
    mapLookup (consolidateGo gs m used recd).1 n = some c →
    mapLookup m n = some c ∨
      ∃ ns, (c, ns) ∈ (consolidateGo gs m used recd).2.2 ∧ n ∈ ns := by
  intro gs
  induction gs with
  | nil => intro m used recd n c h; exact Or.inl h
  | cons g rest ih =>
    intro m used recd n c h
    obtain ⟨gk, names⟩ := g
    cases hs : groupSurvivors names with
    | none =>
      simp only [consolidateGo, hs] at h ⊢
      exact ih _ _ _ _ _ h
    | some ns =>
      simp only [consolidateGo, hs] at h ⊢
      rcases ih _ _ _ _ _ h with h' | ⟨ns', hmem, hn⟩
      · rw [mapLookup_append] at h'
        cases hm : mapLookup m n with
        | some c' =>
          simp only [hm] at h'
          exact Or.inl h'
        | none =>
          simp only [hm] at h'
          rw [mapLookup_const] at h'
          by_cases hn : n ∈ ns
          · rw [if_pos hn] at h'
            refine Or.inr ⟨ns, ?_, hn⟩
            have : (freshName (generateCanonicalName ns) used, ns) ∈
                recd ++ [(freshName (generateCanonicalName ns) used, ns)] :=
              List.mem_append_right _ (List.mem_singleton.mpr rfl)
            have hc : c = freshName (generateCanonicalName ns) used := by
              injection h' with h''
              exact h''.symm
            subst hc
            exact cg_rec_mono _ _ _ _ _ this
          · rw [if_neg hn] at h'
            cases h'
      · exact Or.inr ⟨ns', hmem, hn⟩

theorem cg_group_mapped : ∀ (gs : List (JSON × List String)) (m : List (String × String))
    (used : List String) (recd : List (String × List String))
    (g : JSON × List String) (ns : List String),
    g ∈ gs → groupSurvivors g.2 = some ns →
    (∀ n ∈ ns, mapLookup m n = none) →
    (∀ g' ∈ gs, ∀ ns', groupSurvivors g'.2 = some ns' → ∀ n ∈ ns, n ∈ ns' → g' = g) →
    ∃ c, (∀ n ∈ ns, mapLookup (consolidateGo gs m used recd).1 n = some c) ∧
      (c, ns) ∈ (consolidateGo gs m used recd).2.2 := by
  intro gs
  induction gs with
  | nil => intro m used recd g ns hg; cases hg
  | cons g0 rest ih =>
    intro m used recd g ns hg hsurv hnone huniq
    obtain ⟨gk, names⟩ := g0
    by_cases heq : (gk, names) = g
    · subst heq
      have hsurv' : groupSurvivors names = some ns := hsurv
      simp only [consolidateGo, hsurv']
      refine ⟨freshName (generateCanonicalName ns) used, ?_, ?_⟩
      · intro n hn
        apply cg_m_mono
        rw [mapLookup_append, hnone n hn, mapLookup_const, if_pos hn]
      · apply cg_rec_mono
        exact List.mem_append_right _ (List.mem_singleton.mpr rfl)
    · have hgrest : g ∈ rest := by
        rcases List.mem_cons.mp hg with h | h
        · exact absurd h.symm heq
        · exact h
      cases hs : groupSurvivors names with
      | none =>
        simp only [consolidateGo, hs]
        exact ih _ _ _ g ns hgrest hsurv hnone
          (fun g' hg' => huniq g' (List.mem_cons_of_mem _ hg'))
      | some ns0 =>
        simp only [consolidateGo, hs]
        apply ih _ _ _ g ns hgrest hsurv
        · intro n hn
          rw [mapLookup_append, hnone n hn, mapLookup_const]
          have : n ∉ ns0 := by
            intro hmem
            exact heq (huniq (gk, names) (List.mem_cons_self ..) ns0 hs n hn hmem)
          simp [this]
        · exact fun g' hg' => huniq g' (List.mem_cons_of_mem _ hg')

theorem cg_rec_nodup : ∀ (gs : List (JSON × List String)) (m : List (String × String))
    (used : List String) (recd : List (String × List String)),
    ((recd.map Prod.fst).Nodup) → (∀ c ∈ recd.map Prod.fst, c ∈ used) →
    (((consolidateGo gs m used recd).2.2).map Prod.fst).Nodup := by
  intro gs
  induction gs with
  | nil => intro m used recd h _; exact h
  | cons g rest ih =>
    intro m used recd hnd hsub
    obtain ⟨gk, names⟩ := g
    cases hs : groupSurvivors names with
    | none =>
      simp only [consolidateGo, hs]
      exact ih _ _ _ hnd hsub
    | some ns =>
      simp only [consolidateGo, hs]
      apply ih
      · rw [List.map_append]
        rw [List.nodup_append]
        refine ⟨hnd, by simp, ?_⟩
        intro c hc
        simp only [List.map_cons, List.map_nil, List.mem_singleton]
        intro he
        subst he
        exact freshName_not_mem _ _ (hsub _ hc)
      · intro c hc
        rw [List.map_append] at hc
        rcases List.mem_append.mp hc with h | h
        · exact List.mem_append_left _ (hsub c h)
        · simp only [List.map_cons, List.map_nil, List.mem_singleton] at h
          subst h
          exact List.mem_append_right _ (List.mem_singleton.mpr rfl)

theorem cg_rec_shape : ∀ (gs : List (JSON × List String)) (m : List (String × String))
    (used : List String) (recd : List (String × List String)),
    (∀ p ∈ recd, p.1 = generateCanonicalName p.2 ∨
      ∃ k, 2 ≤ k ∧ p.1 = generateCanonicalName p.2 ++ natDecimal k) →
    ∀ p ∈ (consolidateGo gs m used recd).2.2,
      p.1 = generateCanonicalName p.2 ∨
        ∃ k, 2 ≤ k ∧ p.1 = generateCanonicalName p.2 ++ natDecimal k := by
  intro gs
  induction gs with
  | nil => intro m used recd h p hp; exact h p hp
  | cons g rest ih =>
    intro m used recd h p hp
    obtain ⟨gk, names⟩ := g
    cases hs : groupSurvivors names with
    | none =>
      simp only [consolidateGo, hs] at hp
      exact ih _ _ _ h p hp
    | some ns =>
      simp only [consolidateGo, hs] at hp
      refine ih _ _ _ ?_ p hp
      intro q hq
      rcases List.mem_append.mp hq with h' | h'
      · exact h q h'
      · rw [List.mem_singleton] at h'
        subst h'
        exact freshName_shape _ _

/-! ### Claim C4 -/

/-- C4: within one `consolidate()` pass the canonical names recorded for
the duplicate groups are pairwise distinct, and each recorded canonical
name is either the generated base name for its group or the base name
with a numeric suffix `k ≥ 2` appended (the suffixing loop fires exactly
when the base was already taken). -/
theorem C4_canonical_names_unique (spec : JSON) :
    (((consolidate spec).stats.consolidated_names).map Prod.fst).Nodup ∧
    ∀ p ∈ (consolidate spec).stats.consolidated_names,
      p.1 = generateCanonicalName p.2 ∨
        ∃ k, 2 ≤ k ∧ p.1 = generateCanonicalName p.2 ++ natDecimal k := by
  constructor
  · exact cg_rec_nodup _ [] [] [] (by simp) (by simp)
  · exact cg_rec_shape _ [] [] [] (by simp)

/-! ### Lemmas: exact-duplicate groups -/

theorem assoc_unique {schemas : List (String × JSON)} {n : String} {v v' : JSON}
    (hnd : (schemas.map Prod.fst).Nodup)
    (h1 : (n, v) ∈ schemas) (h2 : (n, v') ∈ schemas) : v = v' := by
  induction schemas with
  | nil => cases h1
  | cons p rest ih =>
    obtain ⟨k, w⟩ := p
    rw [List.map_cons, List.nodup_cons] at hnd
    rcases List.mem_cons.mp h1 with he1 | hm1 <;> rcases List.mem_cons.mp h2 with he2 | hm2
    · have e1 : v = w := congrArg Prod.snd he1
      have e2 : v' = w := congrArg Prod.snd he2
      rw [e1, e2]
    · exfalso
      have e1 : n = k := congrArg Prod.fst he1
      subst e1
      exact hnd.1 (by simpa using List.mem_map_of_mem Prod.fst hm2)
    · exfalso
      have e2 : n = k := congrArg Prod.fst he2
      subst e2
      exact hnd.1 (by simpa using List.mem_map_of_mem Prod.fst hm1)
    · exact ih hnd.2 hm1 hm2

/-- Name lists of exact-duplicate groups: the group keyed by `k` lists
exactly the names of the schemas with canonical body `k`. -/
theorem findExact_names {schemas : List (String × JSON)} {G : JSON × List String}
    (hG : G ∈ findExactDuplicateGroups schemas) :
    G.2 = (schemas.filter (fun p => canon p.2 = G.1)).map Prod.fst := by
  unfold findExactDuplicateGroups at hG
  rw [List.mem_filter] at hG
  obtain ⟨hmem, -⟩ := hG
  obtain ⟨k, ns⟩ := G
  have hnd := groupFold_keys_nodup canon schemas [] (by simp)
  have := groupOf_of_mem_nodup hnd hmem
  have hnames := groupFold_names canon schemas [] k
  rw [this] at hnames
  simpa using hnames

theorem findExact_mem_names {schemas : List (String × JSON)} {G : JSON × List String}
    (hG : G ∈ findExactDuplicateGroups schemas) {n : String} (hn : n ∈ G.2) :
    ∃ v, (n, v) ∈ schemas ∧ canon v = G.1 := by
  rw [findExact_names hG] at hn
  rw [List.mem_map] at hn
  obtain ⟨p, hp, rfl⟩ := hn
  rw [List.mem_filter] at hp
  exact ⟨p.2, hp.1, by simpa using hp.2⟩

/-- With pairwise-distinct schema names, a name lies in at most one
exact-duplicate group. -/
theorem findExact_disjoint {schemas : List (String × JSON)}
    (hnd : (schemas.map Prod.fst).Nodup)
    {G G' : JSON × List String}
    (hG : G ∈ findExactDuplicateGroups schemas) (hG' : G' ∈ findExactDuplicateGroups schemas)
    {n : String} (hn : n ∈ G.2) (hn' : n ∈ G'.2) : G' = G := by
  obtain ⟨v, hv, hk⟩ := findExact_mem_names hG hn
  obtain ⟨v', hv', hk'⟩ := findExact_mem_names hG' hn'
  have hvv : v = v' := assoc_unique hnd hv hv'
  subst hvv
  have hkeys : G'.1 = G.1 := hk'.symm.trans hk
  obtain ⟨k, ns⟩ := G
  obtain ⟨k', ns'⟩ := G'
  simp only at hkeys
  subst hkeys
  have h2 := findExact_names hG
  have h2' := findExact_names hG'
  simp only at h2 h2'
  rw [h2'.trans h2.symm]

theorem excludedUnion_mem {names : List String} {x : String} :
    x ∈ excludedUnion names ↔
      ∃ e ∈ doNotMerge, (∀ y ∈ e, y ∈ names) ∧ x ∈ e := by
  unfold excludedUnion
  have main : ∀ (l : List (List String)) (acc : List String),
      x ∈ l.foldl (fun acc e =>
          if e.all (fun y => names.contains y) then acc ++ e else acc) acc ↔
        x ∈ acc ∨ ∃ e ∈ l, (∀ y ∈ e, y ∈ names) ∧ x ∈ e := by
    intro l
    induction l with
    | nil => intro acc; simp
    | cons e rest ih =>
      intro acc
      by_cases h : e.all (fun y => names.contains y) = true
      · rw [List.foldl_cons, if_pos h, ih]
        have hall : ∀ y ∈ e, y ∈ names := by
          intro y hy
          have := List.all_eq_true.mp h y hy
          simpa using this
        constructor
        · rintro (hx | hex)
          · rcases List.mem_append.mp hx with hx | hx
            · exact Or.inl hx
            · exact Or.inr ⟨e, List.mem_cons_self .., hall, hx⟩
          · obtain ⟨e', he', h1, h2⟩ := hex
            exact Or.inr ⟨e', List.mem_cons_of_mem _ he', h1, h2⟩
        · rintro (hx | ⟨e', he', h1, h2⟩)
          · exact Or.inl (List.mem_append_left _ hx)
          · rcases List.mem_cons.mp he' with rfl | he''
            · exact Or.inl (List.mem_append_right _ h2)
            · exact Or.inr ⟨e', he'', h1, h2⟩
      · rw [List.foldl_cons, if_neg h, ih]
        constructor
        · rintro (hx | ⟨e', he', h1, h2⟩)
          · exact Or.inl hx
          · exact Or.inr ⟨e', List.mem_cons_of_mem _ he', h1, h2⟩
        · rintro (hx | ⟨e', he', h1, h2⟩)
          · exact Or.inl hx
          · rcases List.mem_cons.mp he' with rfl | he''
            · exact absurd (List.all_eq_true.mpr (fun y hy => by simpa using h1 y hy)) h
            · exact Or.inr ⟨e', he'', h1, h2⟩
  rw [main]
  simp

/-- When some exclusion set is contained in the group, the survivor
computation filters out the excluded names and demands two survivors. -/
theorem groupSurvivors_of_exclusion {names : List String} {E : List String}
    (hE : E ∈ doNotMerge) (hsub : ∀ x ∈ E, x ∈ names) :
    groupSurvivors names =
      (if (names.filter (fun n => !(excludedUnion names).contains n)).length < 2 then none
       else some (names.filter (fun n => !(excludedUnion names).contains n))) := by
  unfold groupSurvivors
  have hany : doNotMerge.any (fun e => e.all (fun x => names.contains x)) = true := by
    rw [List.any_eq_true]
    refine ⟨E, hE, List.all_eq_true.mpr (fun y hy => by simpa using hsub y hy)⟩
  rw [if_pos hany]

theorem groupSurvivors_subset {names ns : List String}
    (h : groupSurvivors names = some ns) : ∀ x ∈ ns, x ∈ names := by
  unfold groupSurvivors at h
  by_cases hany : doNotMerge.any (fun e => e.all (fun x => names.contains x)) = true
  · rw [if_pos hany] at h
    by_cases hlen : (names.filter (fun n => !(excludedUnion names).contains n)).length < 2
    · rw [if_pos hlen] at h
      cases h
    · rw [if_neg hlen] at h
      injection h with h
      subst h
      intro x hx
      exact (List.mem_filter.mp hx).1
  · rw [if_neg hany] at h
    injection h with h
    subst h
    exact fun x hx => hx

/-! ### Claim C5 -/

theorem consolidate_map_def (spec : JSON) :
    (consolidate spec).rename_map =
      (consolidateGo (findExactDuplicateGroups (getSchemas spec)) [] [] []).1 := rfl

theorem consolidate_rec_def (spec : JSON) :
    (consolidate spec).stats.consolidated_names =
      (consolidateGo (findExactDuplicateGroups (getSchemas spec)) [] [] []).2.2 := rfl

/-- C5: when a DO_NOT_MERGE exclusion set is contained in an
exact-duplicate group, every name of every contained exclusion set is
left unmapped (so no two protected names are ever sent to one canonical
name); the surviving names are merged to a single canonical name exactly
when at least two of them remain, and otherwise no name of the group is
mapped at all. -/
theorem C5_merge_exclusion (spec : JSON) (E : List String) (G : JSON × List String)
    (hnd : ((getSchemas spec).map Prod.fst).Nodup)
    (hE : E ∈ doNotMerge)
    (hG : G ∈ findExactDuplicateGroups (getSchemas spec))
    (hsub : ∀ x ∈ E, x ∈ G.2) :
    (∀ n, (∃ e ∈ doNotMerge, (∀ x ∈ e, x ∈ G.2) ∧ n ∈ e) →
      mapLookup (consolidate spec).rename_map n = none) ∧
    (∀ a ∈ E, ∀ b ∈ E, mapLookup (consolidate spec).rename_map a = none ∧
      mapLookup (consolidate spec).rename_map b = none) ∧
    (2 ≤ (G.2.filter (fun n => !(excludedUnion G.2).contains n)).length →
      ∃ c, ∀ n ∈ G.2.filter (fun n => !(excludedUnion G.2).contains n),
        mapLookup (consolidate spec).rename_map n = some c) ∧
    ((G.2.filter (fun n => !(excludedUnion G.2).contains n)).length < 2 →
      ∀ n ∈ G.2, mapLookup (consolidate spec).rename_map n = none) := by
  have hGS := groupSurvivors_of_exclusion hE hsub
  have hi : ∀ n, (∃ e ∈ doNotMerge, (∀ x ∈ e, x ∈ G.2) ∧ n ∈ e) →
      mapLookup (consolidate spec).rename_map n = none := by
    intro n ⟨e, he, hesub, hne⟩
    have hnG : n ∈ G.2 := hesub n hne
    have hnEx : n ∈ excludedUnion G.2 := excludedUnion_mem.mpr ⟨e, he, hesub, hne⟩
    rw [consolidate_map_def]
    apply cg_lookup_none
    · rfl
    intro g hg ns hsg hnns
    have hgn : n ∈ g.2 := groupSurvivors_subset hsg n hnns
    have hgG : g = G := findExact_disjoint hnd hG hg hnG hgn
    rw [hgG] at hsg
    rw [hGS] at hsg
    by_cases hlen : (G.2.filter (fun x => !(excludedUnion G.2).contains x)).length < 2
    · rw [if_pos hlen] at hsg
      cases hsg
    · rw [if_neg hlen] at hsg
      injection hsg with hsg
      subst hsg
      have := (List.mem_filter.mp hnns).2
      simp only [Bool.not_eq_true', List.contains_eq_any_beq, List.any_eq_false] at this
      exact absurd (by simp : (n == n) = true) (by simpa using this n hnEx)
  refine ⟨hi, ?_, ?_, ?_⟩
  · intro a ha b hb
    exact ⟨hi a ⟨E, hE, hsub, ha⟩, hi b ⟨E, hE, hsub, hb⟩⟩
  · intro hlen
    have hsurv : groupSurvivors G.2 =
        some (G.2.filter (fun n => !(excludedUnion G.2).contains n)) := by
      rw [hGS, if_neg (by omega)]
    rw [consolidate_map_def]
    have := cg_group_mapped (findExactDuplicateGroups (getSchemas spec)) [] [] [] G
      (G.2.filter (fun n => !(excludedUnion G.2).contains n)) hG hsurv
      (fun n _ => rfl) ?_
    · obtain ⟨c, hc, -⟩ := this
      exact ⟨c, hc⟩
    · intro g' hg' ns' hsg' n hnrem hn'
      have hnG : n ∈ G.2 := (List.mem_filter.mp hnrem).1
      have hgn : n ∈ g'.2 := groupSurvivors_subset hsg' n hn'
      exact findExact_disjoint hnd hG hg' hnG hgn
  · intro hlen n hnG
    rw [consolidate_map_def]
    apply cg_lookup_none
    · rfl
    intro g hg ns hsg hnns
    have hgn : n ∈ g.2 := groupSurvivors_subset hsg n hnns
    have hgG : g = G := findExact_disjoint hnd hG hg hnG hgn
    rw [hgG] at hsg
    rw [hGS, if_pos hlen] at hsg
    cases hsg

/-- Document used by the C5 witness: the protected pair together with a
third schema, all three exact duplicates. -/
def specC5 : JSON := .obj [("components", .obj [("schemas", .obj [
  ("CreateExternalSquadRequestDto", .obj [("type", .str "object")]),
  ("CreateSubscriptionPageConfigRequestDto", .obj [("type", .str "object")]),
  ("CreateZedRequestDto", .obj [("type", .str "object")])])])]

/-- C5 witness: on `specC5`, both protected names stay unmapped. -/
theorem C5_merge_exclusion_witness :
    mapLookup (consolidate specC5).rename_map "CreateExternalSquadRequestDto" = none ∧
    mapLookup (consolidate specC5).rename_map "CreateSubscriptionPageConfigRequestDto" =
      none :=
  (C5_merge_exclusion specC5
      ["CreateExternalSquadRequestDto", "CreateSubscriptionPageConfigRequestDto"]
      (JSON.obj [("type", JSON.str "object")],
        ["CreateExternalSquadRequestDto", "CreateSubscriptionPageConfigRequestDto",
         "CreateZedRequestDto"])
      (by decide) (by decide) (by decide) (by decide)).2.1
    "CreateExternalSquadRequestDto" (by decide)
    "CreateSubscriptionPageConfigRequestDto" (by decide)

/-- Document used by the C4 witness: one exact-duplicate pair. -/
def specC4 : JSON := .obj [("components", .obj [("schemas", .obj [
  ("Za", .obj [("type", .str "object")]),
  ("Zb", .obj [("type", .str "object")])])])]

/-- C4 witness: the single recorded group of `specC4` carries its
generated base name (no suffix was needed). -/
theorem C4_canonical_names_unique_witness :
    (("Za", ["Za", "Zb"]) : String × List String).1 = generateCanonicalName ["Za", "Zb"] ∨
      ∃ k, 2 ≤ k ∧ (("Za", ["Za", "Zb"]) : String × List String).1 =
        generateCanonicalName ["Za", "Zb"] ++ natDecimal k :=
  (C4_canonical_names_unique specC4).2 ("Za", ["Za", "Zb"]) (by decide)

/-! ### Claim C9 -/

/-- Document refuting C9: the group `CreateZed`/`UpdateZed` is
canonicalised to `Zed`, which is itself a schema name in a different
duplicate group and hence a key of the map (sent to `Zed2`). -/
def specC9 : JSON := .obj [("components", .obj [("schemas", .obj [
  ("CreateZed", .obj [("type", .str "object")]),
  ("UpdateZed", .obj [("type", .str "object")]),
  ("Zed", .obj [("type", .str "string")]),
  ("Qux", .obj [("type", .str "string")])])])]

/-- C9 counterexample: a canonical name (`Zed`, the value of
`CreateZed`) occurs as a key of the rename map bound to a different
value (`Zed2`), and applying the lookup twice differs from applying it
once. -/
theorem C9_counterexample_cyclic_map :
    renameGetD (consolidate specC9).rename_map "CreateZed" = "Zed" ∧
    mapLookup (consolidate specC9).rename_map "Zed" = some "Zed2" ∧
    ("Zed2" : String) ≠ "Zed" ∧
    renameGetD (consolidate specC9).rename_map
        (renameGetD (consolidate specC9).rename_map "CreateZed") ≠
      renameGetD (consolidate specC9).rename_map "CreateZed" := by
  refine ⟨by decide, by decide, by decide, by decide⟩

/-- C9 (amended): a canonical name can occur as a key of the rename map
only when it is itself a schema name; provided every recorded canonical
name that is a key of the map belongs to the very group it names (which
fails when a generated name collides with a schema name from a different
duplicate group, see the counterexample), lookup with identity default is
idempotent. -/
theorem C9_rename_map_idempotent (spec : JSON)
    (hnd : ((getSchemas spec).map Prod.fst).Nodup)
    (H : ∀ p ∈ (consolidate spec).stats.consolidated_names,
      mapLookup (consolidate spec).rename_map p.1 ≠ none → p.1 ∈ p.2) :
    ∀ x, renameGetD (consolidate spec).rename_map
        (renameGetD (consolidate spec).rename_map x) =
      renameGetD (consolidate spec).rename_map x := by
  intro x
  simp only [renameGetD_eq]
  cases hx : mapLookup (consolidate spec).rename_map x with
  | none => simp [hx]
  | some c =>
    simp only [Option.getD_some]
    cases hc : mapLookup (consolidate spec).rename_map c with
    | none => simp
    | some d =>
      simp only [Option.getD_some]
      -- x was renamed: it lies in a recorded group with canonical name c
      rw [consolidate_map_def] at hx
      rcases cg_lookup_inv _ _ _ _ _ _ hx with hcontra | ⟨ns, hrec, hxns⟩
      · cases hcontra
      rw [← consolidate_rec_def] at hrec
      -- the group comes from a duplicate group with survivors ns
      have horigin := cg_rec_origin _ _ _ _ _ ((consolidate_rec_def spec) ▸ hrec)
      rcases horigin with hfalse | ⟨g, hgdup, hgs⟩
      · cases hfalse
      -- every member of ns is sent to one canonical name
      have huniq : ∀ g' ∈ findExactDuplicateGroups (getSchemas spec), ∀ ns',
          groupSurvivors g'.2 = some ns' → ∀ n ∈ ns, n ∈ ns' → g' = g := by
        intro g' hg' ns' hsg' n hn hn'
        have h1 : n ∈ g.2 := groupSurvivors_subset hgs n hn
        have h2 : n ∈ g'.2 := groupSurvivors_subset hsg' n hn'
        exact findExact_disjoint hnd hgdup hg' h1 h2
      obtain ⟨c', hc', -⟩ := cg_group_mapped (findExactDuplicateGroups (getSchemas spec))
        [] [] [] g ns hgdup hgs (fun n _ => rfl) huniq
      have hcc' : c' = c := by
        have h2 : some c' = some c := (hc' x hxns).symm.trans hx
        injection h2
      -- the canonical name, being a key, lies in its own group by H
      have hck : c' ∈ ns := by
        rw [hcc']
        exact H (c, ns) hrec (by
          show mapLookup (consolidate spec).rename_map c ≠ none
          rw [hc]; simp)
      have h3 : mapLookup (consolidateGo (findExactDuplicateGroups (getSchemas spec))
          [] [] []).1 c' = some c' := hc' c' hck
      have hcd : mapLookup (consolidate spec).rename_map c' = some d := by
        rw [hcc']; exact hc
      have h4 : some d = some c' := hcd.symm.trans h3
      injection h4 with h4
      rw [h4, hcc']

/-- Document for the C9 witness: one duplicate pair whose canonical name
is not a schema name, so the hypothesis of the amended claim holds. -/
def specC9W : JSON := .obj [("components", .obj [("schemas", .obj [
  ("CreateZed", .obj [("type", .str "object")]),
  ("UpdateZed", .obj [("type", .str "object")])])])]

/-- C9 witness: idempotence of the rename-map lookup on `specC9W`. -/
theorem C9_rename_map_idempotent_witness :
    renameGetD (consolidate specC9W).rename_map
        (renameGetD (consolidate specC9W).rename_map "CreateZed") =
      renameGetD (consolidate specC9W).rename_map "CreateZed" :=
  C9_rename_map_idempotent specC9W (by decide) (by decide) "CreateZed"

/-! ### Reference-integrity lemmas for `apply_consolidation` -/

/-- The rewrite `update_refs` applies to one reference string (lines
688-692): the old name is recovered with `value.replace(marker, '')`,
renamed through the map, and glued back behind the marker. -/
def refRewrite (m : List (String × String)) (s : String) : String :=
  if strStarts s refMark then refMark ++ renameGetD m (removeAll s refMark) else s

theorem leadsList_self_append : ∀ (p t : List Char), leadsList p (p ++ t) = true := by
  intro p
  induction p with
  | nil => intro t; rfl
  | cons c cs ih => intro t; simp [leadsList, ih]

theorem leadsList_decompose : ∀ (p l : List Char), leadsList p l = true →
    l = p ++ l.drop p.length := by
  intro p
  induction p with
  | nil => intro l _; simp
  | cons c cs ih =>
    intro l h
    cases l with
    | nil => simp [leadsList] at h
    | cons d ds =>
      simp only [leadsList, Bool.and_eq_true, decide_eq_true_eq] at h
      obtain ⟨h1, h2⟩ := h
      subst h1
      simpa using ih ds h2

theorem removeAllF_fuel (pat : List Char) : ∀ (n : Nat) (t : List Char), t.length ≤ n →
    ∀ fuel fuel', t.length ≤ fuel → t.length ≤ fuel' →
      removeAllF pat fuel t = removeAllF pat fuel' t := by
  intro n
  induction n using Nat.strong_induction_on with
  | _ n IH =>
    intro t ht fuel fuel' hf hf'
    cases t with
    | nil => cases fuel <;> cases fuel' <;> rfl
    | cons c rest =>
      cases fuel with
      | zero => simp at hf
      | succ f =>
        cases fuel' with
        | zero => simp at hf'
        | succ f' =>
          simp only [List.length_cons] at ht hf hf'
          simp only [removeAllF]
          by_cases hl : leadsList pat (c :: rest) = true
          · rw [if_pos hl, if_pos hl]
            have hd : (List.drop (pat.length - 1) rest).length ≤ rest.length := by
              rw [List.length_drop]; exact Nat.sub_le _ _
            exact IH rest.length (by omega) _ hd f f' (by omega) (by omega)
          · rw [if_neg hl, if_neg hl]
            rw [IH rest.length (by omega) rest le_rfl f f' (by omega) (by omega)]

theorem removeAllF_not_contains (pat : List Char) : ∀ (t : List Char) (fuel : Nat),
    t.length ≤ fuel → containsList pat t = false → removeAllF pat fuel t = t := by
  intro t
  induction t with
  | nil => intro fuel _ _; cases fuel <;> rfl
  | cons c rest ih =>
    intro fuel hf hc
    cases fuel with
    | zero => simp at hf
    | succ f =>
      simp only [containsList, Bool.or_eq_false_iff] at hc
      simp only [removeAllF]
      rw [if_neg (by simp [hc.1])]
      rw [ih f (by simp at hf; omega) hc.2]

theorem removeAllF_leading (p : List Char) (hp : p ≠ []) :
    ∀ (t : List Char) (fuel : Nat), t.length ≤ fuel →
      removeAllF p (p ++ t).length (p ++ t) = removeAllF p fuel t := by
  intro t fuel ht
  cases p with
  | nil => exact absurd rfl hp
  | cons c ps =>
    have hlen : ((c :: ps) ++ t).length = (ps.length + t.length) + 1 := by
      simp [List.length_append]
    rw [hlen]
    show removeAllF (c :: ps) ((ps.length + t.length) + 1) (c :: (ps ++ t)) = _
    simp only [removeAllF]
    rw [if_pos (show leadsList (c :: ps) (c :: (ps ++ t)) = true from
      leadsList_self_append (c :: ps) t)]
    have hdrop : List.drop ((c :: ps).length - 1) (ps ++ t) = t := by
      simp only [List.length_cons, Nat.add_sub_cancel]
      exact List.drop_left ps t
    rw [hdrop]
    exact removeAllF_fuel (c :: ps) t.length t le_rfl _ fuel (by omega) ht

theorem removeAll_of_starts (s : String) (h : strStarts s refMark = true)
    (hnc : containsSub (refSuffix s) refMark = false) :
    removeAll s refMark = refSuffix s := by
  have hd : s.data = refMark.data ++ (refSuffix s).data :=
    leadsList_decompose refMark.data s.data h
  unfold removeAll
  rw [hd]
  rw [removeAllF_leading refMark.data (by decide) (refSuffix s).data
    (refSuffix s).data.length le_rfl]
  rw [removeAllF_not_contains refMark.data (refSuffix s).data _ le_rfl hnc]

theorem refSuffix_append (t : String) : refSuffix (refMark ++ t) = t := by
  show String.mk (List.drop refMark.data.length (refMark.data ++ t.data)) = t
  rw [List.drop_left]

theorem strStarts_append_mark (t : String) : strStarts (refMark ++ t) refMark = true := by
  show leadsList refMark.data (refMark.data ++ t.data) = true
  exact leadsList_self_append _ _

theorem refs_updateList_of (m : List (String × String)) : ∀ (xs : List JSON),
    (∀ x ∈ xs, refStringsIn (updateRefs m x) = (refStringsIn x).map (refRewrite m)) →
    refStringsInList (updateRefsList m xs) = (refStringsInList xs).map (refRewrite m) := by
  intro xs
  induction xs with
  | nil => intro _; rfl
  | cons a as ih =>
    intro hx
    simp only [updateRefsList, refStringsInList, List.map_append]
    rw [hx a (by simp), ih (fun x h => hx x (List.mem_cons_of_mem _ h))]



theorem updateRefs_not_str (m : List (String × String)) (v : JSON)
    (hv : ∀ s, v = JSON.str s → False) : ∀ s, updateRefs m v = JSON.str s → False := by
  intro s h
  cases v with
  | str t => exact hv t rfl
  | null => exact JSON.noConfusion h
  | bool b => exact JSON.noConfusion h
  | num q => exact JSON.noConfusion h
  | arr xs => exact JSON.noConfusion h
  | obj fs => exact JSON.noConfusion h

theorem refsFields_cons_str (k s : String) (rest : List (String × JSON)) :
    refStringsInFields ((k, JSON.str s) :: rest) =
      (if k = "$ref" then [s] else []) ++ refStringsInFields rest := by
  rw [refStringsInFields.eq_2]
  congr 1

theorem refsFields_cons_nonstr (k : String) (v : JSON) (rest : List (String × JSON))
    (hv : ∀ s, v = JSON.str s → False) :
    refStringsInFields ((k, v) :: rest) = refStringsIn v ++ refStringsInFields rest := by
  rw [refStringsInFields.eq_3 k v rest hv, ite_self]

theorem updf_cons_str (m : List (String × String)) (k s : String)
    (rest : List (String × JSON)) :
    updateRefsFields m ((k, JSON.str s) :: rest) =
      (k, JSON.str (if k = "$ref" then
          (if strStarts s refMark then refMark ++ renameGetD m (removeAll s refMark) else s)
        else s)) :: updateRefsFields m rest := by
  rw [updateRefsFields.eq_2]
  congr 1
  by_cases hk : k = "$ref"
  · rw [if_pos hk, if_pos hk]
  · rw [if_neg hk, if_neg hk]
    rfl

theorem updf_cons_nonstr (m : List (String × String)) (k : String) (v : JSON)
    (rest : List (String × JSON)) (hv : ∀ s, v = JSON.str s → False) :
    updateRefsFields m ((k, v) :: rest) = (k, updateRefs m v) :: updateRefsFields m rest := by
  rw [updateRefsFields.eq_3 m k v rest hv, ite_self]

theorem refs_updf_cons_nonstr (m : List (String × String)) (k : String) (v : JSON)
    (rest : List (String × JSON))
    (hrest : refStringsInFields (updateRefsFields m rest) =
      (refStringsInFields rest).map (refRewrite m))
    (hv : refStringsIn (updateRefs m v) = (refStringsIn v).map (refRewrite m))
    (hnv : ∀ s, v = JSON.str s → False) :
    refStringsInFields (updateRefsFields m ((k, v) :: rest)) =
      (refStringsInFields ((k, v) :: rest)).map (refRewrite m) := by
  rw [updf_cons_nonstr m k v rest hnv]
  rw [refsFields_cons_nonstr k (updateRefs m v) _ (updateRefs_not_str m v hnv)]
  rw [refsFields_cons_nonstr k v _ hnv]
  rw [List.map_append, hrest, hv]

theorem refs_updateFields_of (m : List (String × String)) : ∀ (fs : List (String × JSON)),
    (∀ p ∈ fs, refStringsIn (updateRefs m p.2) = (refStringsIn p.2).map (refRewrite m)) →
    refStringsInFields (updateRefsFields m fs) =
      (refStringsInFields fs).map (refRewrite m) := by
  intro fs
  induction fs with
  | nil => intro _; rfl
  | cons p rest ih =>
    intro hx
    obtain ⟨k, v⟩ := p
    have hrest := ih (fun q h => hx q (List.mem_cons_of_mem _ h))
    have hv : refStringsIn (updateRefs m v) = (refStringsIn v).map (refRewrite m) :=
      hx (k, v) (List.mem_cons_self _ _)
    cases v with
    | str s =>
      rw [updf_cons_str m k s rest]
      rw [refsFields_cons_str, refsFields_cons_str]
      rw [List.map_append, hrest]
      congr 1
      by_cases hk : k = "$ref"
      · rw [if_pos hk, if_pos hk, if_pos hk]
        rfl
      · rw [if_neg hk, if_neg hk]
        rfl
    | null => exact refs_updf_cons_nonstr m k _ _ hrest hv (fun s h => JSON.noConfusion h)
    | bool b => exact refs_updf_cons_nonstr m k _ _ hrest hv (fun s h => JSON.noConfusion h)
    | num q => exact refs_updf_cons_nonstr m k _ _ hrest hv (fun s h => JSON.noConfusion h)
    | arr xs => exact refs_updf_cons_nonstr m k _ _ hrest hv (fun s h => JSON.noConfusion h)
    | obj f2 => exact refs_updf_cons_nonstr m k _ _ hrest hv (fun s h => JSON.noConfusion h)

theorem refs_update_all (m : List (String × String)) :
    ∀ (n : Nat) (j : JSON), jdepth j ≤ n →
      refStringsIn (updateRefs m j) = (refStringsIn j).map (refRewrite m) := by
  intro n
  induction n using Nat.strong_induction_on with
  | _ n IH =>
    intro j hj
    cases j with
    | null => rfl
    | bool b => rfl
    | num q => rfl
    | str s => rfl
    | arr xs =>
      show refStringsInList (updateRefsList m xs) = (refStringsInList xs).map (refRewrite m)
      apply refs_updateList_of
      intro x hxm
      have h1 : jdepth x ≤ jdepthList xs := jdepth_mem_list hxm
      have h2 : jdepthList xs < n := by simp [jdepth] at hj; omega
      exact IH (jdepthList xs) h2 x h1
    | obj fs =>
      show refStringsInFields (updateRefsFields m fs) =
        (refStringsInFields fs).map (refRewrite m)
      apply refs_updateFields_of
      intro p hpm
      have h1 : jdepth p.2 ≤ jdepthFields fs := jdepth_mem_fields hpm
      have h2 : jdepthFields fs < n := by simp [jdepth] at hj; omega
      exact IH (jdepthFields fs) h2 p.2 h1

theorem getKey_mem : ∀ {fs : List (String × JSON)} {k : String} {v : JSON},
    JSON.getKey fs k = some v → (k, v) ∈ fs := by
  intro fs
  induction fs with
  | nil => intro k v h; simp [JSON.getKey] at h
  | cons q rest ih =>
    intro k v h
    obtain ⟨k', v'⟩ := q
    by_cases hk : k' = k
    · subst hk
      simp [JSON.getKey] at h
      subst h
      exact List.mem_cons_self _ _
    · simp [JSON.getKey, hk] at h
      exact List.mem_cons_of_mem _ (ih h)

theorem mem_refsFields_of_value : ∀ {fs : List (String × JSON)} {k : String} {v : JSON}
    {s : String}, (k, v) ∈ fs → s ∈ refStringsIn v → s ∈ refStringsInFields fs := by
  intro fs
  induction fs with
  | nil => intro k v s hm _; cases hm
  | cons q rest ih =>
    intro k v s hm hs
    obtain ⟨k', v'⟩ := q
    rcases List.mem_cons.mp hm with heq | hr
    · injection heq with h1 h2
      subst h1; subst h2
      cases v with
      | str t =>
        simp [refStringsIn] at hs
      | null => simp [refStringsIn] at hs
      | bool b => simp [refStringsIn] at hs
      | num q2 => simp [refStringsIn] at hs
      | arr xs =>
        rw [refsFields_cons_nonstr k _ rest (fun s h => JSON.noConfusion h)]
        exact List.mem_append_left _ hs
      | obj f2 =>
        rw [refsFields_cons_nonstr k _ rest (fun s h => JSON.noConfusion h)]
        exact List.mem_append_left _ hs
    · cases v' with
      | str t =>
        rw [refsFields_cons_str]
        exact List.mem_append_right _ (ih hr hs)
      | null =>
        rw [refsFields_cons_nonstr k' _ rest (fun s h => JSON.noConfusion h)]
        exact List.mem_append_right _ (ih hr hs)
      | bool b =>
        rw [refsFields_cons_nonstr k' _ rest (fun s h => JSON.noConfusion h)]
        exact List.mem_append_right _ (ih hr hs)
      | num q2 =>
        rw [refsFields_cons_nonstr k' _ rest (fun s h => JSON.noConfusion h)]
        exact List.mem_append_right _ (ih hr hs)
      | arr xs =>
        rw [refsFields_cons_nonstr k' _ rest (fun s h => JSON.noConfusion h)]
        exact List.mem_append_right _ (ih hr hs)
      | obj f2 =>
        rw [refsFields_cons_nonstr k' _ rest (fun s h => JSON.noConfusion h)]
        exact List.mem_append_right _ (ih hr hs)

theorem refsFields_decompose : ∀ (fs : List (String × JSON)) (s : String),
    s ∈ refStringsInFields fs → (∀ p ∈ fs, p.1 ≠ "$ref") →
    ∃ p ∈ fs, s ∈ refStringsIn p.2 := by
  intro fs
  induction fs with
  | nil => intro s h _; simp [refStringsInFields.eq_1] at h
  | cons q rest ih =>
    intro s h hk
    obtain ⟨k', v'⟩ := q
    have hk' : ¬ (k' = "$ref") := hk (k', v') (List.mem_cons_self _ _)
    have hcons : refStringsInFields ((k', v') :: rest) =
        refStringsIn v' ++ refStringsInFields rest := by
      cases v' with
      | str t => rw [refsFields_cons_str, if_neg hk']; rfl
      | null => exact refsFields_cons_nonstr k' _ rest (fun s h => JSON.noConfusion h)
      | bool b => exact refsFields_cons_nonstr k' _ rest (fun s h => JSON.noConfusion h)
      | num q2 => exact refsFields_cons_nonstr k' _ rest (fun s h => JSON.noConfusion h)
      | arr xs => exact refsFields_cons_nonstr k' _ rest (fun s h => JSON.noConfusion h)
      | obj f2 => exact refsFields_cons_nonstr k' _ rest (fun s h => JSON.noConfusion h)
    rw [hcons] at h
    rcases List.mem_append.mp h with h1 | h2
    · exact ⟨(k', v'), List.mem_cons_self _ _, h1⟩
    · obtain ⟨p, hp, hs⟩ := ih s h2 (fun p hpm => hk p (List.mem_cons_of_mem _ hpm))
      exact ⟨p, List.mem_cons_of_mem _ hp, hs⟩

theorem refsFields_cons_any (k : String) (v : JSON) (rest : List (String × JSON))
    (hk : ¬ (k = "$ref")) :
    refStringsInFields ((k, v) :: rest) = refStringsIn v ++ refStringsInFields rest := by
  cases v with
  | str t => rw [refsFields_cons_str, if_neg hk]; rfl
  | null => exact refsFields_cons_nonstr k _ rest (fun s h => JSON.noConfusion h)
  | bool b => exact refsFields_cons_nonstr k _ rest (fun s h => JSON.noConfusion h)
  | num q2 => exact refsFields_cons_nonstr k _ rest (fun s h => JSON.noConfusion h)
  | arr xs => exact refsFields_cons_nonstr k _ rest (fun s h => JSON.noConfusion h)
  | obj f2 => exact refsFields_cons_nonstr k _ rest (fun s h => JSON.noConfusion h)

theorem setKeyF_refs (k : String) (v : JSON) (hk : k ≠ "$ref") :
    ∀ (fs : List (String × JSON)) (s : String),
    s ∈ refStringsInFields (setKeyF fs k v) →
    s ∈ refStringsInFields fs ∨ s ∈ refStringsIn v := by
  intro fs
  induction fs with
  | nil => intro s h; simp [setKeyF, refStringsInFields.eq_1] at h
  | cons q rest ih =>
    intro s h
    obtain ⟨k', v'⟩ := q
    simp only [setKeyF] at h
    by_cases hkk : k' = k
    · rw [if_pos hkk] at h
      rw [refsFields_cons_any k' v rest (by rw [hkk]; exact hk)] at h
      rcases List.mem_append.mp h with h1 | h2
      · exact Or.inr h1
      · left
        by_cases hr : k' = "$ref"
        · subst hr
          cases v' with
          | str t =>
            rw [refsFields_cons_str]
            exact List.mem_append_right _ h2
          | null =>
            rw [refsFields_cons_nonstr _ _ rest (fun s h => JSON.noConfusion h)]
            exact List.mem_append_right _ h2
          | bool b =>
            rw [refsFields_cons_nonstr _ _ rest (fun s h => JSON.noConfusion h)]
            exact List.mem_append_right _ h2
          | num q2 =>
            rw [refsFields_cons_nonstr _ _ rest (fun s h => JSON.noConfusion h)]
            exact List.mem_append_right _ h2
          | arr xs =>
            rw [refsFields_cons_nonstr _ _ rest (fun s h => JSON.noConfusion h)]
            exact List.mem_append_right _ h2
          | obj f2 =>
            rw [refsFields_cons_nonstr _ _ rest (fun s h => JSON.noConfusion h)]
            exact List.mem_append_right _ h2
        · rw [refsFields_cons_any k' v' rest hr]
          exact List.mem_append_right _ h2
    · rw [if_neg hkk] at h
      by_cases hr : k' = "$ref"
      · subst hr
        cases v' with
        | str t =>
          rw [refsFields_cons_str] at h ⊢
          rcases List.mem_append.mp h with h1 | h2
          · exact Or.inl (List.mem_append_left _ h1)
          · rcases ih s h2 with ha | hb
            · exact Or.inl (List.mem_append_right _ ha)
            · exact Or.inr hb
        | null =>
          rw [refsFields_cons_nonstr _ _ _ (fun s h => JSON.noConfusion h)] at h ⊢
          rcases List.mem_append.mp h with h1 | h2
          · exact Or.inl (List.mem_append_left _ h1)
          · rcases ih s h2 with ha | hb
            · exact Or.inl (List.mem_append_right _ ha)
            · exact Or.inr hb
        | bool b =>
          rw [refsFields_cons_nonstr _ _ _ (fun s h => JSON.noConfusion h)] at h ⊢
          rcases List.mem_append.mp h with h1 | h2
          · exact Or.inl (List.mem_append_left _ h1)
          · rcases ih s h2 with ha | hb
            · exact Or.inl (List.mem_append_right _ ha)
            · exact Or.inr hb
        | num q2 =>
          rw [refsFields_cons_nonstr _ _ _ (fun s h => JSON.noConfusion h)] at h ⊢
          rcases List.mem_append.mp h with h1 | h2
          · exact Or.inl (List.mem_append_left _ h1)
          · rcases ih s h2 with ha | hb
            · exact Or.inl (List.mem_append_right _ ha)
            · exact Or.inr hb
        | arr xs =>
          rw [refsFields_cons_nonstr _ _ _ (fun s h => JSON.noConfusion h)] at h ⊢
          rcases List.mem_append.mp h with h1 | h2
          · exact Or.inl (List.mem_append_left _ h1)
          · rcases ih s h2 with ha | hb
            · exact Or.inl (List.mem_append_right _ ha)
            · exact Or.inr hb
        | obj f2 =>
          rw [refsFields_cons_nonstr _ _ _ (fun s h => JSON.noConfusion h)] at h ⊢
          rcases List.mem_append.mp h with h1 | h2
          · exact Or.inl (List.mem_append_left _ h1)
          · rcases ih s h2 with ha | hb
            · exact Or.inl (List.mem_append_right _ ha)
            · exact Or.inr hb
      · rw [refsFields_cons_any k' v' (setKeyF rest k v) hr] at h
        rw [refsFields_cons_any k' v' rest hr]
        rcases List.mem_append.mp h with h1 | h2
        · exact Or.inl (List.mem_append_left _ h1)
        · rcases ih s h2 with ha | hb
          · exact Or.inl (List.mem_append_right _ ha)
          · exact Or.inr hb

theorem newSchemasGo_acc_keys (m : List (String × String)) :
    ∀ (schemas acc : List (String × JSON)) (k : String),
      k ∈ acc.map Prod.fst → k ∈ (newSchemasGo m schemas acc).map Prod.fst := by
  intro schemas
  induction schemas with
  | nil => intro acc k h; exact h
  | cons p rest ih =>
    intro acc k h
    obtain ⟨name, body⟩ := p
    simp only [newSchemasGo]
    by_cases hc : acc.any (fun q => q.1 = renameGetD m name) = true
    · rw [if_pos hc]; exact ih acc k h
    · rw [if_neg hc]
      exact ih _ k (by simp only [List.map_append, List.mem_append]; exact Or.inl h)

theorem newSchemasGo_key_of_mem (m : List (String × String)) :
    ∀ (schemas acc : List (String × JSON)) (name : String),
      name ∈ schemas.map Prod.fst →
      renameGetD m name ∈ (newSchemasGo m schemas acc).map Prod.fst := by
  intro schemas
  induction schemas with
  | nil => intro acc name h; simp at h
  | cons p rest ih =>
    intro acc name h
    obtain ⟨n0, body⟩ := p
    simp only [List.map_cons, List.mem_cons] at h
    simp only [newSchemasGo]
    rcases h with heq | h'
    · subst heq
      by_cases hc : acc.any (fun q => q.1 = renameGetD m name) = true
      · rw [if_pos hc]
        apply newSchemasGo_acc_keys
        rcases List.any_eq_true.mp hc with ⟨q, hq, hq2⟩
        have hqe : q.1 = renameGetD m name := by simpa using hq2
        rw [← hqe]
        exact List.mem_map_of_mem Prod.fst hq
      · rw [if_neg hc]
        apply newSchemasGo_acc_keys
        simp [List.map_append]
    · by_cases hc : acc.any (fun q => q.1 = renameGetD m n0) = true
      · rw [if_pos hc]; exact ih acc name h'
      · rw [if_neg hc]; exact ih _ name h'

theorem newSchemasGo_body_src (m : List (String × String)) :
    ∀ (schemas acc : List (String × JSON)) (p : String × JSON),
      p ∈ newSchemasGo m schemas acc →
      p ∈ acc ∨ ∃ name, (name, p.2) ∈ schemas := by
  intro schemas
  induction schemas with
  | nil => intro acc p h; exact Or.inl h
  | cons q rest ih =>
    intro acc p h
    obtain ⟨n0, body⟩ := q
    simp only [newSchemasGo] at h
    by_cases hc : acc.any (fun q => q.1 = renameGetD m n0) = true
    · rw [if_pos hc] at h
      rcases ih acc p h with h1 | ⟨name, h2⟩
      · exact Or.inl h1
      · exact Or.inr ⟨name, List.mem_cons_of_mem _ h2⟩
    · rw [if_neg hc] at h
      rcases ih _ p h with h1 | ⟨name, h2⟩
      · rcases List.mem_append.mp h1 with ha | hb
        · exact Or.inl ha
        · simp only [List.mem_singleton] at hb
          refine Or.inr ⟨n0, ?_⟩
          rw [hb]
          exact List.mem_cons_self _ _
      · exact Or.inr ⟨name, List.mem_cons_of_mem _ h2⟩

theorem updateRefsFields_keys (m : List (String × String)) :
    ∀ (fs : List (String × JSON)),
      (updateRefsFields m fs).map Prod.fst = fs.map Prod.fst := by
  intro fs
  induction fs with
  | nil => rfl
  | cons p rest ih =>
    obtain ⟨k, v⟩ := p
    cases v with
    | str s => rw [updf_cons_str]; simp [ih]
    | null =>
      rw [updf_cons_nonstr m k _ rest (fun s h => JSON.noConfusion h)]; simp [ih]
    | bool b =>
      rw [updf_cons_nonstr m k _ rest (fun s h => JSON.noConfusion h)]; simp [ih]
    | num q =>
      rw [updf_cons_nonstr m k _ rest (fun s h => JSON.noConfusion h)]; simp [ih]
    | arr xs =>
      rw [updf_cons_nonstr m k _ rest (fun s h => JSON.noConfusion h)]; simp [ih]
    | obj f2 =>
      rw [updf_cons_nonstr m k _ rest (fun s h => JSON.noConfusion h)]; simp [ih]

theorem updateRefsFields_getKey (m : List (String × String)) (k : String)
    (hk : k ≠ "$ref") : ∀ (fs : List (String × JSON)),
    JSON.getKey (updateRefsFields m fs) k = (JSON.getKey fs k).map (updateRefs m) := by
  intro fs
  induction fs with
  | nil => rfl
  | cons p rest ih =>
    obtain ⟨k', v⟩ := p
    by_cases he : k' = k
    · subst he
      have hr : ¬ (k' = "$ref") := hk
      cases v with
      | str s =>
        rw [updf_cons_str]
        simp only [JSON.getKey, if_pos rfl]
        rw [if_neg hr]
        rfl
      | null =>
        rw [updf_cons_nonstr m k' _ rest (fun s h => JSON.noConfusion h)]
        simp [JSON.getKey]
      | bool b =>
        rw [updf_cons_nonstr m k' _ rest (fun s h => JSON.noConfusion h)]
        simp [JSON.getKey]
      | num q =>
        rw [updf_cons_nonstr m k' _ rest (fun s h => JSON.noConfusion h)]
        simp [JSON.getKey]
      | arr xs =>
        rw [updf_cons_nonstr m k' _ rest (fun s h => JSON.noConfusion h)]
        simp [JSON.getKey]
      | obj f2 =>
        rw [updf_cons_nonstr m k' _ rest (fun s h => JSON.noConfusion h)]
        simp [JSON.getKey]
    · cases v with
      | str s =>
        rw [updf_cons_str]
        simp only [JSON.getKey, if_neg he]
        exact ih
      | null =>
        rw [updf_cons_nonstr m k' _ rest (fun s h => JSON.noConfusion h)]
        simp only [JSON.getKey, if_neg he]
        exact ih
      | bool b =>
        rw [updf_cons_nonstr m k' _ rest (fun s h => JSON.noConfusion h)]
        simp only [JSON.getKey, if_neg he]
        exact ih
      | num q =>
        rw [updf_cons_nonstr m k' _ rest (fun s h => JSON.noConfusion h)]
        simp only [JSON.getKey, if_neg he]
        exact ih
      | arr xs =>
        rw [updf_cons_nonstr m k' _ rest (fun s h => JSON.noConfusion h)]
        simp only [JSON.getKey, if_neg he]
        exact ih
      | obj f2 =>
        rw [updf_cons_nonstr m k' _ rest (fun s h => JSON.noConfusion h)]
        simp only [JSON.getKey, if_neg he]
        exact ih

theorem setKeyF_getKey_self : ∀ (fs : List (String × JSON)) (k : String) (v w : JSON),
    JSON.getKey fs k = some w → JSON.getKey (setKeyF fs k v) k = some v := by
  intro fs
  induction fs with
  | nil => intro k v w h; simp [JSON.getKey] at h
  | cons p rest ih =>
    intro k v w h
    obtain ⟨k', v'⟩ := p
    simp only [setKeyF]
    by_cases he : k' = k
    · rw [if_pos he]
      simp [JSON.getKey, he]
    · rw [if_neg he]
      simp only [JSON.getKey, if_neg he]
      simp only [JSON.getKey, if_neg he] at h
      exact ih k v w h

theorem applyConsolidation_eq {spec out : JSON} {m : List (String × String)}
    (h : applyConsolidation spec m = some out) :
    ∃ fields comps schemas, spec = JSON.obj fields ∧
      JSON.getKey fields "components" = some (.obj comps) ∧
      JSON.getKey comps "schemas" = some (.obj schemas) ∧
      out = updateRefs m (JSON.obj (setKeyF fields "components"
        (.obj (setKeyF comps "schemas" (.obj (buildNewSchemas m schemas)))))) := by
  cases spec with
  | null => simp [applyConsolidation] at h
  | bool b => simp [applyConsolidation] at h
  | num q => simp [applyConsolidation] at h
  | str s => simp [applyConsolidation] at h
  | arr xs => simp [applyConsolidation] at h
  | obj fields =>
    cases hc : JSON.getKey fields "components" with
    | none => simp [applyConsolidation, hc] at h
    | some cv =>
      cases cv with
      | null => simp [applyConsolidation, hc] at h
      | bool b => simp [applyConsolidation, hc] at h
      | num q => simp [applyConsolidation, hc] at h
      | str s => simp [applyConsolidation, hc] at h
      | arr xs => simp [applyConsolidation, hc] at h
      | obj comps =>
        cases hs : JSON.getKey comps "schemas" with
        | none => simp [applyConsolidation, hc, hs] at h
        | some sv =>
          cases sv with
          | null => simp [applyConsolidation, hc, hs] at h
          | bool b => simp [applyConsolidation, hc, hs] at h
          | num q => simp [applyConsolidation, hc, hs] at h
          | str s => simp [applyConsolidation, hc, hs] at h
          | arr xs => simp [applyConsolidation, hc, hs] at h
          | obj schemas =>
            refine ⟨fields, comps, schemas, rfl, hc, hs, ?_⟩
            simp only [applyConsolidation, hc, hs] at h
            exact (Option.some.inj h).symm

/-- C1 (amended).  Reference integrity of apply: if every marker-form
reference string of the input names an existing schema, no schema name
contains the reference marker as a substring, and the rebuilt schema
mapping does not use the key `$ref`, then every marker-form reference
string of the document returned by `apply_consolidation` with the rename
map produced by `consolidate` names a schema of the output mapping.  The
second hypothesis is needed because `update_refs` extracts the referenced
name with `value.replace(marker, \x27\x27)`, deleting every occurrence of
the marker (see the counterexample). -/
theorem C1_reference_integrity (spec out : JSON)
    (hRI : RefIntegrity spec ((getSchemas spec).map Prod.fst))
    (hmark : ∀ nm ∈ (getSchemas spec).map Prod.fst, containsSub nm refMark = false)
    (hkeys : "$ref" ∉ (buildNewSchemas (consolidate spec).rename_map
      (getSchemas spec)).map Prod.fst)
    (happ : applyConsolidation spec (consolidate spec).rename_map = some out) :
    RefIntegrity out ((getSchemas out).map Prod.fst) := by
  obtain ⟨fields, comps, schemas, hspec, hcomp, hsch, hout⟩ := applyConsolidation_eq happ
  subst hspec
  set m := (consolidate (JSON.obj fields)).rename_map with hm
  have hgs : getSchemas (JSON.obj fields) = schemas := by
    simp [getSchemas, hcomp, hsch]
  rw [hgs] at hkeys
  have h1 : JSON.getKey (updateRefsFields m (setKeyF fields "components"
      (JSON.obj (setKeyF comps "schemas" (JSON.obj (buildNewSchemas m schemas))))))
      "components" = some (JSON.obj (updateRefsFields m
        (setKeyF comps "schemas" (JSON.obj (buildNewSchemas m schemas))))) := by
    rw [updateRefsFields_getKey m "components" (by decide)]
    rw [setKeyF_getKey_self fields "components" _ _ hcomp]
    rfl
  have h2 : JSON.getKey (updateRefsFields m (setKeyF comps "schemas"
      (JSON.obj (buildNewSchemas m schemas)))) "schemas" =
      some (JSON.obj (updateRefsFields m (buildNewSchemas m schemas))) := by
    rw [updateRefsFields_getKey m "schemas" (by decide)]
    rw [setKeyF_getKey_self comps "schemas" _ _ hsch]
    rfl
  have houts : getSchemas out = updateRefsFields m (buildNewSchemas m schemas) := by
    rw [hout]
    show getSchemas (JSON.obj (updateRefsFields m (setKeyF fields "components"
      (JSON.obj (setKeyF comps "schemas" (JSON.obj (buildNewSchemas m schemas))))))) = _
    simp [getSchemas, h1, h2]
  have hnames : (getSchemas out).map Prod.fst =
      (buildNewSchemas m schemas).map Prod.fst := by
    rw [houts]; exact updateRefsFields_keys m _
  intro s hs hstart
  rw [hout] at hs
  rw [refs_update_all m (jdepth (JSON.obj (setKeyF fields "components"
    (JSON.obj (setKeyF comps "schemas" (JSON.obj (buildNewSchemas m schemas)))))))
    _ le_rfl] at hs
  obtain ⟨s0, hs0, hrw⟩ := List.mem_map.mp hs
  by_cases h0 : strStarts s0 refMark = true
  · have hseq : s = refMark ++ renameGetD m (removeAll s0 refMark) := by
      rw [← hrw]; simp [refRewrite, h0]
    have hsrc : s0 ∈ refStringsInFields fields := by
      have hs0' : s0 ∈ refStringsInFields (setKeyF fields "components"
          (JSON.obj (setKeyF comps "schemas"
            (JSON.obj (buildNewSchemas m schemas))))) := hs0
      rcases setKeyF_refs "components" _ (by decide) _ s0 hs0' with h1' | h2'
      · exact h1'
      · rcases setKeyF_refs "schemas" _ (by decide) comps s0 h2' with h3 | h4
        · exact mem_refsFields_of_value (getKey_mem hcomp) h3
        · have hk' : ∀ p ∈ buildNewSchemas m schemas, p.1 ≠ "$ref" := by
            intro p hp hne
            exact hkeys (hne ▸ List.mem_map_of_mem Prod.fst hp)
          obtain ⟨p, hp, hps⟩ := refsFields_decompose _ s0 h4 hk'
          rcases newSchemasGo_body_src m schemas [] p hp with h5 | ⟨name, h6⟩
          · cases h5
          · have hA : s0 ∈ refStringsInFields schemas := mem_refsFields_of_value h6 hps
            have hB : s0 ∈ refStringsInFields comps :=
              mem_refsFields_of_value (getKey_mem hsch) hA
            exact mem_refsFields_of_value (getKey_mem hcomp) hB
  -- input integrity gives membership of the suffix among the old names
    have hsuf : refSuffix s0 ∈ (getSchemas (JSON.obj fields)).map Prod.fst :=
      hRI s0 hsrc h0
    have hnc : containsSub (refSuffix s0) refMark = false := hmark _ hsuf
    rw [removeAll_of_starts s0 h0 hnc] at hseq
    subst hseq
    rw [refSuffix_append]
    rw [hnames]
    apply newSchemasGo_key_of_mem
    rw [← hgs]
    exact hsuf
  · rw [← hrw] at hstart
    simp [refRewrite, h0] at hstart

def specC1X : JSON := .obj [
  ("components", .obj [("schemas", .obj [
    ("Get#/components/schemas/Q", .obj [("type", .str "string")])])]),
  ("paths", .obj [("p", .obj [("get", .obj [("responses", .obj [("200", .obj [
    ("content", .obj [("application/json", .obj [("schema", .obj [
      ("$ref", .str "#/components/schemas/Get#/components/schemas/Q")])])])])])])])])]

def outC1X : JSON := .obj [
  ("components", .obj [("schemas", .obj [
    ("Get#/components/schemas/Q", .obj [("type", .str "string")])])]),
  ("paths", .obj [("p", .obj [("get", .obj [("responses", .obj [("200", .obj [
    ("content", .obj [("application/json", .obj [("schema", .obj [
      ("$ref", .str "#/components/schemas/GetQ")])])])])])])])])]

instance (j : JSON) (names : List String) : Decidable (RefIntegrity j names) := by
  unfold RefIntegrity; infer_instance

/-- Counterexample to C1 as stated: a schema whose name contains the
reference marker.  The input satisfies reference integrity, yet
`update_refs` recovers the old name with `value.replace(marker, \x27\x27)`,
which deletes every marker occurrence, mangling the name and leaving a
dangling reference in the output (behaviour confirmed against the Python
implementation). -/
theorem C1_counterexample_marker_name :
    RefIntegrity specC1X ((getSchemas specC1X).map Prod.fst) ∧
    applyConsolidation specC1X (consolidate specC1X).rename_map = some outC1X ∧
    ¬ RefIntegrity outC1X ((getSchemas outC1X).map Prod.fst) := by
  refine ⟨by decide, by decide, ?_⟩
  intro h
  exact absurd (h "#/components/schemas/GetQ" (by decide) (by decide)) (by decide)

def specC1W : JSON := .obj [
  ("components", .obj [("schemas", .obj [
    ("User", .obj [("type", .str "object")])])]),
  ("paths", .obj [("p", .obj [("schema", .obj [
    ("$ref", .str "#/components/schemas/User")])])])]

/-- C1 witness: a document with one schema and one reference to it is
returned intact and keeps reference integrity. -/
theorem C1_reference_integrity_witness :
    RefIntegrity specC1W ((getSchemas specC1W).map Prod.fst) :=
  C1_reference_integrity specC1W specC1W (by decide) (by decide) (by decide) (by decide)



/-- The schemas section of the document returned by `apply_consolidation`:
the rebuilt mapping with every reference in its bodies rewritten. -/
theorem applyConsolidation_schemas {spec out : JSON} {m : List (String × String)}
    (h : applyConsolidation spec m = some out) :
    getSchemas out = updateRefsFields m (buildNewSchemas m (getSchemas spec)) := by
  obtain ⟨fields, comps, schemas, hspec, hcomp, hsch, hout⟩ := applyConsolidation_eq h
  subst hspec
  have hgs : getSchemas (JSON.obj fields) = schemas := by
    simp [getSchemas, hcomp, hsch]
  have h1 : JSON.getKey (updateRefsFields m (setKeyF fields "components"
      (JSON.obj (setKeyF comps "schemas" (JSON.obj (buildNewSchemas m schemas))))))
      "components" = some (JSON.obj (updateRefsFields m
        (setKeyF comps "schemas" (JSON.obj (buildNewSchemas m schemas))))) := by
    rw [updateRefsFields_getKey m "components" (by decide)]
    rw [setKeyF_getKey_self fields "components" _ _ hcomp]
    rfl
  have h2 : JSON.getKey (updateRefsFields m (setKeyF comps "schemas"
      (JSON.obj (buildNewSchemas m schemas)))) "schemas" =
      some (JSON.obj (updateRefsFields m (buildNewSchemas m schemas))) := by
    rw [updateRefsFields_getKey m "schemas" (by decide)]
    rw [setKeyF_getKey_self comps "schemas" _ _ hsch]
    rfl
  rw [hgs, hout]
  show getSchemas (JSON.obj (updateRefsFields m (setKeyF fields "components"
    (JSON.obj (setKeyF comps "schemas" (JSON.obj (buildNewSchemas m schemas))))))) = _
  simp [getSchemas, h1, h2]

theorem mem_refsList_of_mem : ∀ {xs : List JSON} {x : JSON} {s : String},
    x ∈ xs → s ∈ refStringsIn x → s ∈ refStringsInList xs := by
  intro xs
  induction xs with
  | nil => intro x s h _; cases h
  | cons a as ih =>
    intro x s hm hs
    show s ∈ refStringsIn a ++ refStringsInList as
    rcases List.mem_cons.mp hm with rfl | hm2
    · exact List.mem_append_left _ hs
    · exact List.mem_append_right _ (ih hm2 hs)

theorem updateList_id_of (m : List (String × String)) : ∀ (xs : List JSON),
    (∀ x ∈ xs, updateRefs m x = x) → updateRefsList m xs = xs := by
  intro xs
  induction xs with
  | nil => intro _; rfl
  | cons a as ih =>
    intro hx
    show updateRefs m a :: updateRefsList m as = a :: as
    rw [hx a (List.mem_cons_self _ _), ih (fun x h => hx x (List.mem_cons_of_mem _ h))]

theorem updateFields_id_of (m : List (String × String)) : ∀ (fs : List (String × JSON)),
    (∀ p ∈ fs, updateRefs m p.2 = p.2) →
    (∀ s ∈ refStringsInFields fs, strStarts s refMark = false) →
    updateRefsFields m fs = fs := by
  intro fs
  induction fs with
  | nil => intro _ _; rfl
  | cons p rest ih =>
    intro hx hs
    obtain ⟨k, v⟩ := p
    have hrest : updateRefsFields m rest = rest := by
      apply ih (fun q h => hx q (List.mem_cons_of_mem _ h))
      intro s hsm
      apply hs
      cases v with
      | str t => rw [refsFields_cons_str]; exact List.mem_append_right _ hsm
      | null =>
        rw [refsFields_cons_nonstr k _ rest (fun s h => JSON.noConfusion h)]
        exact List.mem_append_right _ hsm
      | bool b =>
        rw [refsFields_cons_nonstr k _ rest (fun s h => JSON.noConfusion h)]
        exact List.mem_append_right _ hsm
      | num q =>
        rw [refsFields_cons_nonstr k _ rest (fun s h => JSON.noConfusion h)]
        exact List.mem_append_right _ hsm
      | arr xs =>
        rw [refsFields_cons_nonstr k _ rest (fun s h => JSON.noConfusion h)]
        exact List.mem_append_right _ hsm
      | obj f2 =>
        rw [refsFields_cons_nonstr k _ rest (fun s h => JSON.noConfusion h)]
        exact List.mem_append_right _ hsm
    cases v with
    | str t =>
      rw [updf_cons_str, hrest]
      by_cases hk : k = "$ref"
      · rw [if_pos hk]
        have ht : strStarts t refMark = false := by
          apply hs
          rw [refsFields_cons_str, if_pos hk]
          exact List.mem_append_left _ (List.mem_singleton.mpr rfl)
        rw [if_neg (by simp [ht])]
      · rw [if_neg hk]
    | null =>
      rw [updf_cons_nonstr m k _ rest (fun s h => JSON.noConfusion h), hrest,
        hx (k, JSON.null) (List.mem_cons_self _ _)]
    | bool b =>
      rw [updf_cons_nonstr m k _ rest (fun s h => JSON.noConfusion h), hrest,
        hx (k, JSON.bool b) (List.mem_cons_self _ _)]
    | num q =>
      rw [updf_cons_nonstr m k _ rest (fun s h => JSON.noConfusion h), hrest,
        hx (k, JSON.num q) (List.mem_cons_self _ _)]
    | arr xs =>
      rw [updf_cons_nonstr m k _ rest (fun s h => JSON.noConfusion h), hrest,
        hx (k, JSON.arr xs) (List.mem_cons_self _ _)]
    | obj f2 =>
      rw [updf_cons_nonstr m k _ rest (fun s h => JSON.noConfusion h), hrest,
        hx (k, JSON.obj f2) (List.mem_cons_self _ _)]

theorem update_id_all (m : List (String × String)) : ∀ (n : Nat) (j : JSON),
    jdepth j ≤ n → (∀ s ∈ refStringsIn j, strStarts s refMark = false) →
    updateRefs m j = j := by
  intro n
  induction n using Nat.strong_induction_on with
  | _ n IH =>
    intro j hj hns
    cases j with
    | null => rfl
    | bool b => rfl
    | num q => rfl
    | str s => rfl
    | arr xs =>
      show JSON.arr (updateRefsList m xs) = JSON.arr xs
      congr 1
      apply updateList_id_of
      intro x hxm
      apply IH (jdepthList xs) (by simp [jdepth] at hj; omega) x (jdepth_mem_list hxm)
      intro s hsm
      exact hns s (mem_refsList_of_mem hxm hsm)
    | obj fs =>
      show JSON.obj (updateRefsFields m fs) = JSON.obj fs
      congr 1
      apply updateFields_id_of
      · intro p hpm
        apply IH (jdepthFields fs) (by simp [jdepth] at hj; omega) p.2
          (jdepth_mem_fields hpm)
        intro s hsm
        exact hns s (mem_refsFields_of_value (show (p.1, p.2) ∈ fs by simpa using hpm) hsm)
      · exact hns

theorem filter_canon_once (k : JSON) : ∀ (l : List (String × JSON)),
    List.Pairwise (fun p q => canon p.2 ≠ canon q.2) l →
    (l.filter (fun p => canon p.2 = k)).length ≤ 1 := by
  intro l
  induction l with
  | nil => intro _; simp
  | cons p rest ih =>
    intro hpw
    rw [List.pairwise_cons] at hpw
    by_cases hc : canon p.2 = k
    · rw [List.filter_cons_of_pos (by simp [hc])]
      have hrest : rest.filter (fun q => canon q.2 = k) = [] := by
        rw [List.filter_eq_nil_iff]
        intro q hq
        simp only [decide_eq_true_eq]
        intro hqk
        exact hpw.1 q hq (hc.trans hqk.symm)
      rw [hrest]
      simp
    · rw [List.filter_cons_of_neg (by simp [hc])]
      exact ih hpw.2

theorem findExact_empty_of_distinct : ∀ (schemas : List (String × JSON)),
    List.Pairwise (fun p q => canon p.2 ≠ canon q.2) schemas →
    findExactDuplicateGroups schemas = [] := by
  intro schemas hpw
  unfold findExactDuplicateGroups
  rw [List.filter_eq_nil_iff]
  intro g hg
  obtain ⟨k, ns⟩ := g
  have hnd := groupFold_keys_nodup canon schemas [] (by simp)
  have hgo := groupOf_of_mem_nodup hnd hg
  have hnames := groupFold_names canon schemas [] k
  rw [hgo] at hnames
  simp only [groupOf, Option.getD_some, Option.getD_none, List.nil_append] at hnames
  have hlen : ns.length ≤ 1 := by
    rw [hnames]
    simp only [List.length_map]
    exact filter_canon_once k schemas hpw
  intro hcontra
  have h2 : 1 < ns.length := by simpa using hcontra
  omega

theorem same_canon_same_group {schemas : List (String × JSON)} {n1 n2 : String}
    {b1 b2 : JSON} (h1 : (n1, b1) ∈ schemas) (h2 : (n2, b2) ∈ schemas)
    (hne : n1 ≠ n2) (hc : canon b1 = canon b2) :
    ∃ G ∈ findExactDuplicateGroups schemas, n1 ∈ G.2 ∧ n2 ∈ G.2 := by
  have hnames := groupFold_names canon schemas [] (canon b1)
  have hmem1 : n1 ∈ (schemas.filter (fun p => canon p.2 = canon b1)).map Prod.fst :=
    List.mem_map_of_mem Prod.fst (List.mem_filter.mpr ⟨h1, by simp⟩)
  have hmem2 : n2 ∈ (schemas.filter (fun p => canon p.2 = canon b1)).map Prod.fst :=
    List.mem_map_of_mem Prod.fst (List.mem_filter.mpr ⟨h2, by simp [hc]⟩)
  cases hgo : groupOf (List.foldl (fun a p => addToGroup a (canon p.2) p.1) [] schemas)
      (canon b1) with
  | none =>
    exfalso
    rw [hgo] at hnames
    simp only [groupOf, Option.getD_none, List.nil_append] at hnames
    rw [← hnames] at hmem1
    cases hmem1
  | some ns =>
    rw [hgo] at hnames
    simp only [groupOf, Option.getD_some, Option.getD_none, List.nil_append] at hnames
    rw [← hnames] at hmem1 hmem2
    refine ⟨(canon b1, ns), ?_, hmem1, hmem2⟩
    unfold findExactDuplicateGroups
    rw [List.mem_filter]
    refine ⟨mem_of_groupOf hgo, ?_⟩
    simp only [decide_eq_true_eq]
    exact one_lt_length_of_two_mem hmem1 hmem2 hne

theorem rename_respects_canon (spec : JSON)
    (hnd : ((getSchemas spec).map Prod.fst).Nodup)
    (hsurv : ∀ g ∈ findExactDuplicateGroups (getSchemas spec),
      groupSurvivors g.2 = some g.2) :
    ∀ n1 b1 n2 b2, (n1, b1) ∈ getSchemas spec → (n2, b2) ∈ getSchemas spec →
      canon b1 = canon b2 →
      renameGetD (consolidate spec).rename_map n1 =
        renameGetD (consolidate spec).rename_map n2 := by
  intro n1 b1 n2 b2 h1 h2 hc
  by_cases hne : n1 = n2
  · rw [hne]
  · obtain ⟨G, hGmem, hn1, hn2⟩ := same_canon_same_group h1 h2 hne hc
    have hsG : groupSurvivors G.2 = some G.2 := hsurv G hGmem
    have huniq : ∀ g' ∈ findExactDuplicateGroups (getSchemas spec), ∀ ns',
        groupSurvivors g'.2 = some ns' → ∀ n ∈ G.2, n ∈ ns' → g' = G := by
      intro g' hg' ns' hsg' n hn hn'
      have he : ns' = g'.2 := by
        have h3 := hsurv g' hg'
        rw [h3] at hsg'
        exact (Option.some.inj hsg').symm
      subst he
      exact findExact_disjoint hnd hGmem hg' hn hn'
    obtain ⟨c, hc', -⟩ := cg_group_mapped (findExactDuplicateGroups (getSchemas spec))
      [] [] [] G G.2 hGmem hsG (fun n _ => rfl) huniq
    have e1 : mapLookup (consolidate spec).rename_map n1 = some c := hc' n1 hn1
    have e2 : mapLookup (consolidate spec).rename_map n2 = some c := hc' n2 hn2
    rw [renameGetD_eq, renameGetD_eq, e1, e2]
    rfl

theorem newSchemasGo_canon_distinct (m : List (String × String))
    (schemas0 : List (String × JSON))
    (hresp : ∀ n1 b1 n2 b2, (n1, b1) ∈ schemas0 → (n2, b2) ∈ schemas0 →
      canon b1 = canon b2 → renameGetD m n1 = renameGetD m n2) :
    ∀ (l acc : List (String × JSON)),
      (∀ p ∈ l, p ∈ schemas0) →
      (∀ p ∈ acc, ∃ n, (n, p.2) ∈ schemas0 ∧ p.1 = renameGetD m n) →
      List.Pairwise (fun p q => canon p.2 ≠ canon q.2) acc →
      List.Pairwise (fun p q => canon p.2 ≠ canon q.2) (newSchemasGo m l acc) := by
  intro l
  induction l with
  | nil => intro acc _ _ hpw; exact hpw
  | cons p rest ih =>
    intro acc hsub hrep hpw
    obtain ⟨n0, b0⟩ := p
    simp only [newSchemasGo]
    by_cases hc : acc.any (fun q => q.1 = renameGetD m n0) = true
    · rw [if_pos hc]
      exact ih acc (fun q h => hsub q (List.mem_cons_of_mem _ h)) hrep hpw
    · rw [if_neg hc]
      apply ih _ (fun q h => hsub q (List.mem_cons_of_mem _ h))
      · intro q hq
        rcases List.mem_append.mp hq with hq1 | hq2
        · exact hrep q hq1
        · simp only [List.mem_singleton] at hq2
          subst hq2
          exact ⟨n0, hsub (n0, b0) (List.mem_cons_self _ _), rfl⟩
      · rw [List.pairwise_append]
        refine ⟨hpw, by simp, ?_⟩
        intro a ha b hb
        simp only [List.mem_singleton] at hb
        subst hb
        intro hcc
        obtain ⟨na, hna, hka⟩ := hrep a ha
        have heq : renameGetD m na = renameGetD m n0 :=
          hresp na a.2 n0 b0 hna (hsub (n0, b0) (List.mem_cons_self _ _)) hcc
        apply hc
        rw [List.any_eq_true]
        exact ⟨a, ha, by simp [hka, heq]⟩

/-- C2 (amended).  Idempotence of consolidation: if the schema names are
pairwise distinct, the schema bodies contain no marker-form reference
strings, the rebuilt mapping does not use the key `$ref`, and no
duplicate group loses members to a DO_NOT_MERGE exclusion, then after
apply_consolidation the second consolidate() returns an empty rename
map.  The no-reference proviso is needed because `update_refs` rewrites
the bodies after merging: two distinct bodies that reference two schemas
merged into one become exactly equal, creating a fresh duplicate pair
(see the counterexample). -/
theorem C2_consolidation_idempotent (spec out : JSON)
    (hnd : ((getSchemas spec).map Prod.fst).Nodup)
    (hnoref : ∀ s ∈ refStringsInFields (getSchemas spec), strStarts s refMark = false)
    (hkeys : "$ref" ∉ (buildNewSchemas (consolidate spec).rename_map
      (getSchemas spec)).map Prod.fst)
    (hsurv : ∀ g ∈ findExactDuplicateGroups (getSchemas spec),
      groupSurvivors g.2 = some g.2)
    (happ : applyConsolidation spec (consolidate spec).rename_map = some out) :
    (consolidate out).rename_map = [] := by
  have houts := applyConsolidation_schemas happ
  have hk' : ∀ p ∈ buildNewSchemas (consolidate spec).rename_map (getSchemas spec),
      p.1 ≠ "$ref" := fun p hp hne =>
    hkeys (hne ▸ List.mem_map_of_mem Prod.fst hp)
  have hbody : ∀ p ∈ buildNewSchemas (consolidate spec).rename_map (getSchemas spec),
      ∃ n, (n, p.2) ∈ getSchemas spec := by
    intro p hp
    rcases newSchemasGo_body_src (consolidate spec).rename_map
      (getSchemas spec) [] p hp with h5 | h6
    · cases h5
    · exact h6
  have hid : updateRefsFields (consolidate spec).rename_map
      (buildNewSchemas (consolidate spec).rename_map (getSchemas spec)) =
      buildNewSchemas (consolidate spec).rename_map (getSchemas spec) := by
    apply updateFields_id_of
    · intro p hp
      obtain ⟨n, hn⟩ := hbody p hp
      apply update_id_all (consolidate spec).rename_map (jdepth p.2) p.2 le_rfl
      intro s hsm
      exact hnoref s (mem_refsFields_of_value hn hsm)
    · intro s hsm
      obtain ⟨p, hp, hps⟩ := refsFields_decompose _ s hsm hk'
      obtain ⟨n, hn⟩ := hbody p hp
      exact hnoref s (mem_refsFields_of_value hn hps)
  have hpw : List.Pairwise (fun p q => canon p.2 ≠ canon q.2)
      (buildNewSchemas (consolidate spec).rename_map (getSchemas spec)) := by
    apply newSchemasGo_canon_distinct (consolidate spec).rename_map (getSchemas spec)
      (rename_respects_canon spec hnd hsurv) (getSchemas spec) []
      (fun p h => h) (fun p h => absurd h (List.not_mem_nil p)) List.Pairwise.nil
  have hfe : findExactDuplicateGroups (getSchemas out) = [] := by
    rw [houts, hid]
    exact findExact_empty_of_distinct _ hpw
  rw [consolidate_map_def, hfe]
  rfl

def specC2X : JSON := .obj [("components", .obj [("schemas", .obj [
  ("Xa", .obj [("type", .str "object")]),
  ("Ya", .obj [("type", .str "object")]),
  ("Aa", .obj [("$ref", .str "#/components/schemas/Xa")]),
  ("Ba", .obj [("$ref", .str "#/components/schemas/Ya")])])])]

def outC2X : JSON := .obj [("components", .obj [("schemas", .obj [
  ("Xa", .obj [("type", .str "object")]),
  ("Aa", .obj [("$ref", .str "#/components/schemas/Xa")]),
  ("Ba", .obj [("$ref", .str "#/components/schemas/Xa")])])])]

/-- Counterexample to C2 as stated: `Xa`/`Ya` are exact duplicates and
`Aa`/`Ba` reference them.  After one consolidate+apply pass both wrappers
reference the canonical name, so their bodies are exactly equal and the
second consolidate() returns a nonempty rename map (behaviour confirmed
against the Python implementation). -/
theorem C2_counterexample_ref_wrappers :
    applyConsolidation specC2X (consolidate specC2X).rename_map = some outC2X ∧
    (consolidate outC2X).rename_map = [("Aa", "Aa"), ("Ba", "Aa")] := by
  exact ⟨by decide, by decide⟩

def specC2W : JSON := .obj [("components", .obj [("schemas", .obj [
  ("CreateZed", .obj [("type", .str "object")]),
  ("UpdateZed", .obj [("type", .str "object")])])])]

def outC2W : JSON := .obj [("components", .obj [("schemas", .obj [
  ("Zed", .obj [("type", .str "object")])])])]

/-- C2 witness: one duplicate pair, no references; the second pass
renames nothing. -/
theorem C2_consolidation_idempotent_witness :
    (consolidate outC2W).rename_map = [] :=
  C2_consolidation_idempotent specC2W outC2W (by decide) (by decide) (by decide)
    (by decide) (by decide)


/-! Spec-side structural equivalence (claim C3). -/

inductive OptReqEquiv : Option JSON → Option JSON → Prop where
  | none : OptReqEquiv none none
  | arr (xs ys : List JSON) (h : (xs.map pyReqElem).Perm (ys.map pyReqElem)) :
      OptReqEquiv (some (.arr xs)) (some (.arr ys))
  | other (va vb : JSON) (ha : ∀ xs, va ≠ JSON.arr xs) (hb : ∀ xs, vb ≠ JSON.arr xs) :
      OptReqEquiv (some va) (some vb)

inductive OptEnumEquiv : Option JSON → Option JSON → Prop where
  | none : OptEnumEquiv none none
  | arr (xs ys : List JSON) (h : (xs.map pyStr).Perm (ys.map pyStr)) :
      OptEnumEquiv (some (.arr xs)) (some (.arr ys))
  | other (va vb : JSON) (ha : ∀ xs, va ≠ JSON.arr xs) (hb : ∀ xs, vb ≠ JSON.arr xs) :
      OptEnumEquiv (some va) (some vb)

mutual

/-- Structural equivalence at fidelity `c`, following the specification
text: equal on `type`, `format`, `$ref` and (when `c`) the eight
validation constraints; properties, `required`, `enum` and the
combinator member lists compared up to order; `properties` values with
their per-property nullability, `items`, combinator members and a dict
`additionalProperties` compared recursively; all other (metadata) fields
ignored. -/
inductive SEquiv (c : Bool) : JSON → JSON → Prop where
  | base (a : JSON) (hno : ∀ fs, a ≠ JSON.obj fs) : SEquiv c a a
  | obj (fa fb : List (String × JSON))
      (htype : JSON.getKey fa "type" = JSON.getKey fb "type")
      (hformat : JSON.getKey fa "format" = JSON.getKey fb "format")
      (href : JSON.getKey fa "$ref" = JSON.getKey fb "$ref")
      (hcon : c = true → ∀ k ∈ constraintKeys, JSON.getKey fa k = JSON.getKey fb k)
      (hprops : OptPropsEquiv c (JSON.getKey fa "properties")
        (JSON.getKey fb "properties"))
      (hreq : OptReqEquiv (JSON.getKey fa "required") (JSON.getKey fb "required"))
      (henum : OptEnumEquiv (JSON.getKey fa "enum") (JSON.getKey fb "enum"))
      (hitems : OptSEquiv c (JSON.getKey fa "items") (JSON.getKey fb "items"))
      (hallOf : OptCombEquiv c (JSON.getKey fa "allOf") (JSON.getKey fb "allOf"))
      (honeOf : OptCombEquiv c (JSON.getKey fa "oneOf") (JSON.getKey fb "oneOf"))
      (hanyOf : OptCombEquiv c (JSON.getKey fa "anyOf") (JSON.getKey fb "anyOf"))
      (haddp : OptAddPropsEquiv c (JSON.getKey fa "additionalProperties")
        (JSON.getKey fb "additionalProperties")) :
      SEquiv c (.obj fa) (.obj fb)

inductive OptPropsEquiv (c : Bool) : Option JSON → Option JSON → Prop where
  | none : OptPropsEquiv c none none
  | obj (pa pb pb' : List (String × JSON)) (hperm : pb.Perm pb')
      (hrel : List.Forall₂ (PropEntryEquiv c) pa pb') :
      OptPropsEquiv c (some (.obj pa)) (some (.obj pb))
  | other (v : JSON) (hno : ∀ fs, v ≠ JSON.obj fs) : OptPropsEquiv c (some v) (some v)

inductive PropEntryEquiv (c : Bool) : (String × JSON) → (String × JSON) → Prop where
  | mk (n : String) (va vb : JSON) (h : SEquiv c va vb)
      (hnul : nullableOf va = nullableOf vb) : PropEntryEquiv c (n, va) (n, vb)

inductive OptSEquiv (c : Bool) : Option JSON → Option JSON → Prop where
  | none : OptSEquiv c none none
  | some (a b : JSON) (h : SEquiv c a b) : OptSEquiv c (some a) (some b)

inductive OptCombEquiv (c : Bool) : Option JSON → Option JSON → Prop where
  | none : OptCombEquiv c none none
  | arr (xsa xsb xsb' : List JSON) (hperm : xsb.Perm xsb')
      (hrel : List.Forall₂ (SEquiv c) xsa xsb') :
      OptCombEquiv c (some (.arr xsa)) (some (.arr xsb))
  | other (v : JSON) (hna : ∀ xs, v ≠ JSON.arr xs) : OptCombEquiv c (some v) (some v)

inductive OptAddPropsEquiv (c : Bool) : Option JSON → Option JSON → Prop where
  | none : OptAddPropsEquiv c none none
  | obj (fa fb : List (String × JSON)) (h : SEquiv c (.obj fa) (.obj fb)) :
      OptAddPropsEquiv c (some (.obj fa)) (some (.obj fb))
  | other (v : JSON) (hno : ∀ fs, v ≠ JSON.obj fs) : OptAddPropsEquiv c (some v) (some v)

end

theorem wfb_fields {fields : List (String × JSON)} (h : wfb (JSON.obj fields) = true) :
    ((fields.map Prod.fst).Nodup) ∧ wfbFields fields = true := by
  simp only [wfb, Bool.and_eq_true] at h
  exact ⟨(nodupStr_iff _).mp h.1, h.2⟩

theorem wfb_mem_fields : ∀ {fields : List (String × JSON)} {p : String × JSON},
    wfbFields fields = true → p ∈ fields → wfb p.2 = true := by
  intro fields
  induction fields with
  | nil => intro p _ h; cases h
  | cons q rest ih =>
    intro p hw hm
    obtain ⟨k, v⟩ := q
    simp only [wfbFields, Bool.and_eq_true] at hw
    rcases List.mem_cons.mp hm with rfl | hm'
    · exact hw.1
    · exact ih hw.2 hm'

theorem wfb_getKey {fields : List (String × JSON)} {k : String} {v : JSON}
    (h : wfb (JSON.obj fields) = true) (hk : JSON.getKey fields k = some v) :
    wfb v = true :=
  wfb_mem_fields (wfb_fields h).2 (getKey_mem hk)

theorem wfb_mem_list : ∀ {xs : List JSON} {x : JSON},
    wfbList xs = true → x ∈ xs → wfb x = true := by
  intro xs
  induction xs with
  | nil => intro x _ h; cases h
  | cons a as ih =>
    intro x hw hm
    simp only [wfbList, Bool.and_eq_true] at hw
    rcases List.mem_cons.mp hm with rfl | hm'
    · exact hw.1
    · exact ih hw.2 hm'

theorem forall₂_imp_mem {α β : Type} {R S : α → β → Prop} :
    ∀ {l₁ : List α} {l₂ : List β}, List.Forall₂ R l₁ l₂ →
      (∀ p ∈ l₁, ∀ q ∈ l₂, R p q → S p q) → List.Forall₂ S l₁ l₂ := by
  intro l₁ l₂ h
  induction h with
  | nil => intro _; exact List.Forall₂.nil
  | cons hxy hrest ih =>
    intro himp
    refine List.Forall₂.cons
      (himp _ (List.mem_cons_self _ _) _ (List.mem_cons_self _ _) hxy) (ih ?_)
    intro p hp q hq hr
    exact himp p (List.mem_cons_of_mem _ hp) q (List.mem_cons_of_mem _ hq) hr

theorem forall₂_map_eq {α β γ : Type} {f : α → γ} {g : β → γ} :
    ∀ {l₁ : List α} {l₂ : List β},
      List.Forall₂ (fun a b => f a = g b) l₁ l₂ → l₁.map f = l₂.map g := by
  intro l₁ l₂ h
  induction h with
  | nil => rfl
  | cons hxy hrest ih => simp [hxy, ih]

theorem forall₂_fst_eq {R : (String × JSON) → (String × JSON) → Prop}
    (hkey : ∀ p q, R p q → p.1 = q.1) :
    ∀ {l₁ l₂ : List (String × JSON)}, List.Forall₂ R l₁ l₂ →
      l₁.map Prod.fst = l₂.map Prod.fst := by
  intro l₁ l₂ h
  induction h with
  | nil => rfl
  | cons hxy hrest ih => simp [hkey _ _ hxy, ih]

theorem orderedInsert_rel {R : (String × JSON) → (String × JSON) → Prop}
    (hkey : ∀ p q, R p q → p.1 = q.1) :
    ∀ {l₁ l₂ : List (String × JSON)}, List.Forall₂ R l₁ l₂ →
      ∀ {p q : String × JSON}, R p q →
      List.Forall₂ R (List.orderedInsert pairLeR p l₁) (List.orderedInsert pairLeR q l₂) := by
  intro l₁ l₂ h
  induction h with
  | nil => intro p q hpq; exact List.Forall₂.cons hpq List.Forall₂.nil
  | @cons x y xs ys hxy hrest ih =>
    intro p q hpq
    simp only [List.orderedInsert]
    by_cases hle : pairLeR p x
    · rw [if_pos hle, if_pos (show pairLeR q y by
        unfold pairLeR at hle ⊢
        rw [← hkey _ _ hpq, ← hkey _ _ hxy]
        exact hle)]
      exact List.Forall₂.cons hpq (List.Forall₂.cons hxy hrest)
    · rw [if_neg hle, if_neg (show ¬ pairLeR q y by
        unfold pairLeR at hle ⊢
        rw [← hkey _ _ hpq, ← hkey _ _ hxy]
        exact hle)]
      exact List.Forall₂.cons hxy (ih hpq)

theorem insertionSort_rel {R : (String × JSON) → (String × JSON) → Prop}
    (hkey : ∀ p q, R p q → p.1 = q.1) :
    ∀ {l₁ l₂ : List (String × JSON)}, List.Forall₂ R l₁ l₂ →
      List.Forall₂ R (sortPairs l₁) (sortPairs l₂) := by
  intro l₁ l₂ h
  induction h with
  | nil => exact List.Forall₂.nil
  | cons hxy hrest ih => exact orderedInsert_rel hkey ih hxy

theorem sig_obj (c : Bool) (fa : List (String × JSON)) :
    getStructuralSignature c (.obj fa) = sigObjBody c (getStructuralSignature c) fa := by
  have h1 : jdepth (JSON.obj fa) = jdepthFields fa + 1 := by
    simp [jdepth, Nat.add_comm]
  unfold getStructuralSignature
  rw [h1]
  show sigObjBody c (sigGo c (jdepthFields fa)) fa = _
  exact sigObjBody_congr (fun v hv => sigGo_eq c (jdepthFields fa) v hv)

theorem filterMap_congr_mem {α β : Type} {f g : α → Option β} :
    ∀ {l : List α}, (∀ a ∈ l, f a = g a) → l.filterMap f = l.filterMap g := by
  intro l
  induction l with
  | nil => intro _; rfl
  | cons a as ih =>
    intro h
    rw [List.filterMap_cons, List.filterMap_cons, h a (List.mem_cons_self _ _),
      ih (fun x hx => h x (List.mem_cons_of_mem _ hx))]

theorem optReq_refl_nonarr (v : JSON) (hv : ∀ xs, v ≠ JSON.arr xs) :
    OptReqEquiv (some v) (some v) := OptReqEquiv.other v v hv hv

theorem optEnum_refl_nonarr (v : JSON) (hv : ∀ xs, v ≠ JSON.arr xs) :
    OptEnumEquiv (some v) (some v) := OptEnumEquiv.other v v hv hv

theorem SEquiv_refl (c : Bool) : ∀ (n : Nat) (j : JSON), jdepth j ≤ n → SEquiv c j j := by
  intro n
  induction n using Nat.strong_induction_on with
  | _ n IH =>
    intro j hj
    cases j with
    | null => exact SEquiv.base _ (fun fs h => nomatch h)
    | bool b => exact SEquiv.base _ (fun fs h => nomatch h)
    | num q => exact SEquiv.base _ (fun fs h => nomatch h)
    | str s => exact SEquiv.base _ (fun fs h => nomatch h)
    | arr xs => exact SEquiv.base _ (fun fs h => nomatch h)
    | obj fa =>
      have hstep : ∀ v, JSON.getKey fa "properties" = some v ∨
          JSON.getKey fa "items" = some v ∨ JSON.getKey fa "allOf" = some v ∨
          JSON.getKey fa "oneOf" = some v ∨ JSON.getKey fa "anyOf" = some v ∨
          JSON.getKey fa "additionalProperties" = some v →
          jdepth v ≤ jdepthFields fa := by
        intro v hv
        rcases hv with h | h | h | h | h | h <;> exact jdepth_getKey h
      have hn : jdepthFields fa < n := by
        simp [jdepth] at hj; omega
      refine SEquiv.obj fa fa rfl rfl rfl (fun _ _ _ => rfl) ?_ ?_ ?_ ?_ ?_ ?_ ?_ ?_
      · cases hk : JSON.getKey fa "properties" with
        | none => exact OptPropsEquiv.none
        | some v =>
          cases v with
          | obj pa =>
            refine OptPropsEquiv.obj pa pa pa (List.Perm.refl pa) ?_
            rw [List.forall₂_same]
            intro p hp
            have hd : jdepth p.2 < n := by
              have h1 : jdepth p.2 ≤ jdepthFields pa := jdepth_mem_fields hp
              have h2 : jdepthFields pa < jdepth (JSON.obj pa) := by simp [jdepth]
              have h3 : jdepth (JSON.obj pa) ≤ jdepthFields fa := jdepth_getKey hk
              omega
            exact PropEntryEquiv.mk p.1 p.2 p.2 (IH (jdepth p.2) hd p.2 le_rfl) rfl
          | null => exact OptPropsEquiv.other JSON.null (fun fs h => nomatch h)
          | bool b => exact OptPropsEquiv.other (JSON.bool b) (fun fs h => nomatch h)
          | num q => exact OptPropsEquiv.other (JSON.num q) (fun fs h => nomatch h)
          | str s => exact OptPropsEquiv.other (JSON.str s) (fun fs h => nomatch h)
          | arr xs => exact OptPropsEquiv.other (JSON.arr xs) (fun fs h => nomatch h)
      · cases hk : JSON.getKey fa "required" with
        | none => exact OptReqEquiv.none
        | some v =>
          cases v with
          | arr xs => exact OptReqEquiv.arr xs xs (List.Perm.refl _)
          | null => exact optReq_refl_nonarr JSON.null (fun xs h => nomatch h)
          | bool b => exact optReq_refl_nonarr (JSON.bool b) (fun xs h => nomatch h)
          | num q => exact optReq_refl_nonarr (JSON.num q) (fun xs h => nomatch h)
          | str s => exact optReq_refl_nonarr (JSON.str s) (fun xs h => nomatch h)
          | obj fs2 => exact optReq_refl_nonarr (JSON.obj fs2) (fun xs h => nomatch h)
      · cases hk : JSON.getKey fa "enum" with
        | none => exact OptEnumEquiv.none
        | some v =>
          cases v with
          | arr xs => exact OptEnumEquiv.arr xs xs (List.Perm.refl _)
          | null => exact optEnum_refl_nonarr JSON.null (fun xs h => nomatch h)
          | bool b => exact optEnum_refl_nonarr (JSON.bool b) (fun xs h => nomatch h)
          | num q => exact optEnum_refl_nonarr (JSON.num q) (fun xs h => nomatch h)
          | str s => exact optEnum_refl_nonarr (JSON.str s) (fun xs h => nomatch h)
          | obj fs2 => exact optEnum_refl_nonarr (JSON.obj fs2) (fun xs h => nomatch h)
      · cases hk : JSON.getKey fa "items" with
        | none => exact OptSEquiv.none
        | some v =>
          refine OptSEquiv.some v v (IH (jdepth v) ?_ v le_rfl)
          have := jdepth_getKey hk
          omega
      · cases hk : JSON.getKey fa "allOf" with
        | none => exact OptCombEquiv.none
        | some v =>
          cases v with
          | arr xs =>
            refine OptCombEquiv.arr xs xs xs (List.Perm.refl _) ?_
            rw [List.forall₂_same]
            intro x hx
            have hd : jdepth x < n := by
              have h1 : jdepth x ≤ jdepthList xs := jdepth_mem_list hx
              have h2 : jdepthList xs < jdepth (JSON.arr xs) := by simp [jdepth]
              have h3 : jdepth (JSON.arr xs) ≤ jdepthFields fa := jdepth_getKey hk
              omega
            exact IH (jdepth x) hd x le_rfl
          | null => exact OptCombEquiv.other JSON.null (fun xs h => nomatch h)
          | bool b => exact OptCombEquiv.other (JSON.bool b) (fun xs h => nomatch h)
          | num q => exact OptCombEquiv.other (JSON.num q) (fun xs h => nomatch h)
          | str s => exact OptCombEquiv.other (JSON.str s) (fun xs h => nomatch h)
          | obj fs2 => exact OptCombEquiv.other (JSON.obj fs2) (fun xs h => nomatch h)
      · cases hk : JSON.getKey fa "oneOf" with
        | none => exact OptCombEquiv.none
        | some v =>
          cases v with
          | arr xs =>
            refine OptCombEquiv.arr xs xs xs (List.Perm.refl _) ?_
            rw [List.forall₂_same]
            intro x hx
            have hd : jdepth x < n := by
              have h1 : jdepth x ≤ jdepthList xs := jdepth_mem_list hx
              have h2 : jdepthList xs < jdepth (JSON.arr xs) := by simp [jdepth]
              have h3 : jdepth (JSON.arr xs) ≤ jdepthFields fa := jdepth_getKey hk
              omega
            exact IH (jdepth x) hd x le_rfl
          | null => exact OptCombEquiv.other JSON.null (fun xs h => nomatch h)
          | bool b => exact OptCombEquiv.other (JSON.bool b) (fun xs h => nomatch h)
          | num q => exact OptCombEquiv.other (JSON.num q) (fun xs h => nomatch h)
          | str s => exact OptCombEquiv.other (JSON.str s) (fun xs h => nomatch h)
          | obj fs2 => exact OptCombEquiv.other (JSON.obj fs2) (fun xs h => nomatch h)
      · cases hk : JSON.getKey fa "anyOf" with
        | none => exact OptCombEquiv.none
        | some v =>
          cases v with
          | arr xs =>
            refine OptCombEquiv.arr xs xs xs (List.Perm.refl _) ?_
            rw [List.forall₂_same]
            intro x hx
            have hd : jdepth x < n := by
              have h1 : jdepth x ≤ jdepthList xs := jdepth_mem_list hx
              have h2 : jdepthList xs < jdepth (JSON.arr xs) := by simp [jdepth]
              have h3 : jdepth (JSON.arr xs) ≤ jdepthFields fa := jdepth_getKey hk
              omega
            exact IH (jdepth x) hd x le_rfl
          | null => exact OptCombEquiv.other JSON.null (fun xs h => nomatch h)
          | bool b => exact OptCombEquiv.other (JSON.bool b) (fun xs h => nomatch h)
          | num q => exact OptCombEquiv.other (JSON.num q) (fun xs h => nomatch h)
          | str s => exact OptCombEquiv.other (JSON.str s) (fun xs h => nomatch h)
          | obj fs2 => exact OptCombEquiv.other (JSON.obj fs2) (fun xs h => nomatch h)
      · cases hk : JSON.getKey fa "additionalProperties" with
        | none => exact OptAddPropsEquiv.none
        | some v =>
          cases v with
          | obj fs2 =>
            refine OptAddPropsEquiv.obj fs2 fs2 (IH (jdepth (JSON.obj fs2)) ?_ _ le_rfl)
            have := jdepth_getKey hk
            omega
          | null => exact OptAddPropsEquiv.other JSON.null (fun fs h => nomatch h)
          | bool b => exact OptAddPropsEquiv.other (JSON.bool b) (fun fs h => nomatch h)
          | num q => exact OptAddPropsEquiv.other (JSON.num q) (fun fs h => nomatch h)
          | str s => exact OptAddPropsEquiv.other (JSON.str s) (fun fs h => nomatch h)
          | arr xs => exact OptAddPropsEquiv.other (JSON.arr xs) (fun fs h => nomatch h)

theorem sig_eq_of_SEquiv (c : Bool) : ∀ (n : Nat) (a b : JSON), jdepth a ≤ n →
    wfb a = true → wfb b = true → SEquiv c a b →
    getStructuralSignature c a = getStructuralSignature c b := by
  intro n
  induction n using Nat.strong_induction_on with
  | _ n IH =>
    intro a b hde hwa hwb heq
    cases heq with
    | base a hno => rfl
    | obj fa fb htype hformat href hcon hprops hreq henum hitems hallOf honeOf hanyOf haddp =>
      have hnfa : jdepthFields fa < n := by simp [jdepth] at hde; omega
      have hcombseg : ∀ key, OptCombEquiv c (JSON.getKey fa key) (JSON.getKey fb key) →
          sigCombinator (getStructuralSignature c) fa key =
          sigCombinator (getStructuralSignature c) fb key := by
        intro key hcomb
        unfold sigCombinator
        cases hc1 : JSON.getKey fa key with
        | none =>
          cases hc2 : JSON.getKey fb key with
          | none => rfl
          | some w => rw [hc1, hc2] at hcomb; cases hcomb
        | some v =>
          cases hc2 : JSON.getKey fb key with
          | none => rw [hc1, hc2] at hcomb; cases hcomb
          | some w =>
            rw [hc1, hc2] at hcomb
            cases hcomb with
            | arr xsa xsb xsb' hperm hrel =>
              have hmape : xsa.map (getStructuralSignature c) =
                  xsb'.map (getStructuralSignature c) := by
                apply forall₂_map_eq
                refine forall₂_imp_mem hrel ?_
                intro x hx y hy hse
                have hdx : jdepth x < n := by
                  have h1 : jdepth x ≤ jdepthList xsa := jdepth_mem_list hx
                  have h2 : jdepthList xsa < jdepth (JSON.arr xsa) := by simp [jdepth]
                  have h3 : jdepth (JSON.arr xsa) ≤ jdepthFields fa := jdepth_getKey hc1
                  omega
                have hwx : wfb x = true :=
                  wfb_mem_list (show wfbList xsa = true from wfb_getKey hwa hc1) hx
                have hy' : y ∈ xsb := hperm.mem_iff.mpr hy
                have hwy : wfb y = true :=
                  wfb_mem_list (show wfbList xsb = true from wfb_getKey hwb hc2) hy'
                exact IH (jdepth x) hdx x y le_rfl hwx hwy hse
              have hperm2 : (xsb'.map (getStructuralSignature c)).Perm
                  (xsb.map (getStructuralSignature c)) :=
                (hperm.map (getStructuralSignature c)).symm
              show [key ++ "=[" ++
                  joinWith ";" (sortStrings (xsa.map (getStructuralSignature c))) ++ "]"] =
                [key ++ "=[" ++
                  joinWith ";" (sortStrings (xsb.map (getStructuralSignature c))) ++ "]"]
              rw [hmape, sortStrings_perm_invariant hperm2]
            | other v' hna => rfl
      rw [sig_obj, sig_obj]
      unfold sigObjBody
      congr 1
      congr 1
      · congr 1
        · congr 1
          · congr 1
            · congr 1
              · congr 1
                · congr 1
                  · congr 1
                    · congr 1
                      · congr 1
                        · congr 1
                          · rw [htype]
                          · rw [hformat]
                        · rw [href]
                      · cases c with
                        | false => rfl
                        | true =>
                          rw [if_pos rfl, if_pos rfl]
                          exact filterMap_congr_mem (fun k hk => by rw [hcon rfl k hk])
                    · unfold sigProps
                      cases hp1 : JSON.getKey fa "properties" with
                      | none =>
                        cases hp2 : JSON.getKey fb "properties" with
                        | none => rfl
                        | some w => rw [hp1, hp2] at hprops; cases hprops
                      | some v =>
                        cases hp2 : JSON.getKey fb "properties" with
                        | none => rw [hp1, hp2] at hprops; cases hprops
                        | some w =>
                          rw [hp1, hp2] at hprops
                          cases hprops with
                          | obj pa pb pb' hperm hrel =>
                            have hwa' : wfb (JSON.obj pa) = true := wfb_getKey hwa hp1
                            have hwb' : wfb (JSON.obj pb) = true := wfb_getKey hwb hp2
                            have hnda : (pa.map Prod.fst).Nodup := (wfb_fields hwa').1
                            have hkey : ∀ p q, PropEntryEquiv c p q → p.1 = q.1 := by
                              intro p q h; cases h; rfl
                            have hrel' : List.Forall₂ (fun p q : String × JSON =>
                                p.1 = q.1 ∧ (p.1 ++ ":" ++ getStructuralSignature c p.2 ++ ":n=" ++
                                  pyStr (nullableOf p.2)) = (q.1 ++ ":" ++
                                  getStructuralSignature c q.2 ++ ":n=" ++
                                  pyStr (nullableOf q.2))) pa pb' := by
                              refine forall₂_imp_mem hrel ?_
                              intro p hp q hq hr
                              cases hr with
                              | mk nm va vb hse hnul =>
                                refine ⟨rfl, ?_⟩
                                have hdv : jdepth va < n := by
                                  have h1 : jdepth va ≤ jdepthFields pa := jdepth_mem_fields hp
                                  have h2 : jdepthFields pa < jdepth (JSON.obj pa) := by simp [jdepth]
                                  have h3 : jdepth (JSON.obj pa) ≤ jdepthFields fa := jdepth_getKey hp1
                                  omega
                                have hwv : wfb va = true := wfb_mem_fields (wfb_fields hwa').2 hp
                                have hq' : (nm, vb) ∈ pb := hperm.mem_iff.mpr hq
                                have hwv2 : wfb vb = true := wfb_mem_fields (wfb_fields hwb').2 hq'
                                have hsig := IH (jdepth va) hdv va vb le_rfl hwv hwv2 hse
                                rw [hsig, hnul]
                            have hsorted := insertionSort_rel (fun p q h => h.1) hrel'
                            have hmap1 : (sortPairs pa).map (fun p => p.1 ++ ":" ++
                                getStructuralSignature c p.2 ++ ":n=" ++ pyStr (nullableOf p.2)) =
                                (sortPairs pb').map (fun p => p.1 ++ ":" ++
                                getStructuralSignature c p.2 ++ ":n=" ++ pyStr (nullableOf p.2)) :=
                              forall₂_map_eq (List.Forall₂.imp (fun a b h => h.2) hsorted)
                            have hfst : pa.map Prod.fst = pb'.map Prod.fst := forall₂_fst_eq hkey hrel
                            have hndb' : (pb'.map Prod.fst).Nodup := by rw [← hfst]; exact hnda
                            have hsp : sortPairs pb' = sortPairs pb :=
                              sortPairs_perm_invariant hperm.symm hndb'
                            show ["props=[" ++ joinWith ";" ((sortPairs pa).map
                                (fun p => p.1 ++ ":" ++ getStructuralSignature c p.2 ++ ":n=" ++
                                  pyStr (nullableOf p.2))) ++ "]"] =
                              ["props=[" ++ joinWith ";" ((sortPairs pb).map
                                (fun p => p.1 ++ ":" ++ getStructuralSignature c p.2 ++ ":n=" ++
                                  pyStr (nullableOf p.2))) ++ "]"]
                            rw [hmap1, hsp]
                          | other v' hno' => rfl
                  · cases hr1 : JSON.getKey fa "required" with
                    | none =>
                      cases hr2 : JSON.getKey fb "required" with
                      | none => rfl
                      | some w => rw [hr1, hr2] at hreq; cases hreq
                    | some v =>
                      cases hr2 : JSON.getKey fb "required" with
                      | none => rw [hr1, hr2] at hreq; cases hreq
                      | some w =>
                        rw [hr1, hr2] at hreq
                        cases hreq with
                        | arr xs ys h =>
                          show ["req=" ++ pyReprStrList (sortStrings (xs.map pyReqElem))] =
                            ["req=" ++ pyReprStrList (sortStrings (ys.map pyReqElem))]
                          rw [sortStrings_perm_invariant h]
                        | other va vb ha hb =>
                          cases v <;> cases w <;> first
                            | exact absurd rfl (ha _)
                            | exact absurd rfl (hb _)
                            | rfl
                · cases hr1 : JSON.getKey fa "enum" with
                  | none =>
                    cases hr2 : JSON.getKey fb "enum" with
                    | none => rfl
                    | some w => rw [hr1, hr2] at henum; cases henum
                  | some v =>
                    cases hr2 : JSON.getKey fb "enum" with
                    | none => rw [hr1, hr2] at henum; cases henum
                    | some w =>
                      rw [hr1, hr2] at henum
                      cases henum with
                      | arr xs ys h =>
                        show ["enum=" ++ pyReprStrList (sortStrings (xs.map pyStr))] =
                          ["enum=" ++ pyReprStrList (sortStrings (ys.map pyStr))]
                        rw [sortStrings_perm_invariant h]
                      | other va vb ha hb =>
                        cases v <;> cases w <;> first
                          | exact absurd rfl (ha _)
                          | exact absurd rfl (hb _)
                          | rfl
              · unfold sigItems
                cases hi1 : JSON.getKey fa "items" with
                | none =>
                  cases hi2 : JSON.getKey fb "items" with
                  | none => rfl
                  | some w => rw [hi1, hi2] at hitems; cases hitems
                | some v =>
                  cases hi2 : JSON.getKey fb "items" with
                  | none => rw [hi1, hi2] at hitems; cases hitems
                  | some w =>
                    rw [hi1, hi2] at hitems
                    cases hitems with
                    | some a' b' hse =>
                      have hdv : jdepth v < n := by
                        have := jdepth_getKey hi1
                        omega
                      have h := IH (jdepth v) hdv v w le_rfl
                        (wfb_getKey hwa hi1) (wfb_getKey hwb hi2) hse
                      show ["items=" ++ getStructuralSignature c v] =
                        ["items=" ++ getStructuralSignature c w]
                      rw [h]
            · exact hcombseg "allOf" hallOf
          · exact hcombseg "oneOf" honeOf
        · exact hcombseg "anyOf" hanyOf
      · unfold sigAddProps
        cases ha1 : JSON.getKey fa "additionalProperties" with
        | none =>
          cases ha2 : JSON.getKey fb "additionalProperties" with
          | none => rfl
          | some w => rw [ha1, ha2] at haddp; cases haddp
        | some v =>
          cases ha2 : JSON.getKey fb "additionalProperties" with
          | none => rw [ha1, ha2] at haddp; cases haddp
          | some w =>
            rw [ha1, ha2] at haddp
            cases haddp with
            | obj f2a f2b hse =>
              have hd : jdepth (JSON.obj f2a) < n := by
                have := jdepth_getKey ha1
                omega
              have h := IH (jdepth (JSON.obj f2a)) hd _ _ le_rfl
                (wfb_getKey hwa ha1) (wfb_getKey hwb ha2) hse
              show ["addProps=" ++ getStructuralSignature c (JSON.obj f2a)] =
                ["addProps=" ++ getStructuralSignature c (JSON.obj f2b)]
              rw [h]
            | other v' hno => rfl


/-- C3 (amended).  Soundness of the signature: on well-formed schema
nodes (pairwise-distinct keys in every object), structural equivalence at
fidelity `c` implies equal structural signatures; in particular metadata
fields and declaration order never affect the signature.  The converse
direction of the claim is false: the signature is a string join, and a
field value containing the separators can collide with a structurally
different node (see the counterexample). -/
theorem C3_signature_of_equiv (c : Bool) (a b : JSON)
    (hwa : wfb a = true) (hwb : wfb b = true) (h : SEquiv c a b) :
    getStructuralSignature c a = getStructuralSignature c b :=
  sig_eq_of_SEquiv c (jdepth a) a b le_rfl hwa hwb h

theorem SEquiv_type_eq {c : Bool} {fa fb : List (String × JSON)}
    (h : SEquiv c (.obj fa) (.obj fb)) :
    JSON.getKey fa "type" = JSON.getKey fb "type" := by
  cases h with
  | base _ hno => exact absurd rfl (hno fa)
  | obj _ _ htype hformat href hcon hprops hreq henum hitems hallOf honeOf hanyOf haddp =>
    exact htype

/-- Counterexample to the "only if" direction of C3 as stated: the node
`\x7b"type": "a|format=b"\x7d` and the node
`\x7b"type": "a", "format": "b"\x7d` have the same signature at either
fidelity, yet they differ on `type`, so they are not structurally
equivalent. -/
theorem C3_counterexample_separator_injection :
    getStructuralSignature true (.obj [("type", .str "a|format=b")]) =
      getStructuralSignature true (.obj [("type", .str "a"), ("format", .str "b")]) ∧
    getStructuralSignature false (.obj [("type", .str "a|format=b")]) =
      getStructuralSignature false (.obj [("type", .str "a"), ("format", .str "b")]) ∧
    JSON.getKey [("type", JSON.str "a|format=b")] "type" ≠
      JSON.getKey [("type", JSON.str "a"), ("format", JSON.str "b")] "type" ∧
    ¬ SEquiv true (.obj [("type", .str "a|format=b")])
      (.obj [("type", .str "a"), ("format", .str "b")]) := by
  refine ⟨by decide, by decide, by decide, ?_⟩
  intro h
  exact absurd (SEquiv_type_eq h) (by decide)

def specC3W1 : JSON := .obj [("type", .str "object"),
  ("description", .str "first"),
  ("properties", .obj [("a", .obj [("type", .str "string")]),
    ("b", .obj [("type", .str "number")])])]

def specC3W2 : JSON := .obj [("description", .str "second"),
  ("properties", .obj [("b", .obj [("type", .str "number")]),
    ("a", .obj [("type", .str "string")])]), ("type", .str "object")]

/-- C3 witness: two schemas that differ in description, field order and
property order have equal signatures. -/
theorem C3_signature_of_equiv_witness :
    getStructuralSignature true specC3W1 = getStructuralSignature true specC3W2 := by
  refine C3_signature_of_equiv true specC3W1 specC3W2 (by decide) (by decide) ?_
  refine SEquiv.obj _ _ (by decide) (by decide) (by decide) (by decide)
    ?_ ?_ ?_ ?_ ?_ ?_ ?_ ?_
  · refine OptPropsEquiv.obj
      [("a", .obj [("type", .str "string")]), ("b", .obj [("type", .str "number")])]
      [("b", .obj [("type", .str "number")]), ("a", .obj [("type", .str "string")])]
      [("a", .obj [("type", .str "string")]), ("b", .obj [("type", .str "number")])]
      (by decide) ?_
    refine List.Forall₂.cons ?_ (List.Forall₂.cons ?_ List.Forall₂.nil)
    · exact PropEntryEquiv.mk "a" _ _
        (SEquiv_refl true (jdepth (JSON.obj [("type", .str "string")])) _ le_rfl) rfl
    · exact PropEntryEquiv.mk "b" _ _
        (SEquiv_refl true (jdepth (JSON.obj [("type", .str "number")])) _ le_rfl) rfl
  · exact OptReqEquiv.none
  · exact OptEnumEquiv.none
  · exact OptSEquiv.none
  · exact OptCombEquiv.none
  · exact OptCombEquiv.none
  · exact OptCombEquiv.none
  · exact OptAddPropsEquiv.none

/-! Spec-side order-insensitivity relation (claim C6): permutations at the
positions the signature recursion descends into. -/

mutual

inductive PermRel : JSON → JSON → Prop where
  | base (a : JSON) (hno : ∀ fs, a ≠ JSON.obj fs) : PermRel a a
  | obj (fa fb : List (String × JSON)) (h : PermRelFields fa fb) :
      PermRel (.obj fa) (.obj fb)

inductive PermRelFields : List (String × JSON) → List (String × JSON) → Prop where
  | nil : PermRelFields [] []
  | cons (k : String) (va vb : JSON) (r1 r2 : List (String × JSON))
      (hv : PermRelVal k va vb) (ht : PermRelFields r1 r2) :
      PermRelFields ((k, va) :: r1) ((k, vb) :: r2)

inductive PermRelVal : String → JSON → JSON → Prop where
  | plain (k : String) (v : JSON) : PermRelVal k v v
  | props (pa pb pb' : List (String × JSON)) (hrel : PermRelProps pa pb')
      (hperm : pb'.Perm pb) : PermRelVal "properties" (.obj pa) (.obj pb)
  | items (va vb : JSON) (h : PermRel va vb) : PermRelVal "items" va vb
  | addProps (fa fb : List (String × JSON)) (h : PermRel (.obj fa) (.obj fb)) :
      PermRelVal "additionalProperties" (.obj fa) (.obj fb)
  | comb (k : String) (hk : k = "allOf" ∨ k = "oneOf" ∨ k = "anyOf")
      (xsa xsb xsb' : List JSON) (hrel : PermRelList xsa xsb')
      (hperm : xsb'.Perm xsb) : PermRelVal k (.arr xsa) (.arr xsb)

inductive PermRelProps : List (String × JSON) → List (String × JSON) → Prop where
  | nil : PermRelProps [] []
  | cons (n : String) (va vb : JSON) (r1 r2 : List (String × JSON))
      (hv : PermRel va vb) (ht : PermRelProps r1 r2) :
      PermRelProps ((n, va) :: r1) ((n, vb) :: r2)

inductive PermRelList : List JSON → List JSON → Prop where
  | nil : PermRelList [] []
  | cons (a b : JSON) (l1 l2 : List JSON) (h : PermRel a b) (ht : PermRelList l1 l2) :
      PermRelList (a :: l1) (b :: l2)

end

theorem permRelFields_refl : ∀ fs, PermRelFields fs fs := by
  intro fs
  induction fs with
  | nil => exact PermRelFields.nil
  | cons p rest ih =>
    obtain ⟨k, v⟩ := p
    exact PermRelFields.cons k v v rest rest (PermRelVal.plain k v) ih

theorem permRel_refl : ∀ j, PermRel j j := by
  intro j
  cases j with
  | obj fs => exact PermRel.obj fs fs (permRelFields_refl fs)
  | null => exact PermRel.base _ (fun fs h => nomatch h)
  | bool b => exact PermRel.base _ (fun fs h => nomatch h)
  | num q => exact PermRel.base _ (fun fs h => nomatch h)
  | str s => exact PermRel.base _ (fun fs h => nomatch h)
  | arr xs => exact PermRel.base _ (fun fs h => nomatch h)

theorem prf_getKey : ∀ {fa fb : List (String × JSON)}, PermRelFields fa fb →
    ∀ k, (JSON.getKey fa k = none ∧ JSON.getKey fb k = none) ∨
      ∃ va vb, JSON.getKey fa k = some va ∧ JSON.getKey fb k = some vb ∧
        PermRelVal k va vb := by
  intro fa
  induction fa with
  | nil =>
    intro fb h k
    cases h
    exact Or.inl ⟨rfl, rfl⟩
  | cons p r1 ih =>
    intro fb h k
    cases h with
    | cons k' va vb r1' r2 hv ht =>
      by_cases he : k' = k
      · subst he
        exact Or.inr ⟨va, vb, by simp [JSON.getKey], by simp [JSON.getKey], hv⟩
      · rcases ih ht k with ⟨e1, e2⟩ | ⟨wa, wb, e1, e2, hw⟩
        · exact Or.inl ⟨by simp [JSON.getKey, he, e1], by simp [JSON.getKey, he, e2]⟩
        · exact Or.inr ⟨wa, wb, by simp [JSON.getKey, he, e1],
            by simp [JSON.getKey, he, e2], hw⟩

theorem prv_eq {k : String} {va vb : JSON} (h : PermRelVal k va vb)
    (h1 : k ≠ "properties") (h2 : k ≠ "items") (h3 : k ≠ "additionalProperties")
    (h4 : k ≠ "allOf") (h5 : k ≠ "oneOf") (h6 : k ≠ "anyOf") : va = vb := by
  cases h with
  | plain => rfl
  | props => exact absurd rfl h1
  | items => exact absurd rfl h2
  | addProps => exact absurd rfl h3
  | comb k' hk' =>
    rcases hk' with h | h | h
    · exact absurd h h4
    · exact absurd h h5
    · exact absurd h h6

theorem prv_props_case {k : String} {va vb : JSON} (h : PermRelVal k va vb)
    (hk : k = "properties") :
    va = vb ∨ ∃ pa pb pb', va = JSON.obj pa ∧ vb = JSON.obj pb ∧
      PermRelProps pa pb' ∧ pb'.Perm pb := by
  cases h with
  | plain => exact Or.inl rfl
  | props pa pb pb' hrel hperm => exact Or.inr ⟨pa, pb, pb', rfl, rfl, hrel, hperm⟩
  | items => exact absurd hk (by decide)
  | addProps => exact absurd hk (by decide)
  | comb k' hk' =>
    subst hk
    rcases hk' with h | h | h <;> exact absurd h (by decide)

theorem prv_items_case {k : String} {va vb : JSON} (h : PermRelVal k va vb)
    (hk : k = "items") : va = vb ∨ PermRel va vb := by
  cases h with
  | plain => exact Or.inl rfl
  | props => exact absurd hk (by decide)
  | items va vb h => exact Or.inr h
  | addProps => exact absurd hk (by decide)
  | comb k' hk' =>
    subst hk
    rcases hk' with h | h | h <;> exact absurd h (by decide)

theorem prv_addp_case {k : String} {va vb : JSON} (h : PermRelVal k va vb)
    (hk : k = "additionalProperties") :
    va = vb ∨ ∃ f2a f2b, va = JSON.obj f2a ∧ vb = JSON.obj f2b ∧
      PermRel (JSON.obj f2a) (JSON.obj f2b) := by
  cases h with
  | plain => exact Or.inl rfl
  | props => exact absurd hk (by decide)
  | items => exact absurd hk (by decide)
  | addProps f2a f2b h => exact Or.inr ⟨f2a, f2b, rfl, rfl, h⟩
  | comb k' hk' =>
    subst hk
    rcases hk' with h | h | h <;> exact absurd h (by decide)

theorem prv_comb_case {k : String} {va vb : JSON} (h : PermRelVal k va vb)
    (hk : k = "allOf" ∨ k = "oneOf" ∨ k = "anyOf") :
    va = vb ∨ ∃ xsa xsb xsb', va = JSON.arr xsa ∧ vb = JSON.arr xsb ∧
      PermRelList xsa xsb' ∧ xsb'.Perm xsb := by
  cases h with
  | plain => exact Or.inl rfl
  | props =>
    rcases hk with h | h | h <;> exact absurd h (by decide)
  | items =>
    rcases hk with h | h | h <;> exact absurd h (by decide)
  | addProps =>
    rcases hk with h | h | h <;> exact absurd h (by decide)
  | comb k' hk' xsa xsb xsb' hrel hperm => exact Or.inr ⟨xsa, xsb, xsb', rfl, rfl, hrel, hperm⟩

theorem prp_forall : ∀ {pa pb : List (String × JSON)}, PermRelProps pa pb →
    List.Forall₂ (fun p q : String × JSON => p.1 = q.1 ∧ PermRel p.2 q.2) pa pb := by
  intro pa
  induction pa with
  | nil =>
    intro pb h
    cases h
    exact List.Forall₂.nil
  | cons p r1 ih =>
    intro pb h
    cases h with
    | cons n va vb r1' r2 hv ht => exact List.Forall₂.cons ⟨rfl, hv⟩ (ih ht)

theorem prl_forall : ∀ {l1 l2 : List JSON}, PermRelList l1 l2 →
    List.Forall₂ PermRel l1 l2 := by
  intro l1
  induction l1 with
  | nil =>
    intro l2 h
    cases h
    exact List.Forall₂.nil
  | cons a r1 ih =>
    intro l2 h
    cases h with
    | cons a' b l1' l2' hab ht => exact List.Forall₂.cons hab (ih ht)

theorem permRel_nullable {va vb : JSON} (h : PermRel va vb) :
    nullableOf va = nullableOf vb := by
  cases h with
  | base => rfl
  | obj fa fb hf =>
    show (JSON.getKey fa "nullable").getD (JSON.bool false) =
      (JSON.getKey fb "nullable").getD (JSON.bool false)
    rcases prf_getKey hf "nullable" with ⟨e1, e2⟩ | ⟨wa, wb, e1, e2, hw⟩
    · rw [e1, e2]
    · rw [e1, e2, prv_eq hw (by decide) (by decide) (by decide) (by decide)
        (by decide) (by decide)]

theorem optProps_refl (c : Bool) (v : JSON) : OptPropsEquiv c (some v) (some v) := by
  cases v with
  | obj pa =>
    refine OptPropsEquiv.obj pa pa pa (List.Perm.refl _) ?_
    rw [List.forall₂_same]
    intro p hp
    exact PropEntryEquiv.mk p.1 p.2 p.2 (SEquiv_refl c (jdepth p.2) p.2 le_rfl) rfl
  | null => exact OptPropsEquiv.other JSON.null (fun fs h => nomatch h)
  | bool b => exact OptPropsEquiv.other (JSON.bool b) (fun fs h => nomatch h)
  | num q => exact OptPropsEquiv.other (JSON.num q) (fun fs h => nomatch h)
  | str s => exact OptPropsEquiv.other (JSON.str s) (fun fs h => nomatch h)
  | arr xs => exact OptPropsEquiv.other (JSON.arr xs) (fun fs h => nomatch h)

theorem optReq_refl (v : JSON) : OptReqEquiv (some v) (some v) := by
  cases v with
  | arr xs => exact OptReqEquiv.arr xs xs (List.Perm.refl _)
  | null => exact optReq_refl_nonarr JSON.null (fun xs h => nomatch h)
  | bool b => exact optReq_refl_nonarr (JSON.bool b) (fun xs h => nomatch h)
  | num q => exact optReq_refl_nonarr (JSON.num q) (fun xs h => nomatch h)
  | str s => exact optReq_refl_nonarr (JSON.str s) (fun xs h => nomatch h)
  | obj fs2 => exact optReq_refl_nonarr (JSON.obj fs2) (fun xs h => nomatch h)

theorem optEnum_refl (v : JSON) : OptEnumEquiv (some v) (some v) := by
  cases v with
  | arr xs => exact OptEnumEquiv.arr xs xs (List.Perm.refl _)
  | null => exact optEnum_refl_nonarr JSON.null (fun xs h => nomatch h)
  | bool b => exact optEnum_refl_nonarr (JSON.bool b) (fun xs h => nomatch h)
  | num q => exact optEnum_refl_nonarr (JSON.num q) (fun xs h => nomatch h)
  | str s => exact optEnum_refl_nonarr (JSON.str s) (fun xs h => nomatch h)
  | obj fs2 => exact optEnum_refl_nonarr (JSON.obj fs2) (fun xs h => nomatch h)

theorem optComb_refl (c : Bool) (v : JSON) : OptCombEquiv c (some v) (some v) := by
  cases v with
  | arr xs =>
    refine OptCombEquiv.arr xs xs xs (List.Perm.refl _) ?_
    rw [List.forall₂_same]
    intro x hx
    exact SEquiv_refl c (jdepth x) x le_rfl
  | null => exact OptCombEquiv.other JSON.null (fun xs h => nomatch h)
  | bool b => exact OptCombEquiv.other (JSON.bool b) (fun xs h => nomatch h)
  | num q => exact OptCombEquiv.other (JSON.num q) (fun xs h => nomatch h)
  | str s => exact OptCombEquiv.other (JSON.str s) (fun xs h => nomatch h)
  | obj fs2 => exact OptCombEquiv.other (JSON.obj fs2) (fun xs h => nomatch h)

theorem optAddp_refl (c : Bool) (v : JSON) : OptAddPropsEquiv c (some v) (some v) := by
  cases v with
  | obj fs2 =>
    exact OptAddPropsEquiv.obj fs2 fs2 (SEquiv_refl c (jdepth (JSON.obj fs2)) _ le_rfl)
  | null => exact OptAddPropsEquiv.other JSON.null (fun fs h => nomatch h)
  | bool b => exact OptAddPropsEquiv.other (JSON.bool b) (fun fs h => nomatch h)
  | num q => exact OptAddPropsEquiv.other (JSON.num q) (fun fs h => nomatch h)
  | str s => exact OptAddPropsEquiv.other (JSON.str s) (fun fs h => nomatch h)
  | arr xs => exact OptAddPropsEquiv.other (JSON.arr xs) (fun fs h => nomatch h)

theorem optS_refl (c : Bool) (v : JSON) : OptSEquiv c (some v) (some v) :=
  OptSEquiv.some v v (SEquiv_refl c (jdepth v) v le_rfl)

theorem permRel_SEquiv (c : Bool) : ∀ (n : Nat) (a b : JSON), jdepth a ≤ n →
    PermRel a b → SEquiv c a b := by
  intro n
  induction n using Nat.strong_induction_on with
  | _ n IH =>
    intro a b hde hpr
    cases hpr with
    | base a hno => exact SEquiv.base a hno
    | obj fa fb hf =>
      have hnfa : jdepthFields fa < n := by simp [jdepth] at hde; omega
      have hplain : ∀ k, k ≠ "properties" → k ≠ "items" → k ≠ "additionalProperties" →
          k ≠ "allOf" → k ≠ "oneOf" → k ≠ "anyOf" →
          JSON.getKey fa k = JSON.getKey fb k := by
        intro k h1 h2 h3 h4 h5 h6
        rcases prf_getKey hf k with ⟨e1, e2⟩ | ⟨va, vb, e1, e2, hv⟩
        · rw [e1, e2]
        · rw [e1, e2, prv_eq hv h1 h2 h3 h4 h5 h6]
      have hcombc : ∀ k, (k = "allOf" ∨ k = "oneOf" ∨ k = "anyOf") →
          OptCombEquiv c (JSON.getKey fa k) (JSON.getKey fb k) := by
        intro k hk
        rcases prf_getKey hf k with ⟨e1, e2⟩ | ⟨va, vb, e1, e2, hv⟩
        · rw [e1, e2]; exact OptCombEquiv.none
        · rw [e1, e2]
          rcases prv_comb_case hv hk with heq | ⟨xsa, xsb, xsb', hva, hvb, hrel, hperm⟩
          · rw [heq]; exact optComb_refl c vb
          · subst hva; subst hvb
            refine OptCombEquiv.arr xsa xsb xsb' hperm.symm ?_
            refine forall₂_imp_mem (prl_forall hrel) ?_
            intro x hx y hy hxy
            refine IH (jdepth x) ?_ x y le_rfl hxy
            have h1 : jdepth x ≤ jdepthList xsa := jdepth_mem_list hx
            have h2 : jdepthList xsa < jdepth (JSON.arr xsa) := by simp [jdepth]
            have h3 : jdepth (JSON.arr xsa) ≤ jdepthFields fa := jdepth_getKey e1
            omega
      refine SEquiv.obj fa fb
        (hplain "type" (by decide) (by decide) (by decide) (by decide) (by decide)
          (by decide))
        (hplain "format" (by decide) (by decide) (by decide) (by decide) (by decide)
          (by decide))
        (hplain "$ref" (by decide) (by decide) (by decide) (by decide) (by decide)
          (by decide))
        (fun _ k hk => hplain k (fun he => absurd (he ▸ hk) (by decide))
          (fun he => absurd (he ▸ hk) (by decide))
          (fun he => absurd (he ▸ hk) (by decide))
          (fun he => absurd (he ▸ hk) (by decide))
          (fun he => absurd (he ▸ hk) (by decide))
          (fun he => absurd (he ▸ hk) (by decide)))
        ?_ ?_ ?_ ?_ (hcombc "allOf" (Or.inl rfl)) (hcombc "oneOf" (Or.inr (Or.inl rfl)))
        (hcombc "anyOf" (Or.inr (Or.inr rfl))) ?_
      · rcases prf_getKey hf "properties" with ⟨e1, e2⟩ | ⟨va, vb, e1, e2, hv⟩
        · rw [e1, e2]; exact OptPropsEquiv.none
        · rw [e1, e2]
          rcases prv_props_case hv rfl with heq | ⟨pa, pb, pb', hva, hvb, hrel, hperm⟩
          · rw [heq]; exact optProps_refl c vb
          · subst hva; subst hvb
            refine OptPropsEquiv.obj pa pb pb' hperm.symm ?_
            refine forall₂_imp_mem (prp_forall hrel) ?_
            intro p hp q hq hpq
            obtain ⟨pn, pv⟩ := p
            obtain ⟨qn, qv⟩ := q
            obtain ⟨h1, h2⟩ := hpq
            simp only at h1
            subst h1
            refine PropEntryEquiv.mk pn pv qv ?_ (permRel_nullable h2)
            refine IH (jdepth pv) ?_ pv qv le_rfl h2
            have hd1 : jdepth pv ≤ jdepthFields pa :=
              jdepth_mem_fields (p := (pn, pv)) hp
            have hd2 : jdepthFields pa < jdepth (JSON.obj pa) := by simp [jdepth]
            have hd3 : jdepth (JSON.obj pa) ≤ jdepthFields fa := jdepth_getKey e1
            omega
      · rw [hplain "required" (by decide) (by decide) (by decide) (by decide)
          (by decide) (by decide)]
        cases JSON.getKey fb "required" with
        | none => exact OptReqEquiv.none
        | some v => exact optReq_refl v
      · rw [hplain "enum" (by decide) (by decide) (by decide) (by decide)
          (by decide) (by decide)]
        cases JSON.getKey fb "enum" with
        | none => exact OptEnumEquiv.none
        | some v => exact optEnum_refl v
      · rcases prf_getKey hf "items" with ⟨e1, e2⟩ | ⟨va, vb, e1, e2, hv⟩
        · rw [e1, e2]; exact OptSEquiv.none
        · rw [e1, e2]
          rcases prv_items_case hv rfl with heq | hpr2
          · rw [heq]; exact optS_refl c vb
          · refine OptSEquiv.some va vb (IH (jdepth va) ?_ va vb le_rfl hpr2)
            have := jdepth_getKey e1
            omega
      · rcases prf_getKey hf "additionalProperties" with ⟨e1, e2⟩ | ⟨va, vb, e1, e2, hv⟩
        · rw [e1, e2]; exact OptAddPropsEquiv.none
        · rw [e1, e2]
          rcases prv_addp_case hv rfl with heq | ⟨f2a, f2b, hva, hvb, hpr2⟩
          · rw [heq]; exact optAddp_refl c vb
          · subst hva; subst hvb
            refine OptAddPropsEquiv.obj f2a f2b
              (IH (jdepth (JSON.obj f2a)) ?_ _ _ le_rfl hpr2)
            have := jdepth_getKey e1
            omega

/-- C6 (amended).  Order insensitivity of the signature: on well-formed
nodes, permuting the entries of a `properties` mapping or the member
lists of `allOf`/`oneOf`/`anyOf` at any position the signature recursion
descends into (property values, `items`, a dict `additionalProperties`,
combinator members) leaves the signature unchanged, for either value of
`include_constraints`.  The restriction to signature-recursion positions
is necessary: a `properties` mapping inside a literal (non-schema) field
value is rendered by `str()` and is order-sensitive (see the
counterexample). -/
theorem C6_signature_order_insensitive (a b : JSON)
    (hwa : wfb a = true) (hwb : wfb b = true) (h : PermRel a b) (c : Bool) :
    getStructuralSignature c a = getStructuralSignature c b :=
  sig_eq_of_SEquiv c (jdepth a) a b le_rfl hwa hwb
    (permRel_SEquiv c (jdepth a) a b le_rfl h)

/-- Counterexample to C6 as stated: permuting the entries of a
`properties` mapping sitting inside the literal value of `type` changes
the signature, because that value is rendered with Python `str()`
(behaviour confirmed against the Python implementation). -/
theorem C6_counterexample_nonschema_position :
    ([(("a" : String), JSON.num 1), ("b", JSON.num 2)]).Perm
      [("b", JSON.num 2), ("a", JSON.num 1)] ∧
    getStructuralSignature true (.obj [("type", .obj [("properties",
      .obj [("a", .num 1), ("b", .num 2)])])]) ≠
    getStructuralSignature true (.obj [("type", .obj [("properties",
      .obj [("b", .num 2), ("a", .num 1)])])]) := by
  constructor
  · decide
  · decide

def specC6W1 : JSON := .obj [("type", .str "object"),
  ("properties", .obj [
    ("x", .obj [("allOf", .arr [.obj [("type", .str "string")],
      .obj [("type", .str "number")]])]),
    ("y", .obj [("type", .str "boolean")])])]

def specC6W2 : JSON := .obj [("type", .str "object"),
  ("properties", .obj [
    ("y", .obj [("type", .str "boolean")]),
    ("x", .obj [("allOf", .arr [.obj [("type", .str "number")],
      .obj [("type", .str "string")]])])])]

/-- C6 witness: a document permuted at a nested `properties` mapping and
at an `allOf` member list keeps its signature at both fidelities. -/
theorem C6_signature_order_insensitive_witness :
    getStructuralSignature true specC6W1 = getStructuralSignature true specC6W2 ∧
    getStructuralSignature false specC6W1 = getStructuralSignature false specC6W2 := by
  have hrel : PermRel specC6W1 specC6W2 := by
    refine PermRel.obj _ _ ?_
    refine PermRelFields.cons "type" _ _ _ _ (PermRelVal.plain _ _) ?_
    refine PermRelFields.cons "properties" _ _ [] [] ?_ PermRelFields.nil
    refine PermRelVal.props
      [("x", .obj [("allOf", .arr [.obj [("type", .str "string")],
        .obj [("type", .str "number")]])]),
       ("y", .obj [("type", .str "boolean")])]
      [("y", .obj [("type", .str "boolean")]),
       ("x", .obj [("allOf", .arr [.obj [("type", .str "number")],
        .obj [("type", .str "string")]])])]
      [("x", .obj [("allOf", .arr [.obj [("type", .str "number")],
        .obj [("type", .str "string")]])]),
       ("y", .obj [("type", .str "boolean")])]
      ?_ (by decide)
    refine PermRelProps.cons "x" _ _ _ _ ?_ ?_
    · refine PermRel.obj _ _ ?_
      refine PermRelFields.cons "allOf" _ _ [] [] ?_ PermRelFields.nil
      refine PermRelVal.comb "allOf" (Or.inl rfl)
        [.obj [("type", .str "string")], .obj [("type", .str "number")]]
        [.obj [("type", .str "number")], .obj [("type", .str "string")]]
        [.obj [("type", .str "string")], .obj [("type", .str "number")]]
        ?_ (by decide)
      exact PermRelList.cons _ _ _ _ (permRel_refl _)
        (PermRelList.cons _ _ _ _ (permRel_refl _) PermRelList.nil)
    · exact PermRelProps.cons "y" _ _ [] [] (permRel_refl _) PermRelProps.nil
  exact ⟨C6_signature_order_insensitive _ _ (by decide) (by decide) hrel true,
    C6_signature_order_insensitive _ _ (by decide) (by decide) hrel false⟩
